import Mathlib

/-!
# esniper `html.c`: tag tokenizer, text tokenizer, entity codec, table walker

A shallow embedding of `src/html.c`.  Bytes are natural numbers `0..255`,
a C string is the list of bytes before its first NUL, and `NULL` is `none`.

* A growable buffer `buf` with its `count` is the list of its first `count` bytes;
  `addchar` appends a byte and `term` leaves the list as it is.
* A loop `while ((c = memGetc(mp)) != EOF)` is a recursion over the unread bytes of the byte
  source; the cursor is advanced by the number of bytes read.
* A loop over `getTag` calls takes a fuel argument; the functions give it more fuel than
  there are unread bytes, and an outer `none` would mean that it ran out.
-/

namespace Html

/-! ## C library and buffer helpers -/

/-- ASCII bytes of a string literal. -/
def bytes (s : String) : List Nat := s.data.map Char.toNat

/-- The C string stored at the start of a byte array: the bytes before the first NUL. -/
def cstr (b : List Nat) : List Nat := b.takeWhile (fun c => c != 0)

/-- C library `isspace` in the "C" locale: space, and `\t \n \v \f \r`. -/
def isspace (c : Nat) : Bool := c == 32 || (9 ≤ c && c ≤ 13)

/-- C library `strncmp(a, b, n) == 0`: the two C strings agree on their first `n` bytes. -/
def strncmpEq (a b : List Nat) (n : Nat) : Bool := (cstr a).take n == (cstr b).take n

/-- Last stored byte `buf[count-1]` of a buffer holding `count = buf.length` bytes. -/
def lastByte (buf : List Nat) : Option Nat := buf.getLast?

/-- Byte `buf[count-2]` of a buffer holding `count = buf.length` bytes. -/
def prevByte (buf : List Nat) : Option Nat := buf.dropLast.getLast?

/-- Store `bs` into the array `buf` starting at index `i` (as `*p++ = b` does from `&buf[i]`). -/
def poke (buf : List Nat) (i : Nat) (bs : List Nat) : List Nat :=
  buf.take i ++ bs ++ buf.drop (i + bs.length)

/-! ## Byte source -/

/-- Modelled from the spec: the byte source `memBuf_t` (declared in `http.h`, not part of
`html.c`): a position cursor `readptr` into an immutable in-memory byte buffer `memory`. -/
structure memBuf where
  memory : List Nat
  readptr : Nat
deriving DecidableEq, Repr

/-- The bytes not yet read: what successive `memGetc` calls return before `EOF`. -/
def memBuf.unread (mp : memBuf) : List Nat := mp.memory.drop mp.readptr

/-- Modelled from the spec: the end-of-input query of the byte source. -/
def memEof (mp : memBuf) : Bool := mp.unread.isEmpty

/-- Modelled from the spec: get-next-byte of the byte source; `none` is `EOF`. -/
def memGetc (mp : memBuf) : Option Nat × memBuf :=
  match mp.unread with
  | [] => (none, mp)
  | c :: _ => (some c, ⟨mp.memory, mp.readptr + 1⟩)

/-- Modelled from the spec: push-back-one-byte of the byte source. -/
def memUngetc (mp : memBuf) : memBuf := ⟨mp.memory, mp.readptr - 1⟩

/-- Cursor after a scan that started at `mp` with `mp.unread` to read and left `rest` unread:
every successful `memGetc` advanced `readptr` by one. -/
def memBuf.advanceTo (mp : memBuf) (rest : List Nat) : memBuf :=
  ⟨mp.memory, mp.readptr + (mp.unread.length - rest.length)⟩

/-! ## Tag tokenizer: `getTag` -/

/-- The loop `while ((c = memGetc(mp)) != EOF && c != '<') ;` on the unread bytes:
the bytes after the first `<`, or `none` when `EOF` came first. -/
def skipToLt : List Nat → Option (List Nat)
  | [] => none
  | c :: rest => if c = 60 then some rest else skipToLt rest

/-- The exit of `getTag` after its loops: `term(...); return count ? buf : NULL`. -/
def tagAtEof (buf : List Nat) : Option (List Nat) :=
  if 0 < buf.length then some (cstr buf) else none

/-- The comment-mode loop of `getTag` (lines 197-206) over the unread bytes, with the bytes
buffered so far.  Returns the token and the bytes left unread. -/
def commentLoop : List Nat → List Nat → Option (List Nat) × List Nat
  | [], buf => (tagAtEof buf, [])
  | c :: rest, buf =>
    if c = 62 ∧ lastByte buf = some 45 ∧ prevByte buf = some 45 then (some (cstr buf), rest)
    else if isspace c = true ∧ lastByte buf = some 32 then commentLoop rest buf
    else commentLoop rest (buf ++ [c])

/-- The non-comment loop of `getTag` (lines 208-245) over the unread bytes, with the bytes
buffered so far and the `inStr` flag.  Returns the token and the bytes left unread. -/
def tagLoop : List Nat → List Nat → Bool → Option (List Nat) × List Nat
  | [], buf, _ => (tagAtEof buf, [])
  | c :: rest, buf, inStr =>
    if c = 92 then
      match rest with
      | [] => (some (cstr (buf ++ [c])), [])
      | c2 :: rest2 => tagLoop rest2 (buf ++ [c, c2]) inStr
    else if c = 62 then
      if inStr then tagLoop rest (buf ++ [c]) inStr else (some (cstr buf), rest)
    else if c = 32 ∨ c = 10 ∨ c = 13 ∨ c = 9 ∨ c = 11 then
      if inStr then tagLoop rest (buf ++ [c]) inStr
      else if 0 < buf.length ∧ lastByte buf ≠ some 32 then tagLoop rest (buf ++ [32]) inStr
      else tagLoop rest buf inStr
    else if c = 34 then tagLoop rest (buf ++ [c]) (!inStr)
    else tagLoop rest (buf ++ [c]) inStr

/-- The body of `getTag` on the unread bytes: the returned token (`none` is `NULL`) and the
bytes left unread. -/
def getTagFrom (l : List Nat) : Option (List Nat) × List Nat :=
  match skipToLt l with
  | none => (none, [])
  | some [] => (none, [])
  | some (c :: r1) =>
    if c = 62 then (some [], r1)
    else if c = 33 then
      match r1 with
      | [] => (some (cstr [c]), [])
      | c2 :: r2 =>
        if c2 = 62 then (some (cstr [c]), r2)
        else if c2 = 45 then
          match r2 with
          | [] => (some (cstr [c, c2]), [])
          | c3 :: r3 =>
            if c3 = 62 then (some (cstr [c, c2]), r3)
            else commentLoop r3 [c, c2, c3]
        else tagLoop r2 [c, c2] false
    else tagLoop r1 [c] false

/-- Function `getTag`: next tag token of the byte source and the advanced cursor. -/
def getTag (mp : memBuf) : Option (List Nat) × memBuf :=
  let r := getTagFrom mp.unread
  (r.1, mp.advanceTo r.2)

/-! ## Entity codec -/

/-- Conversion table `acute2utf8`. -/
def acute2utf8 : List Nat :=
  [0, 0xc381, 0, 0, 0, 0xc389, 0, 0, 0, 0, 0, 0, 0, 0, 0, 0xc393,
   0, 0, 0, 0, 0, 0xc39a, 0, 0, 0, 0xc39d, 0, 0, 0, 0, 0, 0,
   0, 0xc3a1, 0, 0, 0, 0xc3a9, 0, 0, 0, 0, 0, 0, 0, 0, 0, 0xc3b3,
   0, 0, 0, 0, 0, 0xc3ba, 0, 0, 0, 0xc3bd, 0, 0, 0, 0, 0, 0]

/-- Conversion table `grave2utf8`. -/
def grave2utf8 : List Nat :=
  [0, 0xc380, 0, 0, 0, 0xc388, 0, 0, 0, 0, 0xc38c, 0, 0, 0, 0, 0xc392,
   0, 0, 0, 0, 0, 0xc399, 0, 0, 0, 0, 0, 0, 0, 0, 0, 0,
   0, 0xc3a0, 0, 0, 0, 0xc3a8, 0, 0, 0, 0, 0xc3ac, 0, 0, 0, 0, 0xc3b2,
   0, 0, 0, 0, 0, 0xc3b9, 0, 0, 0, 0, 0, 0, 0, 0, 0, 0]

/-- Conversion table `cedil2utf8`. -/
def cedil2utf8 : List Nat :=
  [0, 0, 0, 0xc387, 0, 0, 0, 0, 0, 0, 0, 0, 0, 0, 0, 0,
   0, 0, 0, 0, 0, 0, 0, 0, 0, 0, 0, 0, 0, 0, 0, 0,
   0, 0, 0, 0xc3a7, 0, 0, 0, 0, 0, 0, 0, 0, 0, 0, 0, 0,
   0, 0, 0, 0, 0, 0, 0, 0, 0, 0, 0, 0, 0, 0, 0, 0]

/-- Conversion table `circ2utf8`. -/
def circ2utf8 : List Nat :=
  [0, 0xc382, 0, 0, 0, 0xc38a, 0, 0, 0, 0xc38e, 0, 0, 0, 0, 0, 0xc394,
   0, 0, 0, 0, 0, 0xc39b, 0, 0, 0, 0, 0, 0, 0, 0, 0, 0,
   0, 0xc3a2, 0, 0, 0, 0xc3aa, 0, 0, 0, 0xc3ae, 0, 0, 0, 0, 0, 0xc3b4,
   0, 0, 0, 0, 0, 0xc3bb, 0, 0, 0, 0, 0, 0, 0, 0, 0, 0]

/-- Conversion table `tilde2utf8`. -/
def tilde2utf8 : List Nat :=
  [0, 0xc383, 0, 0, 0, 0, 0, 0, 0, 0, 0, 0, 0, 0, 0xc391, 0,
   0, 0, 0, 0, 0, 0, 0, 0, 0, 0, 0, 0, 0, 0, 0, 0,
   0, 0xc3a3, 0, 0, 0, 0, 0, 0, 0, 0, 0, 0, 0, 0, 0xc3b1, 0,
   0, 0, 0, 0, 0, 0, 0, 0, 0, 0, 0, 0, 0, 0, 0, 0]

/-- Conversion table `uml2utf8`. -/
def uml2utf8 : List Nat :=
  [0, 0xc384, 0, 0, 0, 0xc38b, 0, 0, 0, 0xc38f, 0, 0, 0, 0, 0, 0xc396,
   0, 0, 0, 0xc39f, 0, 0xc39c, 0, 0, 0, 0, 0, 0, 0, 0, 0, 0,
   0, 0xc3a4, 0, 0, 0, 0xc3ab, 0, 0, 0, 0xc3af, 0, 0, 0, 0, 0, 0xc3b6,
   0, 0, 0, 0xc39f, 0, 0xc3bc, 0, 0, 0, 0xc3bf, 0, 0, 0, 0, 0, 0]

/-- The `while (c)` loop of `addutf8char` on a 32-bit `c`: the bytes stored through `*buf++`.
`c & 0xFF000000` is non-zero exactly when `c / 2^24` is, `(c & 0xFF000000) >> 24` is
`c / 2^24`, and `(c & 0x00FFFFFF) << 8` is `(c % 2^24) * 2^8`.  Four rounds shift every bit
out, so the fuel `4` given by `addutf8char` is never exhausted. -/
def addutf8charLoop : Nat → Nat → List Nat
  | 0, _ => []
  | k + 1, c =>
    if c = 0 then []
    else
      (if c / 16777216 ≠ 0 then [c / 16777216] else [])
        ++ addutf8charLoop k ((c % 16777216) * 256)

/-- Function `addutf8char(buf, bufLen, c)`: the bytes it leaves at `buf[0..]` (the `?` stored
first stays only when the loop stores nothing) and its return value. -/
def addutf8char (c : Nat) : List Nat × Nat :=
  let written := addutf8charLoop 4 (c % 4294967296)
  (if written = [] then [63] else written, written.length - 1)

/-- Function `conv2utf8(buf, c, convTab, convLen)`: the bytes it leaves at `buf[0..]` and its
return value.  `c -= 0x40` is done in `char` (modulo 256); the unsigned comparison with
`convLen` succeeds for a wrapped or negative value in neither signedness of `char`. -/
def conv2utf8 (c : Nat) (convTab : List Nat) (convLen : Nat) : List Nat × Nat :=
  let d := (c % 256 + 192) % 256
  if d < convLen ∧ convTab.getD d 0 ≠ 0 then addutf8char (convTab.getD d 0) else ([63], 0)

/-- Enumeration `namedentitytype_t`. -/
inductive namedentitytype_t
  | ne_table
  | ne_utf8
  | ne_char
deriving DecidableEq, Repr

/-- Structure `namedentity_t`; the two members of its union are kept as two fields, of which
the code reads `tab` only for `ne_table` and `c` only otherwise. -/
structure namedentity_t where
  entity : List Nat
  t : namedentitytype_t
  tab : List Nat
  c : Nat
deriving DecidableEq, Repr

open namedentitytype_t in
/-- Table `entity2utf8`. -/
def entity2utf8 : List namedentity_t :=
  [⟨bytes "acute", ne_table, acute2utf8, 0⟩,
   ⟨bytes "grave", ne_table, grave2utf8, 0⟩,
   ⟨bytes "cedil", ne_table, cedil2utf8, 0⟩,
   ⟨bytes "circ", ne_table, circ2utf8, 0⟩,
   ⟨bytes "tilde", ne_table, tilde2utf8, 0⟩,
   ⟨bytes "uml", ne_table, uml2utf8, 0⟩,
   ⟨bytes "trade", ne_utf8, [], 0xe284a2⟩,
   ⟨bytes "amp", ne_char, [], 38⟩,
   ⟨bytes "gt", ne_char, [], 62⟩,
   ⟨bytes "lt", ne_char, [], 60⟩,
   ⟨bytes "quot", ne_char, [], 38⟩]

/-- Value of a digit byte in the given base (10 or 16), if it is one. -/
def digitVal (base c : Nat) : Option Nat :=
  if 48 ≤ c ∧ c ≤ 57 then some (c - 48)
  else if base = 16 ∧ 97 ≤ c ∧ c ≤ 102 then some (c - 87)
  else if base = 16 ∧ 65 ≤ c ∧ c ≤ 70 then some (c - 55)
  else none

/-- Value of the longest run of digits at the start of `s`, continuing from `acc`. -/
def scanDigits (base : Nat) : List Nat → Nat → Nat
  | [], acc => acc
  | c :: s, acc =>
    match digitVal base c with
    | some d => scanDigits base s (acc * base + d)
    | none => acc

/-- C library `sscanf(s, "%u", &c)` (base 10) and `sscanf(s, "%x", &c)` (base 16) on a
C string: leading white space, an optional sign, for `%x` an optional `0x`, then at least one
digit; `none` when nothing is converted (`c` keeps its value).  The digits are converted as
an `unsigned long` of 64 bits, which a longer number saturates, and the low 32 bits are
stored. -/
def sscanfNum (base : Nat) (s : List Nat) : Option Nat :=
  let s1 := s.dropWhile isspace
  let neg := s1.head? = some 45
  let s2 := if s1.head? = some 45 ∨ s1.head? = some 43 then s1.tail else s1
  let s3 :=
    match s2 with
    | 48 :: x :: d :: t =>
      if base = 16 ∧ (x = 120 ∨ x = 88) ∧ (digitVal 16 d).isSome then d :: t else s2
    | _ => s2
  match s3 with
  | [] => none
  | d :: _ =>
    if (digitVal base d).isSome then
      let raw := scanDigits base s3 0
      let v := raw % 4294967296
      if 18446744073709551616 ≤ raw then some 4294967295
      else some (if neg then (4294967296 - v) % 4294967296 else v)
    else none

/-! ## Text tokenizer: `getNonTag` -/

/-- The white-space cases of `getNonTag`:
`if (count && buf[count-1] != ' ') addchar(buf, bufsize, count, ' ')`. -/
def addSpace (buf : List Nat) : List Nat :=
  if 0 < buf.length ∧ lastByte buf ≠ some 32 then buf ++ [32] else buf

/-- The lookup loop over `entity2utf8` (lines 317-325), at a pending `&` stored at
`buf[amp-1]`, with `cp = &buf[amp]` a C string ended by the terminator at `buf[count]`:
`some (array, count)` when an entry matched (`f = 1`), `none` when none did (`f = 0`).
Bytes after the terminator, which `cp+1` addresses when `cp` is the empty string, are taken
to be NUL. -/
def entityLookup (utf8 : Bool) (buf : List Nat) (amp : Nat) :
    List namedentity_t → Option (List Nat × Nat)
  | [] => none
  | e :: es =>
    if utf8 = true ∧ cstr (buf.drop (amp + 1)) = e.entity ∧ e.t = namedentitytype_t.ne_table then
      let r := conv2utf8 (buf.getD amp 0) e.tab 64
      some (poke buf (amp - 1) r.1, amp + r.2)
    else if cstr (buf.drop amp) = e.entity ∧
        (e.t = namedentitytype_t.ne_utf8 ∨ e.t = namedentitytype_t.ne_char) then
      let r := addutf8char (if utf8 then e.c else e.c % 256)
      some (poke buf (amp - 1) r.1, amp + r.2)
    else entityLookup utf8 buf amp es

/-- The conversion part of `case ';'` with a pending `&` (lines 305-326): the array, the new
`count`, the flag `f` and the variable `c` afterwards.  The numeric branch leaves `f` as it
was. -/
def convertEntity (utf8 : Bool) (buf : List Nat) (amp : Nat) (f : Bool) :
    List Nat × Nat × Bool × Nat :=
  if buf.getD amp 0 = 35 then
    let c :=
      if buf.getD (amp + 1) 0 = 120 ∨ buf.getD (amp + 1) 0 = 88 then
        (sscanfNum 16 (cstr (buf.drop (amp + 2)))).getD 59
      else (sscanfNum 10 (cstr (buf.drop (amp + 1)))).getD 59
    let r := addutf8char (if utf8 then c else c % 256)
    (poke buf (amp - 1) r.1, amp + r.2, f, c)
  else
    match entityLookup utf8 buf amp entity2utf8 with
    | some (b, count) => (b, count, true, 59)
    | none => (buf, buf.length, false, 59)

/-- The whole `case ';'` of `getNonTag` (lines 303-339): buffer, `amp` and `f` afterwards. -/
def semicolonCase (utf8 : Bool) (buf : List Nat) (amp : Nat) (f : Bool) :
    List Nat × Nat × Bool :=
  if 0 < amp then
    let r := convertEntity utf8 buf amp f
    let b := r.1
    let count := r.2.1
    let f1 := r.2.2.1
    let c := r.2.2.2
    if f1 then (b.take count, 0, f1)
    else if cstr (b.drop amp) = bytes "nbsp" then
      let b1 := poke b (amp - 1) [32]
      let count1 := if 0 < amp ∧ b1.getD (amp - 1) 0 = 32 then amp - 1 else amp
      (b1.take count1, 0, f1)
    else (b.take count ++ [c % 256], 0, f1)
  else (buf ++ [59], amp, f)

/-- One round of the `switch (c)` of `getNonTag` for a byte other than `<`: buffer, `amp`
and `f` afterwards. -/
def nonTagStep (utf8 : Bool) (c : Nat) (buf : List Nat) (amp : Nat) (f : Bool) :
    List Nat × Nat × Bool :=
  if c = 32 ∨ c = 10 ∨ c = 13 ∨ c = 9 ∨ c = 11 ∨ c = 0x82 ∨ c = 0xC2 ∨ c = 0xA0 then
    (addSpace buf, amp, f)
  else if c = 0xC3 then
    (if utf8 then buf ++ [c] else addSpace buf, amp, f)
  else if c = 59 then semicolonCase utf8 buf amp f
  else if c = 38 then (buf ++ [c], buf.length + 1, f)
  else (buf ++ [c], amp, f)

/-- The tail of `getNonTag`, also used at `<`: drop one trailing space, terminate. -/
def trimSpace (buf : List Nat) : List Nat :=
  if 0 < buf.length ∧ lastByte buf = some 32 then buf.dropLast else buf

/-- The exit of `getNonTag` at end of input (lines 347-351): drop one trailing space,
terminate, `return count ? buf : NULL`. -/
def textAtEof (buf : List Nat) : Option (List Nat) :=
  if 0 < (trimSpace buf).length then some (cstr (trimSpace buf)) else none

/-- The main loop of `getNonTag` (lines 271-346) over the unread bytes, with the buffer, `amp`
and `f`.  Every round reads at least one byte, so the loop makes at most as many rounds as
there are unread bytes; `fuel` bounds the rounds and the outer `none` means it ran out.
Returns the text (`none` is `NULL`) and the bytes left unread. -/
def getNonTagLoop (utf8 : Bool) :
    Nat → List Nat → List Nat → Nat → Bool → Option (Option (List Nat) × List Nat)
  | 0, _, _, _, _ => none
  | _ + 1, [], buf, _, _ => some (textAtEof buf, [])
  | fuel + 1, c :: rest, buf, amp, f =>
    if c = 60 then
      if 0 < buf.length then some (some (cstr (trimSpace buf)), c :: rest)
      else getNonTagLoop utf8 fuel (getTagFrom (c :: rest)).2 buf amp f
    else
      let s := nonTagStep utf8 c buf amp f
      getNonTagLoop utf8 fuel rest s.1 s.2.1 s.2.2

/-- Function `getNonTag`: next text token of the byte source and the advanced cursor.
`utf8` is whether `LANG` contains `UTF-8`; `f0` is the value the uninitialised local `f`
happens to hold on entry (zero or not). -/
def getNonTag (utf8 f0 : Bool) (mp : memBuf) : Option (Option (List Nat) × memBuf) :=
  if memEof mp then some (none, mp)
  else
    (getNonTagLoop utf8 (mp.unread.length + 1) mp.unread [] 0 f0).map
      fun r => (r.1, mp.advanceTo r.2)

/-! ## Table walker -/

/-- The test `!strncmp(cp, "table", 5) && (isspace((int)*(cp+5)) || *(cp+5) == '\0')` on a
tag token. -/
def isTableTag (cp : List Nat) : Bool :=
  strncmpEq cp (bytes "table") 5 && (isspace (cp.getD 5 0) || cp.getD 5 0 == 0)

/-- The test `(!strncmp(cp, "td", 2) || !strncmp(cp, "th", 2)) &&
(isspace((int)*(cp+2)) || *(cp+2) == '\0')` on a tag token. -/
def isCellTag (cp : List Nat) : Bool :=
  (strncmpEq cp (bytes "td") 2 || strncmpEq cp (bytes "th") 2) &&
    (isspace (cp.getD 2 0) || cp.getD 2 0 == 0)

/-- The loop of `getTableEnd` with its `nesting` counter.  Every round that goes on has read
at least one byte, so `fuel` rounds suffice when `fuel` exceeds the unread bytes; the outer
`none` means the fuel ran out. -/
def getTableEndLoop : Nat → memBuf → Int → Option (Option (List Nat) × memBuf)
  | 0, _, _ => none
  | fuel + 1, mp, nesting =>
    match getTag mp with
    | (none, mp1) => some (none, mp1)
    | (some cp, mp1) =>
      if cp = bytes "/table" then
        if nesting - 1 = 0 then some (some cp, mp1)
        else getTableEndLoop fuel mp1 (nesting - 1)
      else if isTableTag cp = true then getTableEndLoop fuel mp1 (nesting + 1)
      else getTableEndLoop fuel mp1 nesting

/-- Function `getTableEnd`: the `/table` tag closing the current table, or `NULL`. -/
def getTableEnd (mp : memBuf) : Option (Option (List Nat) × memBuf) :=
  getTableEndLoop (mp.unread.length + 1) mp 1

/-- The loop of `getTableStart`; `fuel` as in `getTableEndLoop`. -/
def getTableStartLoop : Nat → memBuf → Option (Option (List Nat) × memBuf)
  | 0, _ => none
  | fuel + 1, mp =>
    match getTag mp with
    | (none, mp1) => some (none, mp1)
    | (some cp, mp1) =>
      if isTableTag cp = true then some (some cp, mp1) else getTableStartLoop fuel mp1

/-- Function `getTableStart`: the next `table` tag, or `NULL`. -/
def getTableStart (mp : memBuf) : Option (Option (List Nat) × memBuf) :=
  getTableStartLoop (mp.unread.length + 1) mp

/-- The scan `for (end = mp->readptr - 1; *end != '<'; --end) ;` of `getTableCell`, started
at index `i`: the index of the nearest `<` at or before `i`.  (The scan is only run after a
tag was read, so there is one; at index 0 the model stops.) -/
def scanBack (memory : List Nat) : Nat → Nat
  | 0 => 0
  | i + 1 => if memory.getD (i + 1) 0 = 60 then i + 1 else scanBack memory i

/-- The loop of `getTableCell` with `nesting` and `start`; `fuel` as in `getTableEndLoop`.
The cell text is the C string copied from `memory[start..end)`. -/
def getTableCellLoop : Nat → memBuf → Int → Nat → Option (Option (List Nat) × memBuf)
  | 0, _, _, _ => none
  | fuel + 1, mp, nesting, start =>
    match getTag mp with
    | (none, mp1) => some (none, mp1)
    | (some cp, mp1) =>
      if nesting = 1 ∧ isCellTag cp = true then
        getTableCellLoop fuel mp1 nesting mp1.readptr
      else if nesting = 1 ∧ (cp = bytes "/td" ∨ cp = bytes "/th") then
        let e := scanBack mp1.memory (mp1.readptr - 1)
        some (some (cstr ((mp1.memory.drop start).take (e - start))), mp1)
      else if nesting = 1 ∧ cp = bytes "/tr" then some (none, mp1)
      else if cp = bytes "/table" then
        if nesting - 1 = 0 then some (none, mp1)
        else getTableCellLoop fuel mp1 (nesting - 1) start
      else if isTableTag cp = true then getTableCellLoop fuel mp1 (nesting + 1) start
      else getTableCellLoop fuel mp1 nesting start

/-- Function `getTableCell`: the next cell of the row, or `NULL` at the end of a row or of
the table. -/
def getTableCell (mp : memBuf) : Option (Option (List Nat) × memBuf) :=
  getTableCellLoop (mp.unread.length + 1) mp 1 mp.readptr

/-- The `do ... while (cp)` loop of `getTableRow`: `ret` is the array built so far (`none`
while it is still `NULL`), whose entries are the `myStrdup` copies, the last one `NULL`
(`myStrdup`, not part of `html.c`, copies a string and gives `NULL` for `NULL`).
Every round that goes on has read at least one byte; `fuel` as in `getTableEndLoop`. -/
def getTableRowLoop :
    Nat → memBuf → Option (List (Option (List Nat))) →
      Option (Option (List (Option (List Nat))) × memBuf)
  | 0, _, _ => none
  | fuel + 1, mp, ret =>
    match getTableCell mp with
    | none => none
    | some (cp, mp1) =>
      let i := (ret.getD []).length
      let ret1 := if cp.isSome = true ∨ i ≠ 0 then some (ret.getD [] ++ [cp]) else ret
      if cp.isSome then getTableRowLoop fuel mp1 ret1 else some (ret1, mp1)

/-- Function `getTableRow`: the `NULL`-terminated row, or `NULL` at the end of the table. -/
def getTableRow (mp : memBuf) : Option (Option (List (Option (List Nat))) × memBuf) :=
  getTableRowLoop (mp.unread.length + 1) mp none

/-- Function `numColumns`: the number of entries before the first `NULL`, or `-1`. -/
def numColumns (row : Option (List (Option (List Nat)))) : Int :=
  match row with
  | none => -1
  | some r => ((r.takeWhile (fun x => x.isSome)).length : Int)

/-! ## Reference notions used to state the properties -/

/-- The rounds of the `getNonTag` loop over a text without `<`: the loop state (buffer,
`amp`, `f`) after the bytes of the text have been read, one `nonTagStep` each. -/
def textScan (utf8 : Bool) : List Nat → List Nat × Nat × Bool → List Nat × Nat × Bool
  | [], s => s
  | c :: l, s => textScan utf8 l (nonTagStep utf8 c s.1 s.2.1 s.2.2)

/-- A byte that `getNonTag` copies as it is: not NUL, not `<`, `&` or `;`, and none of the
bytes of its white-space cases (which include `C3`). -/
def plainByte (c : Nat) : Prop :=
  c ≠ 0 ∧ c ≠ 60 ∧ c ≠ 38 ∧ c ≠ 59 ∧ c ≠ 32 ∧ c ≠ 10 ∧ c ≠ 13 ∧ c ≠ 9 ∧ c ≠ 11 ∧
    c ≠ 0x82 ∧ c ≠ 0xC2 ∧ c ≠ 0xA0 ∧ c ≠ 0xC3

instance plainByte.decidable : DecidablePred plainByte := fun c => by
  unfold plainByte
  infer_instance

/-- C library `isalpha` in the "C" locale. -/
def isalpha (c : Nat) : Prop := (65 ≤ c ∧ c ≤ 90) ∨ (97 ≤ c ∧ c ≤ 122)

/-- The white-space bytes of the `switch` in `getTag`: space, `\n`, `\r`, `\t`, `\v`. -/
def tagSpace (c : Nat) : Prop := c = 32 ∨ c = 10 ∨ c = 13 ∨ c = 9 ∨ c = 11

/-- A piece of a double-quoted region of a tag: a byte other than backslash and `"`, or a
backslash with the byte it escapes. -/
inductive QPiece
  | lit (c : Nat)
  | esc (c : Nat)

/-- A piece of a tag body outside quotes: an ordinary byte, a white-space byte, a backslash
with the byte it escapes, or a whole quoted region from `"` to the next unescaped `"`. -/
inductive TagPiece
  | plain (c : Nat)
  | ws (c : Nat)
  | esc (c : Nat)
  | str (q : List QPiece)

/-- Side conditions of a quoted piece. -/
def QPiece.ok : QPiece → Prop
  | QPiece.lit c => c ≠ 92 ∧ c ≠ 34
  | QPiece.esc _ => True

/-- Side conditions of a tag piece. -/
def TagPiece.ok : TagPiece → Prop
  | TagPiece.plain c => c ≠ 92 ∧ c ≠ 62 ∧ c ≠ 34 ∧ ¬ tagSpace c
  | TagPiece.ws c => tagSpace c
  | TagPiece.esc _ => True
  | TagPiece.str q => ∀ p ∈ q, p.ok

/-- The input bytes of the inside of a quoted region. -/
def quotedRaw : List QPiece → List Nat
  | [] => []
  | QPiece.lit c :: q => c :: quotedRaw q
  | QPiece.esc c :: q => 92 :: c :: quotedRaw q

/-- The input bytes of a tag body. -/
def tagRaw : List TagPiece → List Nat
  | [] => []
  | TagPiece.plain c :: ps => c :: tagRaw ps
  | TagPiece.ws c :: ps => c :: tagRaw ps
  | TagPiece.esc c :: ps => 92 :: c :: tagRaw ps
  | TagPiece.str q :: ps => 34 :: quotedRaw q ++ 34 :: tagRaw ps

/-- The token the specification asks for, continuing a token `tok`: ordinary bytes, escape
pairs and quoted regions (quotes included) are copied unchanged; white space outside quotes
becomes one space, not repeated after a space. -/
def tagExpected : List TagPiece → List Nat → List Nat
  | [], tok => tok
  | TagPiece.plain c :: ps, tok => tagExpected ps (tok ++ [c])
  | TagPiece.ws _ :: ps, tok =>
    tagExpected ps (if tok.getLast? = some 32 then tok else tok ++ [32])
  | TagPiece.esc c :: ps, tok => tagExpected ps (tok ++ [92, c])
  | TagPiece.str q :: ps, tok => tagExpected ps (tok ++ 34 :: quotedRaw q ++ [34])


/-- Number of `-` bytes at the end of a byte sequence, counted up to two. -/
def dashes (x : List Nat) : Nat := min 2 (x.reverse.takeWhile (fun c => c == 45)).length


/-- The first `n` tags the byte source yields from `mp` (fewer when `getTag` returns `NULL`
earlier), each with the cursor left behind it. -/
def tagTrace : Nat → memBuf → List (List Nat × memBuf)
  | 0, _ => []
  | n + 1, mp =>
    match getTag mp with
    | (none, _) => []
    | (some cp, mp1) => (cp, mp1) :: tagTrace n mp1

/-- The tags alone of `tagTrace`. -/
def tagToks (n : Nat) (mp : memBuf) : List (List Nat) := (tagTrace n mp).map Prod.fst

/-- Nesting depth after a run of tags, from depth `d`: each table-opening tag adds one, each
`/table` tag takes one off. -/
def depthFrom (d : Int) (toks : List (List Nat)) : Int :=
  d + (toks.countP isTableTag : Int) - (toks.countP (fun cp => cp == bytes "/table") : Int)

/-- What `getTableEnd` returns, in terms of the tags read and the depth after them. -/
def TableEndSpec (d : Int) (mp : memBuf) (r : Option (List Nat) × memBuf) : Prop :=
  (r.1 = none ∧ memEof r.2 = true ∧ ∀ n, 0 < depthFrom d (tagToks n mp)) ∨
  (r.1 = some (bytes "/table") ∧
    ∃ k, (tagTrace (k + 1) mp).length = k + 1 ∧
      (tagTrace (k + 1) mp).getLast? = some (bytes "/table", r.2) ∧
      depthFrom d (tagToks (k + 1) mp) = 0 ∧ ∀ j, j ≤ k → 0 < depthFrom d (tagToks j mp))


/-- The opening tag of a cell: `<th>` or `<td>`. -/
def cellOpen (th : Bool) : List Nat := if th then bytes "<th>" else bytes "<td>"

/-- The closing tag of a cell: `</th>` or `</td>`. -/
def cellClose (th : Bool) : List Nat := if th then bytes "</th>" else bytes "</td>"

/-- The markup of one cell `<td>c</td>` (or `<th>c</th>` when the flag is set). -/
def cellRaw (c : Bool × List Nat) : List Nat := cellOpen c.1 ++ c.2 ++ cellClose c.1

/-- The markup of the cells of a row, one after the other. -/
def rowRaw : List (Bool × List Nat) → List Nat
  | [] => []
  | c :: cs => cellRaw c ++ rowRaw cs


/-- The accented letters among the HTML 4 Latin-1 character entities whose name is a letter
followed by `acute`, `grave`, `cedil`, `circ`, `tilde` or `uml`, with their code points (the
list the comment above the conversion tables refers to). -/
def html4Latin1 : List (List Nat × Nat) :=
  [(bytes "Agrave", 0xC0), (bytes "Aacute", 0xC1), (bytes "Acirc", 0xC2), (bytes "Atilde", 0xC3),
   (bytes "Auml", 0xC4), (bytes "Ccedil", 0xC7), (bytes "Egrave", 0xC8), (bytes "Eacute", 0xC9),
   (bytes "Ecirc", 0xCA), (bytes "Euml", 0xCB), (bytes "Igrave", 0xCC), (bytes "Iacute", 0xCD),
   (bytes "Icirc", 0xCE), (bytes "Iuml", 0xCF), (bytes "Ntilde", 0xD1), (bytes "Ograve", 0xD2),
   (bytes "Oacute", 0xD3), (bytes "Ocirc", 0xD4), (bytes "Otilde", 0xD5), (bytes "Ouml", 0xD6),
   (bytes "Ugrave", 0xD9), (bytes "Uacute", 0xDA), (bytes "Ucirc", 0xDB), (bytes "Uuml", 0xDC),
   (bytes "Yacute", 0xDD), (bytes "agrave", 0xE0), (bytes "aacute", 0xE1), (bytes "acirc", 0xE2),
   (bytes "atilde", 0xE3), (bytes "auml", 0xE4), (bytes "ccedil", 0xE7), (bytes "egrave", 0xE8),
   (bytes "eacute", 0xE9), (bytes "ecirc", 0xEA), (bytes "euml", 0xEB), (bytes "igrave", 0xEC),
   (bytes "iacute", 0xED), (bytes "icirc", 0xEE), (bytes "iuml", 0xEF), (bytes "ntilde", 0xF1),
   (bytes "ograve", 0xF2), (bytes "oacute", 0xF3), (bytes "ocirc", 0xF4), (bytes "otilde", 0xF5),
   (bytes "ouml", 0xF6), (bytes "ugrave", 0xF9), (bytes "uacute", 0xFA), (bytes "ucirc", 0xFB),
   (bytes "uuml", 0xFC), (bytes "yacute", 0xFD), (bytes "yuml", 0xFF)]

/-- The two-byte UTF-8 encoding of a code point in `0x80..0x7FF`, as a big-endian 16-bit
number: first byte `0xC0 | (cp >> 6)`, second byte `0x80 | (cp & 0x3F)`. -/
def utf8Pair (cp : Nat) : Nat := (0xC0 + cp / 64) * 256 + (0x80 + cp % 64)


/-- C library `isalnum` in the "C" locale: a letter or a digit. -/
def isalnum (c : Nat) : Prop := isalpha c ∨ (48 ≤ c ∧ c ≤ 57)


/-- One call of a tokenizer function on the byte source: `getTag`, or `getNonTag` with the
output mode and the value the uninitialised flag happens to hold. -/
inductive Call
  | tag
  | text (utf8 f0 : Bool)

/-- The result of one tokenizer call: the token (`none` is `NULL`) and the cursor after. -/
def runCall : Call → memBuf → Option (Option (List Nat) × memBuf)
  | Call.tag, mp => some (getTag mp)
  | Call.text utf8 f0, mp => getNonTag utf8 f0 mp

/-- The results of a sequence of tokenizer calls on one byte source, and the cursor after. -/
def runCalls : List Call → memBuf → Option (List (Option (List Nat)) × memBuf)
  | [], mp => some ([], mp)
  | c :: cs, mp =>
    match runCall c mp with
    | none => none
    | some (tok, mp1) =>
      match runCalls cs mp1 with
      | none => none
      | some (toks, mp2) => some (tok :: toks, mp2)


/-- The bytes that the `switch` of `getNonTag` treats as white space: space, `\n`, `\r`,
`\t`, `\v`, `82`, `C2`, `A0`, and `C3` unless the output is UTF-8. -/
def isTextWs (utf8 : Bool) (c : Nat) : Bool :=
  c == 32 || c == 10 || c == 13 || c == 9 || c == 11 || c == 0x82 || c == 0xC2 || c == 0xA0 ||
    (c == 0xC3 && !utf8)

/-- A buffer of text as the `getNonTag` loop keeps it while no `&` is read: no space at the
start, no two spaces in a row, and apart from spaces no white-space byte. -/
def Clean (utf8 : Bool) (buf : List Nat) : Prop :=
  buf.head? ≠ some 32 ∧ List.Chain' (fun a b => ¬ (a = 32 ∧ b = 32)) buf ∧
    ∀ c ∈ buf, c = 32 ∨ isTextWs utf8 c = false

/-- The words of a text with the white-space runs in front of them: the input bytes. -/
def wordsRaw : List (List Nat × List Nat) → List Nat
  | [] => []
  | (sep, w) :: ws => sep ++ w ++ wordsRaw ws

/-- The words of a text, each with one space in front. -/
def wordsSpaced : List (List Nat × List Nat) → List Nat
  | [] => []
  | (_, w) :: ws => 32 :: w ++ wordsSpaced ws

/-- A byte of a word of text: no white space to `getNonTag`, and not `<`, `&` or NUL. -/
def wordByte (utf8 : Bool) (c : Nat) : Prop :=
  isTextWs utf8 c = false ∧ c ≠ 60 ∧ c ≠ 38 ∧ c ≠ 0


/-- The input byte with `82`, `A0`, `C2` (and `C3` unless the output is UTF-8) replaced by a
space. -/
def spaceOut (utf8 : Bool) (c : Nat) : Nat :=
  if c = 0x82 ∨ c = 0xA0 ∨ c = 0xC2 ∨ (c = 0xC3 ∧ utf8 = false) then 32 else c


/-- The cursor after `n` calls of `getTag`. -/
def tagCursor : Nat → memBuf → memBuf
  | 0, mp => mp
  | n + 1, mp => tagCursor n (getTag mp).2

/-- A run of tags read from depth `d` at which `getTableCell` goes on reading: at depth 1 none
of the tags `/td`, `/th`, `/tr`, `/table`, and, unless `cells` is set, no cell-opening tag
either; the depth goes as in `depthFrom`. -/
def passedOver (cells : Bool) (d : Int) : List (List Nat) → Bool
  | [] => true
  | cp :: t =>
    !(d == 1 && ((!cells && isCellTag cp) || cp == bytes "/td" || cp == bytes "/th" ||
        cp == bytes "/tr" || cp == bytes "/table")) &&
      passedOver cells (depthFrom d [cp]) t

/-- The outcome of a failed table lookup, as a test on one family name with its table and one
base byte `b`: when `b` is none of `#`, `&`, `;`, `<` and the table has no mapping for it, the
text `&`, `b`, name, `;` gives the one byte `?` in UTF-8 mode, whatever `f` held on entry. -/
def placeholderAt (name tab : List Nat) (b : Nat) : Bool :=
  decide ((b ≠ 35 ∧ b ≠ 38 ∧ b ≠ 59 ∧ b ≠ 60) →
    (b < 0x40 ∨ 0x7F < b ∨ tab.getD (b - 0x40) 0 = 0) →
    ∀ f0 ∈ [true, false],
      getNonTag true f0 ⟨38 :: b :: name ++ [59], 0⟩ =
        some (some [63], ⟨38 :: b :: name ++ [59], name.length + 3⟩))


/-! # Lemmas and theorems -/

/-! ## The byte source read byte by byte -/

theorem memGetc_fst (mp : memBuf) : (memGetc mp).1 = mp.unread.head? := by
  unfold memGetc
  cases h : mp.unread <;> simp

theorem memGetc_unread (mp : memBuf) : (memGetc mp).2.unread = mp.unread.tail := by
  unfold memGetc
  cases h : mp.unread with
  | nil => simp [h]
  | cons c l =>
    have e : mp.memory.drop (mp.readptr + 1) = (mp.memory.drop mp.readptr).tail := by
      rw [List.tail_drop]
    simp only [memBuf.unread] at h ⊢
    rw [e, h]

theorem memUngetc_memGetc (mp : memBuf) (h : memEof mp = false) :
    memUngetc (memGetc mp).2 = mp := by
  unfold memGetc memUngetc
  cases hu : mp.unread with
  | nil => simp [memEof, hu] at h
  | cons c l => simp

/-! ## Evaluation at concrete inputs -/

/-- C10 (code at the failing inputs): `getTag` on `<a >` returns the token `a ` with its
trailing space, and on `< a>` the token ` a` with its leading space. -/
theorem C10_getTag_keeps_edge_spaces :
    getTag ⟨bytes "<a >", 0⟩ = (some (bytes "a "), ⟨bytes "<a >", 4⟩) ∧
    getTag ⟨bytes "< a>", 0⟩ = (some (bytes " a"), ⟨bytes "< a>", 4⟩) := by
  constructor <;> decide

/-- C9 (code at the failing input): in both output modes `getNonTag` on `a&nbsp;b` returns
`ab`, while on `a b` it returns `a b`. -/
theorem C9_nbsp_vanishes (utf8 f0 : Bool) :
    getNonTag utf8 f0 ⟨bytes "a&nbsp;b", 0⟩ = some (some (bytes "ab"), ⟨bytes "a&nbsp;b", 8⟩) ∧
    getNonTag utf8 f0 ⟨bytes "a b", 0⟩ = some (some (bytes "a b"), ⟨bytes "a b", 3⟩) := by
  cases utf8 <;> cases f0 <;> constructor <;> decide

/-- C8 (the claim as stated fails): with UTF-8 output disabled `getNonTag` on `&auml;` does
not return the single byte `E4`. -/
theorem C8_counterexample :
    ¬ ((getNonTag false false ⟨bytes "&auml;", 0⟩).map (fun r => r.1) = some (some [0xE4])) := by
  decide

/-- C8 (amended): with UTF-8 output disabled the accent tables are not consulted, and
`getNonTag` on `&auml;` returns the six bytes `&auml;` unchanged. -/
theorem C8_auml_literal_without_utf8 (f0 : Bool) :
    getNonTag false f0 ⟨bytes "&auml;", 0⟩ = some (some (bytes "&auml;"), ⟨bytes "&auml;", 6⟩) := by
  cases f0 <;> decide

/-- C6 (code at the failing input): after an undecoded entity in the same call the flag `f`
is zero and the numeric branch does not set it, so `&foo;&#65;` returns `&foo;AA` and
`&foo;&#x41;` returns `&foo;AA`; as a whole input `&#65;` returns `A` only when the
uninitialised `f` happens to be non-zero, and `AA` when it is zero. -/
theorem C6_numeric_reference_doubled (utf8 : Bool) :
    (∀ f0, getNonTag utf8 f0 ⟨bytes "&foo;&#65;", 0⟩ =
      some (some (bytes "&foo;AA"), ⟨bytes "&foo;&#65;", 10⟩)) ∧
    (∀ f0, getNonTag utf8 f0 ⟨bytes "&foo;&#x41;", 0⟩ =
      some (some (bytes "&foo;AA"), ⟨bytes "&foo;&#x41;", 11⟩)) ∧
    getNonTag utf8 false ⟨bytes "&#65;", 0⟩ = some (some (bytes "AA"), ⟨bytes "&#65;", 5⟩) ∧
    getNonTag utf8 true ⟨bytes "&#65;", 0⟩ = some (some (bytes "A"), ⟨bytes "&#65;", 5⟩) ∧
    getNonTag utf8 true ⟨bytes "&#x41;", 0⟩ = some (some (bytes "A"), ⟨bytes "&#x41;", 6⟩) := by
  cases utf8 <;> refine ⟨?_, ?_, ?_, ?_, ?_⟩ <;> decide

/-- C7: in UTF-8 mode, for every table entry of `entity2utf8` (the six accent families) and
every base byte `b` in `0x40..0x7F` whose slot `b - 0x40` holds a non-zero `v`, `getNonTag` on
`&`, `b`, the family name, `;` returns exactly the two bytes `v >> 8` and `v & 0xFF`. -/
theorem C7_accent_entity_utf8 (e : namedentity_t) (he : e ∈ entity2utf8)
    (ht : e.t = namedentitytype_t.ne_table) (b : Nat) (hb1 : 0x40 ≤ b) (hb2 : b ≤ 0x7F)
    (hv : e.tab.getD (b - 0x40) 0 ≠ 0) (f0 : Bool) :
    getNonTag true f0 ⟨38 :: b :: e.entity ++ [59], 0⟩ =
      some (some [e.tab.getD (b - 0x40) 0 >>> 8, e.tab.getD (b - 0x40) 0 &&& 0xFF],
        ⟨38 :: b :: e.entity ++ [59], e.entity.length + 3⟩) := by
  simp only [entity2utf8, List.mem_cons, List.mem_singleton, List.not_mem_nil, or_false] at he
  rcases he with rfl | rfl | rfl | rfl | rfl | rfl | rfl | rfl | rfl | rfl | rfl
  all_goals first
    | (exfalso; revert ht; decide)
    | (interval_cases b <;> first
        | (exfalso; revert hv; decide)
        | (cases f0 <;> decide))

/-- C7 witness: `&auml;` returns the two bytes `C3 A4`. -/
theorem C7_accent_entity_utf8_witness :
    getNonTag true false ⟨bytes "&auml;", 0⟩ = some (some [0xC3, 0xA4], ⟨bytes "&auml;", 6⟩) :=
  C7_accent_entity_utf8 ⟨bytes "uml", namedentitytype_t.ne_table, uml2utf8, 0⟩ (by decide) rfl
    97 (by decide) (by decide) (by decide) false

/-! ## Buffer lemmas -/

theorem getD_append_add (buf t : List Nat) (a : Nat) :
    (buf ++ t).getD (buf.length + a) 0 = t.getD a 0 := by
  simp [List.getD_eq_getElem?_getD, List.getElem?_append_right]

theorem drop_append_add (buf t : List Nat) (a : Nat) :
    (buf ++ t).drop (buf.length + a) = t.drop a := by
  rw [List.drop_append_eq_append_drop]
  simp

theorem take_append_add (buf t : List Nat) (a : Nat) :
    (buf ++ t).take (buf.length + a) = buf ++ t.take a := by
  rw [List.take_append_eq_append_take]
  simp

theorem poke_append_add0 (buf t bs : List Nat) (k : Nat) :
    poke (buf ++ t) (buf.length + k) bs = buf ++ poke t k bs := by
  unfold poke
  rw [take_append_add, Nat.add_assoc, drop_append_add]
  simp

theorem poke_append_add (buf t bs : List Nat) (a : Nat) (ha : 0 < a) :
    poke (buf ++ t) (buf.length + a - 1) bs = buf ++ poke t (a - 1) bs := by
  have h : buf.length + a - 1 = buf.length + (a - 1) := by omega
  rw [h, poke_append_add0]

theorem entityLookup_append (utf8 : Bool) (buf t : List Nat) (a : Nat) (ha : 0 < a)
    (es : List namedentity_t) :
    entityLookup utf8 (buf ++ t) (buf.length + a) es =
      (entityLookup utf8 t a es).map (fun r => (buf ++ r.1, buf.length + r.2)) := by
  induction es with
  | nil => simp [entityLookup]
  | cons e es ih =>
    simp only [entityLookup, Nat.add_assoc, drop_append_add, getD_append_add,
      poke_append_add _ _ _ _ ha, ih]
    split_ifs <;> simp

theorem convertEntity_append (utf8 : Bool) (buf t : List Nat) (a : Nat) (ha : 0 < a) (f : Bool) :
    convertEntity utf8 (buf ++ t) (buf.length + a) f =
      (buf ++ (convertEntity utf8 t a f).1, buf.length + (convertEntity utf8 t a f).2.1,
        (convertEntity utf8 t a f).2.2) := by
  simp only [convertEntity, Nat.add_assoc, drop_append_add, getD_append_add,
    poke_append_add _ _ _ _ ha, entityLookup_append _ _ _ _ ha]
  split_ifs <;> try simp
  all_goals cases entityLookup utf8 t a entity2utf8 <;> simp

theorem semicolonCase_append (utf8 : Bool) (buf t : List Nat) (a : Nat) (ha : 0 < a) (f : Bool) :
    semicolonCase utf8 (buf ++ t) (buf.length + a) f =
      (buf ++ (semicolonCase utf8 t a f).1, (semicolonCase utf8 t a f).2) := by
  have h1 : 0 < buf.length + a := by omega
  have h2 : buf.length + a - 1 = buf.length + (a - 1) := by omega
  simp only [semicolonCase, convertEntity_append _ _ _ _ ha, h1, ha, if_true, take_append_add,
    drop_append_add, h2, poke_append_add0, getD_append_add, true_and]
  split_ifs <;> simp [take_append_add]

/-! ## The text loop on tag-free text -/

theorem textScan_append (utf8 : Bool) (a b : List Nat) (s : List Nat × Nat × Bool) :
    textScan utf8 (a ++ b) s = textScan utf8 b (textScan utf8 a s) := by
  induction a generalizing s with
  | nil => rfl
  | cons c a ih => simp [textScan, ih]

theorem getNonTagLoop_textScan (utf8 : Bool) (x rest : List Nat) (hx : 60 ∉ x) (fuel : Nat)
    (buf : List Nat) (amp : Nat) (f : Bool) :
    getNonTagLoop utf8 (fuel + x.length) (x ++ rest) buf amp f =
      getNonTagLoop utf8 fuel rest (textScan utf8 x (buf, amp, f)).1
        (textScan utf8 x (buf, amp, f)).2.1 (textScan utf8 x (buf, amp, f)).2.2 := by
  induction x generalizing buf amp f with
  | nil => simp [textScan]
  | cons c x ih =>
    have hc : c ≠ 60 := fun h => hx (by simp [h])
    have hx2 : 60 ∉ x := fun h => hx (by simp [h])
    simp only [List.length_cons, ← Nat.add_assoc, List.cons_append, getNonTagLoop, hc, if_false,
      textScan]
    exact ih hx2 _ _ _

theorem getNonTag_textScan (utf8 f0 : Bool) (t : List Nat) (ht : 60 ∉ t) (hne : t ≠ []) :
    getNonTag utf8 f0 ⟨t, 0⟩ =
      some (textAtEof (textScan utf8 t ([], 0, f0)).1, ⟨t, t.length⟩) := by
  have h := getNonTagLoop_textScan utf8 t [] ht 1 [] 0 f0
  simp only [List.append_nil, Nat.add_comm 1] at h
  have he : memEof ⟨t, 0⟩ = false := by
    cases t with
    | nil => exact absurd rfl hne
    | cons c t => rfl
  simp [getNonTag, he, memBuf.unread, h, getNonTagLoop, memBuf.advanceTo]

theorem textScan_plain (utf8 : Bool) (x : List Nat) (hx : ∀ c ∈ x, plainByte c)
    (buf : List Nat) (amp : Nat) (f : Bool) :
    textScan utf8 x (buf, amp, f) = (buf ++ x, amp, f) := by
  induction x generalizing buf with
  | nil => simp [textScan]
  | cons c x ih =>
    have hc := hx c (by simp)
    obtain ⟨h0, h1, h2, h3, h4, h5, h6, h7, h8, h9, h10, h11, h12⟩ := hc
    have hx2 : ∀ d ∈ x, plainByte d := fun d hd => hx d (by simp [hd])
    simp [textScan, nonTagStep, h0, h1, h2, h3, h4, h5, h6, h7, h8, h9, h10, h11, h12, ih hx2]

theorem cstr_eq_self (b : List Nat) (h : ∀ c ∈ b, c ≠ 0) : cstr b = b := by
  unfold cstr
  rw [List.takeWhile_eq_self_iff]
  intro c hc
  simpa using h c hc

theorem textAtEof_eq_self (b : List Nat) (hne : b ≠ []) (h : ∀ c ∈ b, c ≠ 0 ∧ c ≠ 32) :
    textAtEof b = some b := by
  have hl : lastByte b ≠ some 32 := by
    intro hl
    have := List.mem_of_getLast?_eq_some hl
    exact (h 32 this).2 rfl
  have hpos : 0 < b.length := List.length_pos.mpr hne
  simp [textAtEof, trimSpace, hl, hpos, cstr_eq_self b (fun c hc => (h c hc).1)]

theorem plainByte_ne (c : Nat) (h : plainByte c) : c ≠ 0 ∧ c ≠ 32 ∧ c ≠ 60 :=
  ⟨h.1, h.2.2.2.2.1, h.2.1⟩

/-! ## Entities -/

theorem textScan_entity (utf8 : Bool) (name : List Nat) (hn : ∀ c ∈ name, plainByte c)
    (buf : List Nat) (amp : Nat) (f : Bool) :
    textScan utf8 (38 :: name ++ [59]) (buf, amp, f) =
      (buf ++ (semicolonCase utf8 (38 :: name) 1 f).1, (semicolonCase utf8 (38 :: name) 1 f).2) := by
  have h1 : textScan utf8 (38 :: name ++ [59]) (buf, amp, f) =
      textScan utf8 [59] (textScan utf8 name (buf ++ [38], buf.length + 1, f)) := by
    rw [List.cons_append, textScan, textScan_append]
    simp [nonTagStep]
  rw [h1, textScan_plain utf8 name hn]
  have h2 : ∀ b a, textScan utf8 [59] (b, a, f) = semicolonCase utf8 b a f := by
    intro b a
    simp [textScan, nonTagStep]
  rw [h2, List.append_assoc, semicolonCase_append _ _ _ _ (by decide)]
  rfl

theorem getTag_at (pre l : List Nat) :
    getTag ⟨pre ++ l, pre.length⟩ =
      ((getTagFrom l).1, ⟨pre ++ l, pre.length + (l.length - (getTagFrom l).2.length)⟩) := by
  simp [getTag, memBuf.unread, memBuf.advanceTo]

theorem tagLoop_cons (c : Nat) (rest buf : List Nat) (inStr : Bool) :
    tagLoop (c :: rest) buf inStr =
    if c = 92 then
      match rest with
      | [] => (some (cstr (buf ++ [c])), [])
      | c2 :: rest2 => tagLoop rest2 (buf ++ [c, c2]) inStr
    else if c = 62 then
      if inStr then tagLoop rest (buf ++ [c]) inStr else (some (cstr buf), rest)
    else if c = 32 ∨ c = 10 ∨ c = 13 ∨ c = 9 ∨ c = 11 then
      if inStr then tagLoop rest (buf ++ [c]) inStr
      else if 0 < buf.length ∧ lastByte buf ≠ some 32 then tagLoop rest (buf ++ [32]) inStr
      else tagLoop rest buf inStr
    else if c = 34 then tagLoop rest (buf ++ [c]) (!inStr)
    else tagLoop rest (buf ++ [c]) inStr := by
  cases rest <;> rfl

theorem tagLoop_nil (buf : List Nat) (inStr : Bool) : tagLoop [] buf inStr = (tagAtEof buf, []) := by
  rfl

theorem tagLoop_quoted (q : List QPiece) (hq : ∀ p ∈ q, p.ok) (rest buf : List Nat) :
    tagLoop (quotedRaw q ++ 34 :: rest) buf true =
      tagLoop rest (buf ++ quotedRaw q ++ [34]) false := by
  induction q generalizing buf with
  | nil => simp [quotedRaw, tagLoop_cons]
  | cons p q ih =>
    have hq2 : ∀ p ∈ q, p.ok := fun p hp => hq p (by simp [hp])
    cases p with
    | lit c =>
      have hc : c ≠ 92 ∧ c ≠ 34 := hq (QPiece.lit c) (by simp)
      simp only [quotedRaw, List.cons_append, tagLoop_cons c, hc.1, hc.2, if_false, if_true,
        ih hq2]
      split_ifs <;> simp
    | esc c =>
      simp [quotedRaw, tagLoop_cons 92, ih hq2]

theorem tagLoop_pieces (ps : List TagPiece) (hps : ∀ p ∈ ps, p.ok) (rest buf : List Nat)
    (hbuf : buf ≠ []) :
    tagLoop (tagRaw ps ++ rest) buf false = tagLoop rest (tagExpected ps buf) false := by
  induction ps generalizing buf with
  | nil => simp [tagRaw, tagExpected]
  | cons p ps ih =>
    have hps2 : ∀ p ∈ ps, p.ok := fun p hp => hps p (by simp [hp])
    have hp := hps p (by simp)
    have hpos : 0 < buf.length := List.length_pos.mpr hbuf
    cases p with
    | plain c =>
      obtain ⟨h1, h2, h3, h4⟩ := hp
      simp only [tagSpace] at h4
      simp only [tagRaw, List.cons_append, tagLoop_cons c, h1, h2, h3, h4, if_false, tagExpected]
      exact ih hps2 (buf ++ [c]) (by simp)
    | ws c =>
      have h4 : tagSpace c := hp
      have h1 : c ≠ 92 := by rcases h4 with h | h | h | h | h <;> omega
      have h2 : c ≠ 62 := by rcases h4 with h | h | h | h | h <;> omega
      simp only [tagSpace] at h4
      simp only [tagRaw, List.cons_append, tagLoop_cons c, h1, h2, h4, if_false, if_true,
        tagExpected, hpos, true_and, lastByte, Bool.false_eq_true]
      by_cases hl : buf.getLast? = some 32
      · simp only [hl, ne_eq, not_true_eq_false, if_false, if_true]
        exact ih hps2 buf hbuf
      · simp only [hl, ne_eq, not_false_eq_true, if_false, if_true]
        exact ih hps2 (buf ++ [32]) (by simp)
    | esc c =>
      simp only [tagRaw, List.cons_append, tagLoop_cons 92, if_true, tagExpected]
      exact ih hps2 (buf ++ [92, c]) (by simp)
    | str q =>
      have hq : ∀ p ∈ q, p.ok := hp
      simp only [tagRaw, List.cons_append, List.append_assoc, tagLoop_cons 34, tagExpected]
      norm_num
      rw [tagLoop_quoted q hq]
      simpa using ih hps2 (buf ++ 34 :: (quotedRaw q ++ [34])) (by simp)

theorem getTagFrom_lt (c0 : Nat) (l : List Nat) (h62 : c0 ≠ 62) (h33 : c0 ≠ 33) :
    getTagFrom (60 :: c0 :: l) = tagLoop l [c0] false := by
  simp [getTagFrom, skipToLt, h62, h33]

theorem tagExpected_nonzero (ps : List TagPiece) : ∀ tok : List Nat,
    0 ∉ tagRaw ps → 0 ∉ tok → 0 ∉ tagExpected ps tok := by
  induction ps with
  | nil => intro tok _ h; exact h
  | cons p ps ih =>
    intro tok hr ht
    cases p with
    | plain c =>
      simp only [tagRaw, List.mem_cons, not_or] at hr
      exact ih _ hr.2 (by simp [ht, hr.1])
    | ws c =>
      simp only [tagRaw, List.mem_cons, not_or] at hr
      refine ih _ hr.2 ?_
      split_ifs
      · exact ht
      · simp [ht]
    | esc c =>
      simp only [tagRaw, List.mem_cons, not_or] at hr
      exact ih _ hr.2.2 (by simp [ht, hr.2.1])
    | str q =>
      simp only [tagRaw, List.mem_cons, List.mem_append, not_or] at hr
      exact ih _ hr.2.2 (by simp [ht, hr.1.2])

/-- C3 (the claim as stated fails): on the tag `<a`, NUL, ` href="x>y">` the token returned
is the C string `a`, which holds neither the quoted region nor its `>`; the cursor is after
the final `>`. -/
theorem C3_counterexample :
    getTag ⟨[60, 97, 0] ++ bytes " href=\"x>y\">", 0⟩ =
        (some (bytes "a"), ⟨[60, 97, 0] ++ bytes " href=\"x>y\">", 15⟩) ∧
      62 ∉ bytes "a" ∧ 34 ∉ bytes "a" := by
  refine ⟨by decide, by decide, by decide⟩

/-- C3 (amended): in non-comment mode, for a tag without NUL byte whose first byte `c0` is a
letter or `/` and whose body is any sequence of ordinary bytes, white space, backslash pairs
and closed quoted regions (so every `>` of the body is escaped or inside quotes), `getTag`
ends the token at the `>` that follows the body and leaves the cursor after it; the token
holds every quoted region (with its `>` and white space) and every backslash pair
unchanged. -/
theorem C3_tag_ends_at_unquoted_gt (c0 : Nat) (h0 : isalpha c0 ∨ c0 = 47) (ps : List TagPiece)
    (hps : ∀ p ∈ ps, p.ok) (hnul : 0 ∉ tagRaw ps) (pre rest : List Nat) :
    getTag ⟨pre ++ (60 :: c0 :: tagRaw ps ++ 62 :: rest), pre.length⟩ =
      (some (tagExpected ps [c0]),
        ⟨pre ++ (60 :: c0 :: tagRaw ps ++ 62 :: rest), pre.length + ((tagRaw ps).length + 3)⟩) := by
  have h62 : c0 ≠ 62 := by rcases h0 with (h | h) | h <;> omega
  have h33 : c0 ≠ 33 := by rcases h0 with (h | h) | h <;> omega
  have h00 : (0 : Nat) ∉ [c0] := by
    have : c0 ≠ 0 := by rcases h0 with (h | h) | h <;> omega
    simpa using this.symm
  have hz := tagExpected_nonzero ps [c0] hnul h00
  have key : getTagFrom (60 :: c0 :: tagRaw ps ++ 62 :: rest) =
      (some (tagExpected ps [c0]), rest) := by
    rw [List.cons_append, List.cons_append, getTagFrom_lt c0 _ h62 h33]
    rw [tagLoop_pieces ps hps (62 :: rest) [c0] (by simp)]
    simp only [tagLoop_cons, if_true]
    rw [cstr_eq_self _ (fun c hc h => hz (h ▸ hc))]
    simp
  rw [getTag_at, key]
  simp only [List.cons_append, List.length_cons, List.length_append]
  congr 2
  omega

/-- C3 witness: on `<a href="x>y">` the token is `a href="x>y"` and the cursor is after the
final `>`. -/
theorem C3_tag_ends_at_unquoted_gt_witness :
    getTag ⟨bytes "<a href=\"x>y\">", 0⟩ =
      (some (bytes "a href=\"x>y\""), ⟨bytes "<a href=\"x>y\">", 14⟩) :=
  C3_tag_ends_at_unquoted_gt 97 (by unfold isalpha; decide)
    [TagPiece.ws 32, TagPiece.plain 104, TagPiece.plain 114, TagPiece.plain 101,
      TagPiece.plain 102, TagPiece.plain 61,
      TagPiece.str [QPiece.lit 120, QPiece.lit 62, QPiece.lit 121]]
    (by simp [TagPiece.ok, QPiece.ok, tagSpace]) (by decide) [] []

/-! ## The comment loop -/

theorem dashes_append_dash (x : List Nat) : dashes (x ++ [45]) = min 2 (dashes x + 1) := by
  simp [dashes, List.reverse_append, List.takeWhile_cons]
  omega

theorem dashes_append_other (x : List Nat) (c : Nat) (hc : c ≠ 45) : dashes (x ++ [c]) = 0 := by
  simp [dashes, List.reverse_append, List.takeWhile_cons, hc]

theorem dashes_eq_two_iff (buf : List Nat) :
    (lastByte buf = some 45 ∧ prevByte buf = some 45) ↔ dashes buf = 2 := by
  rcases List.eq_nil_or_concat buf with rfl | ⟨b1, c1, rfl⟩
  · simp [lastByte, prevByte, dashes]
  · rcases List.eq_nil_or_concat b1 with rfl | ⟨b2, c2, rfl⟩
    · by_cases h1 : c1 = 45 <;> simp [lastByte, prevByte, dashes, h1, List.takeWhile_cons]
    · by_cases h1 : c1 = 45 <;> by_cases h2 : c2 = 45 <;>
        simp [lastByte, prevByte, dashes, h1, h2, List.takeWhile_cons]

theorem dashes_of_last_space (buf : List Nat) (h : lastByte buf = some 32) : dashes buf = 0 := by
  rcases List.eq_nil_or_concat buf with rfl | ⟨b1, c1, rfl⟩
  · simp [dashes]
  · simp [lastByte] at h
    subst h
    rw [List.concat_eq_append]
    exact dashes_append_other b1 32 (by decide)

theorem dashes_eq_two_iff_suffix (x : List Nat) : dashes x = 2 ↔ [45, 45] <:+ x := by
  rw [← List.reverse_prefix]
  rcases hx : x.reverse with _ | ⟨c1, _ | ⟨c2, r⟩⟩
  · simp [dashes, hx]
  · by_cases h1 : c1 = 45 <;> simp [dashes, hx, h1, List.takeWhile_cons]
  · have e : [45, 45].reverse <+: c1 :: c2 :: r ↔ c1 = 45 ∧ c2 = 45 := by
      simp only [List.reverse_cons, List.reverse_nil, List.nil_append, List.singleton_append,
        List.cons_prefix_cons, List.nil_prefix, and_true]
      constructor <;> rintro ⟨h1, h2⟩ <;> exact ⟨h1.symm, h2.symm⟩
    rw [e]
    by_cases h1 : c1 = 45 <;> by_cases h2 : c2 = 45 <;>
      simp [dashes, hx, h1, h2, List.takeWhile_cons]

theorem dashes_step (buf p : List Nat) (c : Nat) (h : dashes buf = dashes p) :
    dashes (buf ++ [c]) = dashes (p ++ [c]) := by
  by_cases hc : c = 45
  · subst hc
    rw [dashes_append_dash, dashes_append_dash, h]
  · rw [dashes_append_other _ _ hc, dashes_append_other _ _ hc]

theorem isspace_ne_dash (c : Nat) (h : isspace c = true) : c ≠ 45 := by
  rintro rfl
  revert h
  decide

theorem commentLoop_cons (c : Nat) (rest buf : List Nat) :
    commentLoop (c :: rest) buf =
      if c = 62 ∧ lastByte buf = some 45 ∧ prevByte buf = some 45 then (some (cstr buf), rest)
      else if isspace c = true ∧ lastByte buf = some 32 then commentLoop rest buf
      else commentLoop rest (buf ++ [c]) := by
  rfl

theorem commentLoop_found (v rest : List Nat) (buf p : List Nat) (hd : dashes buf = dashes p)
    (hend : dashes (p ++ v) = 2)
    (hfirst : ∀ v1 v2, v = v1 ++ 62 :: v2 → dashes (p ++ v1) ≠ 2) :
    ∃ t, commentLoop (v ++ 62 :: rest) buf = (some (cstr (buf ++ t)), rest) ∧ t.Sublist v ∧
      t.filter (fun c => !isspace c) = v.filter (fun c => !isspace c) := by
  induction v generalizing buf p with
  | nil =>
    refine ⟨[], ?_, List.Sublist.refl _, rfl⟩
    have h2 : dashes buf = 2 := by rw [hd]; simpa using hend
    simp [commentLoop_cons, (dashes_eq_two_iff buf).mpr h2]
  | cons c v ih =>
    have hnot : ¬ (c = 62 ∧ lastByte buf = some 45 ∧ prevByte buf = some 45) := by
      rintro ⟨rfl, h⟩
      have := hfirst [] v rfl
      rw [List.append_nil, ← hd] at this
      exact this ((dashes_eq_two_iff buf).mp h)
    have hfirst2 : ∀ v1 v2, v = v1 ++ 62 :: v2 → dashes (p ++ [c] ++ v1) ≠ 2 := by
      intro v1 v2 hv
      have := hfirst (c :: v1) v2 (by simp [hv])
      simpa using this
    have hend2 : dashes (p ++ [c] ++ v) = 2 := by simpa using hend
    rw [List.cons_append, commentLoop_cons, if_neg hnot]
    by_cases hsp : isspace c = true ∧ lastByte buf = some 32
    · rw [if_pos hsp]
      have hd2 : dashes buf = dashes (p ++ [c]) := by
        rw [dashes_of_last_space buf hsp.2, dashes_append_other _ _ (isspace_ne_dash c hsp.1)]
      obtain ⟨t, h1, h2, h3⟩ := ih buf (p ++ [c]) hd2 hend2 hfirst2
      exact ⟨t, h1, h2.cons c, by simp [List.filter_cons, hsp.1, h3]⟩
    · rw [if_neg hsp]
      obtain ⟨t, h1, h2, h3⟩ := ih (buf ++ [c]) (p ++ [c]) (dashes_step buf p c hd) hend2 hfirst2
      refine ⟨c :: t, by simpa using h1, h2.cons₂ c, ?_⟩
      simp [List.filter_cons, h3]

theorem commentLoop_unterminated (l : List Nat) (buf p : List Nat) (hne : buf ≠ [])
    (hd : dashes buf = dashes p)
    (hfirst : ∀ v1 v2, l = v1 ++ 62 :: v2 → dashes (p ++ v1) ≠ 2) :
    ∃ t, commentLoop l buf = (some (cstr (buf ++ t)), []) ∧ t.Sublist l ∧
      t.filter (fun c => !isspace c) = l.filter (fun c => !isspace c) := by
  induction l generalizing buf p with
  | nil =>
    refine ⟨[], ?_, List.Sublist.refl _, rfl⟩
    simp [commentLoop, tagAtEof, List.length_pos.mpr hne]
  | cons c v ih =>
    have hnot : ¬ (c = 62 ∧ lastByte buf = some 45 ∧ prevByte buf = some 45) := by
      rintro ⟨rfl, h⟩
      have := hfirst [] v rfl
      rw [List.append_nil, ← hd] at this
      exact this ((dashes_eq_two_iff buf).mp h)
    have hfirst2 : ∀ v1 v2, v = v1 ++ 62 :: v2 → dashes (p ++ [c] ++ v1) ≠ 2 := by
      intro v1 v2 hv
      have := hfirst (c :: v1) v2 (by simp [hv])
      simpa using this
    rw [commentLoop_cons, if_neg hnot]
    by_cases hsp : isspace c = true ∧ lastByte buf = some 32
    · rw [if_pos hsp]
      have hd2 : dashes buf = dashes (p ++ [c]) := by
        rw [dashes_of_last_space buf hsp.2, dashes_append_other _ _ (isspace_ne_dash c hsp.1)]
      obtain ⟨t, h1, h2, h3⟩ := ih buf (p ++ [c]) hne hd2 hfirst2
      exact ⟨t, h1, h2.cons c, by simp [List.filter_cons, hsp.1, h3]⟩
    · rw [if_neg hsp]
      obtain ⟨t, h1, h2, h3⟩ :=
        ih (buf ++ [c]) (p ++ [c]) (by simp) (dashes_step buf p c hd) hfirst2
      refine ⟨c :: t, by simpa using h1, h2.cons₂ c, ?_⟩
      simp [List.filter_cons, h3]

theorem getTagFrom_comment (body : List Nat) :
    getTagFrom (60 :: 33 :: 45 :: 45 :: body) = commentLoop body [33, 45, 45] := by
  simp [getTagFrom, skipToLt]

theorem no_early_arrow (p v : List Nat) (h : ¬ ([45, 45, 62] <:+: p ++ v)) :
    ∀ v1 v2, v = v1 ++ 62 :: v2 → dashes (p ++ v1) ≠ 2 := by
  intro v1 v2 hv hd
  obtain ⟨w, hw⟩ := (dashes_eq_two_iff_suffix _).mp hd
  apply h
  refine ⟨w, v2, ?_⟩
  rw [hv, ← List.append_assoc p, ← hw]
  simp

/-- C4 (the claim as stated fails): on `<!--`, NUL, `<td>-->x` the token returned is the C
string `!--`, not the bytes up to the first `-->`, and the `<` of the comment is not in it;
the cursor is behind the closing `>`. -/
theorem C4_counterexample :
    getTag ⟨bytes "<!--" ++ [0] ++ bytes "<td>-->x", 0⟩ =
        (some (bytes "!--"), ⟨bytes "<!--" ++ [0] ++ bytes "<td>-->x", 12⟩) ∧
      bytes "!--" ≠ ((bytes "<!--" ++ [0] ++ bytes "<td>-->x").drop 1).take 10 ∧
      60 ∉ bytes "!--" := by
  refine ⟨by decide, by decide, by decide⟩

/-- C4 (amended): for an input without NUL byte whose tag starts with `<!--`: when `-->`
first occurs in the bytes after `<` right behind `u` (the opening dashes count), `getTag`
returns one token `tok` and leaves the cursor behind that `>`; otherwise it reads to the end
of input.  In both cases `tok` begins with `!--`, is a subsequence of the bytes before the
closing `>` (of all bytes when there is no `-->`), and holds each of their non-white-space
bytes, every `<` and `>` among them, in order.  On `<!-- <td> --> ` the token is
`!-- <td> --` and the next call returns `NULL`; `<!-->` is a complete comment. -/
theorem C4_comment_is_one_token (pre : List Nat) :
    (∀ u rest, bytes "!--" <+: u ++ bytes "-->" ++ rest →
      ¬ (bytes "-->" <:+: u ++ bytes "--") → 0 ∉ u →
      ∃ tok, getTag ⟨pre ++ 60 :: (u ++ bytes "-->" ++ rest), pre.length⟩ =
          (some tok,
            ⟨pre ++ 60 :: (u ++ bytes "-->" ++ rest), pre.length + (u.length + 4)⟩) ∧
        bytes "!--" <+: tok ∧ tok.Sublist (u ++ bytes "--") ∧
        tok.filter (fun c => !isspace c) = (u ++ bytes "--").filter (fun c => !isspace c)) ∧
    (∀ raw, bytes "!--" <+: raw → ¬ (bytes "-->" <:+: raw) → 0 ∉ raw →
      ∃ tok, getTag ⟨pre ++ 60 :: raw, pre.length⟩ =
          (some tok, ⟨pre ++ 60 :: raw, pre.length + (raw.length + 1)⟩) ∧
        bytes "!--" <+: tok ∧ tok.Sublist raw ∧
        tok.filter (fun c => !isspace c) = raw.filter (fun c => !isspace c)) ∧
    (getTag ⟨bytes "<!-- <td> --> ", 0⟩ =
        (some (bytes "!-- <td> --"), ⟨bytes "<!-- <td> --> ", 13⟩) ∧
      getTag ⟨bytes "<!-- <td> --> ", 13⟩ = (none, ⟨bytes "<!-- <td> --> ", 14⟩) ∧
      getTag ⟨bytes "<!-->x", 0⟩ = (some (bytes "!--"), ⟨bytes "<!-->x", 5⟩)) := by
  have e1 : bytes "!--" = [33, 45, 45] := rfl
  have e2 : bytes "-->" = [45, 45, 62] := rfl
  have e3 : bytes "--" = [45, 45] := rfl
  refine ⟨?_, ?_, by decide⟩
  all_goals rw [e1]
  · rw [e2, e3]
    rintro u rest ⟨body, hbody⟩ hno hnul
    -- split the bytes after `!--` at the closing `>`
    have hsplit : ∃ v, u ++ [45, 45] = [33, 45, 45] ++ v ∧ body = v ++ 62 :: rest := by
      have h : [33, 45, 45] ++ body = (u ++ [45, 45]) ++ 62 :: rest := by
        rw [hbody]; simp
      rcases List.append_eq_append_iff.mp h with ⟨a, ha1, ha2⟩ | ⟨c, hc1, hc2⟩
      · exact ⟨a, ha1, ha2⟩
      · rcases c with _ | ⟨c0, c⟩
        · exact ⟨[], by simpa using hc1.symm, by simpa using hc2.symm⟩
        · exfalso
          have h62 : c0 = 62 := by
            have := congrArg List.head? hc2
            simpa using this.symm
          subst h62
          have hm : 62 ∈ [33, 45, 45] := by
            rw [hc1]; simp
          revert hm
          decide
    obtain ⟨v, hv1, hv2⟩ := hsplit
    have hend : dashes ([33, 45, 45] ++ v) = 2 := by
      rw [← hv1]
      exact (dashes_eq_two_iff_suffix _).mpr ⟨u, rfl⟩
    have hfirst := no_early_arrow [33, 45, 45] v (by rw [← hv1]; exact hno)
    obtain ⟨t, ht1, ht2, ht3⟩ :=
      commentLoop_found v rest [33, 45, 45] [33, 45, 45] rfl hend hfirst
    have hz : ∀ c ∈ [33, 45, 45] ++ t, c ≠ 0 := by
      intro c hc h0
      subst h0
      have hm : (0 : Nat) ∈ u ++ [45, 45] := by
        rw [hv1]
        rcases List.mem_append.mp hc with h | h
        · exact List.mem_append_left _ h
        · exact List.mem_append_right _ (ht2.subset h)
      rcases List.mem_append.mp hm with h | h
      · exact hnul h
      · revert h; decide
    rw [cstr_eq_self _ hz] at ht1
    refine ⟨[33, 45, 45] ++ t, ?_, ⟨t, rfl⟩, ?_, ?_⟩
    · have hraw : u ++ [45, 45, 62] ++ rest = 33 :: 45 :: 45 :: (v ++ 62 :: rest) := by
        rw [← hbody, hv2]; rfl
      have hlen : u.length + 2 = 3 + v.length := by
        have := congrArg List.length hv1
        simp only [List.length_append, List.length_cons, List.length_nil] at this
        omega
      rw [hraw, getTag_at, getTagFrom_comment, ht1]
      simp only [List.length_cons, List.length_append]
      congr 2
      omega
    · rw [hv1]
      exact (List.Sublist.refl _).append ht2
    · rw [hv1, List.filter_append, List.filter_append, ht3]
  · rw [e2]
    rintro raw ⟨body, hbody⟩ hno hnul
    have hfirst := no_early_arrow [33, 45, 45] body (by rw [hbody]; exact hno)
    obtain ⟨t, ht1, ht2, ht3⟩ :=
      commentLoop_unterminated body [33, 45, 45] [33, 45, 45] (by simp) rfl hfirst
    have hz : ∀ c ∈ [33, 45, 45] ++ t, c ≠ 0 := by
      intro c hc h0
      subst h0
      apply hnul
      rw [← hbody]
      rcases List.mem_append.mp hc with h | h
      · exact List.mem_append_left _ h
      · exact List.mem_append_right _ (ht2.subset h)
    rw [cstr_eq_self _ hz] at ht1
    refine ⟨[33, 45, 45] ++ t, ?_, ⟨t, rfl⟩, ?_, ?_⟩
    · rw [← hbody, List.cons_append, List.cons_append, List.cons_append, List.nil_append,
        getTag_at, getTagFrom_comment, ht1]
      simp
    · rw [← hbody]
      exact (List.Sublist.refl _).append ht2
    · rw [← hbody, List.filter_append, List.filter_append, ht3]

/-- C4 witness: `<!-- <td> --> ` returns the one token `!-- <td> --` with the cursor behind
the closing `>`. -/
theorem C4_comment_is_one_token_witness :
    ∃ tok, getTag ⟨bytes "<!-- <td> --> ", 0⟩ =
        (some tok, ⟨bytes "<!-- <td> --> ", 13⟩) ∧
      bytes "!--" <+: tok ∧ tok.Sublist (bytes "!-- <td> --") ∧
      tok.filter (fun c => !isspace c) = (bytes "!-- <td> --").filter (fun c => !isspace c) :=
  (C4_comment_is_one_token []).1 (bytes "!-- <td> ") (bytes " ") (by decide) (by decide)
    (by decide)

/-! ## Progress of `getTag` -/

theorem skipToLt_length (l r : List Nat) (h : skipToLt l = some r) : r.length < l.length := by
  induction l with
  | nil => simp [skipToLt] at h
  | cons c l ih =>
    simp only [skipToLt] at h
    split_ifs at h
    · simp only [Option.some.injEq] at h
      subst h
      simp
    · have := ih h
      simp only [List.length_cons]
      omega

theorem commentLoop_rest (l buf : List Nat) :
    (commentLoop l buf).2.length ≤ l.length ∧
      ((commentLoop l buf).1 = none → (commentLoop l buf).2 = []) := by
  induction l generalizing buf with
  | nil => simp [commentLoop]
  | cons c l ih =>
    rw [commentLoop_cons]
    split_ifs
    · simp
    · exact ⟨Nat.le_succ_of_le (ih buf).1, (ih buf).2⟩
    · exact ⟨Nat.le_succ_of_le (ih _).1, (ih _).2⟩

theorem tagLoop_rest (n : Nat) : ∀ (l buf : List Nat) (s : Bool), l.length ≤ n →
    (tagLoop l buf s).2.length ≤ l.length ∧
      ((tagLoop l buf s).1 = none → (tagLoop l buf s).2 = []) := by
  induction n with
  | zero =>
    intro l buf s hl
    have : l = [] := List.length_eq_zero.mp (Nat.le_zero.mp hl)
    subst this
    simp [tagLoop_nil]
  | succ n ih =>
    intro l buf s hl
    rcases l with _ | ⟨c, rest⟩
    · simp [tagLoop_nil]
    · have hr : rest.length ≤ n := by simpa using hl
      have step : ∀ b t, (tagLoop rest b t).2.length ≤ (c :: rest).length ∧
          ((tagLoop rest b t).1 = none → (tagLoop rest b t).2 = []) := fun b t =>
        ⟨Nat.le_succ_of_le (ih rest b t hr).1, (ih rest b t hr).2⟩
      rw [tagLoop_cons]
      split_ifs
      · rcases rest with _ | ⟨c2, rest2⟩
        · simp
        · have hr2 : rest2.length ≤ n := by
            simp only [List.length_cons] at hr
            omega
          refine ⟨?_, (ih rest2 _ s hr2).2⟩
          have := (ih rest2 (buf ++ [c, c2]) s hr2).1
          simp only [List.length_cons]
          omega
      all_goals first | exact step _ _ | simp

theorem getTagFrom_rest (l : List Nat) :
    ((getTagFrom l).1 = none → (getTagFrom l).2 = []) ∧
      ((getTagFrom l).1 ≠ none → (getTagFrom l).2.length < l.length) := by
  unfold getTagFrom
  rcases h : skipToLt l with _ | r
  · simp
  · have hlen := skipToLt_length l r h
    rcases r with _ | ⟨c, r1⟩
    · simp
    · simp only [List.length_cons] at hlen
      have hc : ∀ r b, r.length ≤ r1.length →
          ((commentLoop r b).1 = none → (commentLoop r b).2 = []) ∧
            ((commentLoop r b).1 ≠ none → (commentLoop r b).2.length < l.length) := fun r b hr =>
        ⟨(commentLoop_rest r b).2, fun _ => by have := (commentLoop_rest r b).1; omega⟩
      have ht : ∀ r b, r.length ≤ r1.length →
          ((tagLoop r b false).1 = none → (tagLoop r b false).2 = []) ∧
            ((tagLoop r b false).1 ≠ none → (tagLoop r b false).2.length < l.length) :=
        fun r b hr =>
          ⟨(tagLoop_rest _ r b false le_rfl).2,
            fun _ => by have := (tagLoop_rest _ r b false le_rfl).1; omega⟩
      simp only
      split_ifs
      · simp; omega
      · rcases r1 with _ | ⟨c2, r2⟩
        · simp; omega
        · simp only
          split_ifs
          · simp; simp at hlen; omega
          · rcases r2 with _ | ⟨c3, r3⟩
            · simp; simp at hlen; omega
            · simp only
              split_ifs
              · simp; simp at hlen; omega
              · exact hc r3 _ (by simp; omega)
          · exact ht r2 _ (by simp)
      · exact ht r1 _ le_rfl

theorem getTag_memory (mp : memBuf) : (getTag mp).2.memory = mp.memory := rfl

theorem getTag_none (mp mp1 : memBuf) (h : getTag mp = (none, mp1)) : memEof mp1 = true := by
  have h1 : (getTagFrom mp.unread).1 = none := congrArg Prod.fst h
  have h2 : mp1 = mp.advanceTo (getTagFrom mp.unread).2 := (congrArg Prod.snd h).symm
  have h3 := (getTagFrom_rest mp.unread).1 h1
  rw [h2, h3]
  simp [memEof, memBuf.advanceTo, memBuf.unread]
  omega

theorem getTag_some (mp mp1 : memBuf) (cp : List Nat) (h : getTag mp = (some cp, mp1)) :
    mp1.unread.length < mp.unread.length := by
  have h1 : (getTagFrom mp.unread).1 = some cp := congrArg Prod.fst h
  have h2 : mp1 = mp.advanceTo (getTagFrom mp.unread).2 := (congrArg Prod.snd h).symm
  have h3 := (getTagFrom_rest mp.unread).2 (by rw [h1]; simp)
  rw [h2]
  simp only [memBuf.advanceTo, memBuf.unread, List.length_drop] at h3 ⊢
  omega

/-! ## `getTableEnd` and the nesting depth -/

theorem depthFrom_nil (d : Int) : depthFrom d [] = d := by
  simp [depthFrom]

theorem depthFrom_cons_close (d : Int) (t : List (List Nat)) :
    depthFrom d (bytes "/table" :: t) = depthFrom (d - 1) t := by
  have h : isTableTag (bytes "/table") = false := by decide
  simp only [depthFrom, List.countP_cons, h, beq_self_eq_true, if_true, Bool.false_eq_true,
    if_false]
  push_cast
  ring

theorem depthFrom_cons_open (d : Int) (cp : List Nat) (t : List (List Nat))
    (h1 : cp ≠ bytes "/table") (h2 : isTableTag cp = true) :
    depthFrom d (cp :: t) = depthFrom (d + 1) t := by
  have h : (cp == bytes "/table") = false := by simpa using h1
  simp only [depthFrom, List.countP_cons, h, h2, if_true, Bool.false_eq_true, if_false]
  push_cast
  ring

theorem depthFrom_cons_other (d : Int) (cp : List Nat) (t : List (List Nat))
    (h1 : cp ≠ bytes "/table") (h2 : ¬ isTableTag cp = true) :
    depthFrom d (cp :: t) = depthFrom d t := by
  have h : (cp == bytes "/table") = false := by simpa using h1
  have h3 : isTableTag cp = false := by simpa using h2
  simp only [depthFrom, List.countP_cons, h, h3]
  simp

theorem tagToks_zero (mp : memBuf) : tagToks 0 mp = [] := rfl

theorem tagTrace_succ_some (n : Nat) (mp mp1 : memBuf) (cp : List Nat)
    (h : getTag mp = (some cp, mp1)) : tagTrace (n + 1) mp = (cp, mp1) :: tagTrace n mp1 := by
  simp [tagTrace, h]

theorem tagToks_succ_some (n : Nat) (mp mp1 : memBuf) (cp : List Nat)
    (h : getTag mp = (some cp, mp1)) : tagToks (n + 1) mp = cp :: tagToks n mp1 := by
  simp [tagToks, tagTrace_succ_some n mp mp1 cp h]

theorem tagToks_none (n : Nat) (mp mp1 : memBuf) (h : getTag mp = (none, mp1)) :
    tagToks n mp = [] := by
  cases n with
  | zero => rfl
  | succ n => simp [tagToks, tagTrace, h]

theorem TableEndSpec_step (d d1 : Int) (mp mp1 : memBuf) (cp : List Nat)
    (r : Option (List Nat) × memBuf) (hd : 0 < d) (h : getTag mp = (some cp, mp1))
    (hstep : ∀ t, depthFrom d (cp :: t) = depthFrom d1 t) (hr : TableEndSpec d1 mp1 r) :
    TableEndSpec d mp r := by
  rcases hr with ⟨h1, h2, h3⟩ | ⟨h1, k, h2, h3, h4, h5⟩
  · refine Or.inl ⟨h1, h2, fun n => ?_⟩
    cases n with
    | zero => rw [tagToks_zero, depthFrom_nil]; exact hd
    | succ n => rw [tagToks_succ_some n mp mp1 cp h, hstep]; exact h3 n
  · refine Or.inr ⟨h1, k + 1, ?_, ?_, ?_, ?_⟩
    · rw [tagTrace_succ_some _ mp mp1 cp h, List.length_cons, h2]
    · rw [tagTrace_succ_some _ mp mp1 cp h]
      have hne : tagTrace (k + 1) mp1 ≠ [] := by
        intro h0
        rw [h0] at h2
        simp at h2
      obtain ⟨a, t, ht⟩ := List.exists_cons_of_ne_nil hne
      rw [ht] at h3 ⊢
      rw [List.getLast?_cons_cons]
      exact h3
    · rw [tagToks_succ_some _ mp mp1 cp h, hstep]; exact h4
    · intro j hj
      cases j with
      | zero => rw [tagToks_zero, depthFrom_nil]; exact hd
      | succ j =>
        rw [tagToks_succ_some j mp mp1 cp h, hstep]
        exact h5 j (by omega)

theorem getTableEndLoop_spec (fuel : Nat) : ∀ (mp : memBuf) (d : Int), 0 < d →
    mp.unread.length < fuel → ∃ r, getTableEndLoop fuel mp d = some r ∧ TableEndSpec d mp r := by
  induction fuel with
  | zero => intro mp d _ h; omega
  | succ fuel ih =>
    intro mp d hd hlen
    rcases h : getTag mp with ⟨_ | cp, mp1⟩
    · refine ⟨(none, mp1), by simp [getTableEndLoop, h], Or.inl ⟨rfl, getTag_none mp mp1 h, ?_⟩⟩
      intro n
      rw [tagToks_none n mp mp1 h, depthFrom_nil]
      exact hd
    · have hlt := getTag_some mp mp1 cp h
      have hfuel : mp1.unread.length < fuel := by omega
      by_cases hc : cp = bytes "/table"
      · subst hc
        by_cases h0 : d - 1 = 0
        · refine ⟨(some (bytes "/table"), mp1), by simp [getTableEndLoop, h, h0], Or.inr ⟨rfl, 0, ?_⟩⟩
          refine ⟨by simp [tagTrace, h], by simp [tagTrace, h], ?_, ?_⟩
          · rw [tagToks_succ_some 0 mp mp1 _ h, tagToks_zero, depthFrom_cons_close, depthFrom_nil]
            exact h0
          · intro j hj
            have : j = 0 := by omega
            subst this
            rw [tagToks_zero, depthFrom_nil]
            exact hd
        · obtain ⟨r, hr1, hr2⟩ := ih mp1 (d - 1) (by omega) hfuel
          refine ⟨r, by simp [getTableEndLoop, h, h0, hr1], ?_⟩
          exact TableEndSpec_step d (d - 1) mp mp1 _ r hd h (depthFrom_cons_close d) hr2
      · by_cases ho : isTableTag cp = true
        · obtain ⟨r, hr1, hr2⟩ := ih mp1 (d + 1) (by omega) hfuel
          refine ⟨r, by simp [getTableEndLoop, h, hc, ho, hr1], ?_⟩
          exact TableEndSpec_step d (d + 1) mp mp1 cp r hd h
            (fun t => depthFrom_cons_open d cp t hc ho) hr2
        · obtain ⟨r, hr1, hr2⟩ := ih mp1 d hd hfuel
          refine ⟨r, by simp [getTableEndLoop, h, hc, ho, hr1], ?_⟩
          exact TableEndSpec_step d d mp mp1 cp r hd h
            (fun t => depthFrom_cons_other d cp t hc ho) hr2

/-- C2: for every input `getTableEnd` returns.  It returns the tag `/table` exactly at the
first tag at which the depth, started at 1, raised by every table-opening tag and lowered by
every `/table` tag, reaches 0 (the `/table` tags read then outnumber the opening ones), with
the cursor behind that tag and the depth positive after every shorter run of tags; and it
returns `NULL` with the input exhausted when the depth stays positive after every run of tags.
On `<table><table></table></table>` the one call after `getTableStart` leaves the cursor
behind the second `</table>`. -/
theorem C2_getTableEnd_skips_nested :
    (∀ mp : memBuf, ∃ r, getTableEnd mp = some r ∧
      ((r.1 = none ∧ memEof r.2 = true ∧ ∀ n, 0 < depthFrom 1 (tagToks n mp)) ∨
       (r.1 = some (bytes "/table") ∧
        ∃ k, (tagTrace (k + 1) mp).length = k + 1 ∧
          (tagTrace (k + 1) mp).getLast? = some (bytes "/table", r.2) ∧
          depthFrom 1 (tagToks (k + 1) mp) = 0 ∧
          ∀ j, j ≤ k → 0 < depthFrom 1 (tagToks j mp)))) ∧
    getTableStart ⟨bytes "<table><table></table></table>", 0⟩ =
      some (some (bytes "table"), ⟨bytes "<table><table></table></table>", 7⟩) ∧
    getTableEnd ⟨bytes "<table><table></table></table>", 7⟩ =
      some (some (bytes "/table"), ⟨bytes "<table><table></table></table>", 30⟩) := by
  refine ⟨fun mp => ?_, by decide, by decide⟩
  exact getTableEndLoop_spec (mp.unread.length + 1) mp 1 (by decide) (Nat.lt_succ_self _)

/-! ## The table walker on a row of simple cells -/

theorem skipToLt_skip (c X : List Nat) (hc : 60 ∉ c) : skipToLt (c ++ 60 :: X) = some X := by
  induction c with
  | nil => simp [skipToLt]
  | cons a c ih =>
    have ha : a ≠ 60 := fun h => hc (by simp [h])
    have hc2 : 60 ∉ c := fun h => hc (by simp [h])
    simp [skipToLt, ha, ih hc2]

theorem getTagFrom_skip (c X : List Nat) (hc : 60 ∉ c) :
    getTagFrom (c ++ 60 :: X) = getTagFrom (60 :: X) := by
  have h1 := skipToLt_skip c X hc
  have h2 := skipToLt_skip [] X (by simp)
  simp only [List.nil_append] at h2
  unfold getTagFrom
  rw [h1, h2]

theorem drop_advance (mem : List Nat) (p : Nat) (a R : List Nat) (h : mem.drop p = a ++ R) :
    mem.drop (p + a.length) = R := by
  rw [← List.drop_drop, h]
  simp

theorem getTag_unread (mem : List Nat) (p : Nat) (c t R tok : List Nat)
    (h : mem.drop p = c ++ 60 :: (t ++ R)) (hc : 60 ∉ c)
    (ht : getTagFrom (60 :: (t ++ R)) = (some tok, R)) :
    getTag ⟨mem, p⟩ = (some tok, ⟨mem, p + (c.length + (t.length + 1))⟩) := by
  simp only [getTag, memBuf.unread, memBuf.advanceTo, h, getTagFrom_skip c _ hc, ht,
    List.length_append, List.length_cons]
  congr 2
  omega

theorem getTagFrom_tr (R : List Nat) :
    getTagFrom (60 :: (bytes "tr>" ++ R)) = (some (bytes "tr"), R) := by
  show getTagFrom (60 :: 116 :: 114 :: 62 :: R) = (some [116, 114], R)
  simp [getTagFrom, skipToLt, tagLoop_cons, cstr]

theorem getTagFrom_td (R : List Nat) :
    getTagFrom (60 :: (bytes "td>" ++ R)) = (some (bytes "td"), R) := by
  show getTagFrom (60 :: 116 :: 100 :: 62 :: R) = (some [116, 100], R)
  simp [getTagFrom, skipToLt, tagLoop_cons, cstr]

theorem getTagFrom_th (R : List Nat) :
    getTagFrom (60 :: (bytes "th>" ++ R)) = (some (bytes "th"), R) := by
  show getTagFrom (60 :: 116 :: 104 :: 62 :: R) = (some [116, 104], R)
  simp [getTagFrom, skipToLt, tagLoop_cons, cstr]

theorem getTagFrom_ctd (R : List Nat) :
    getTagFrom (60 :: (bytes "/td>" ++ R)) = (some (bytes "/td"), R) := by
  show getTagFrom (60 :: 47 :: 116 :: 100 :: 62 :: R) = (some [47, 116, 100], R)
  simp [getTagFrom, skipToLt, tagLoop_cons, cstr]

theorem getTagFrom_cth (R : List Nat) :
    getTagFrom (60 :: (bytes "/th>" ++ R)) = (some (bytes "/th"), R) := by
  show getTagFrom (60 :: 47 :: 116 :: 104 :: 62 :: R) = (some [47, 116, 104], R)
  simp [getTagFrom, skipToLt, tagLoop_cons, cstr]

theorem getTagFrom_ctr (R : List Nat) :
    getTagFrom (60 :: (bytes "/tr>" ++ R)) = (some (bytes "/tr"), R) := by
  show getTagFrom (60 :: 47 :: 116 :: 114 :: 62 :: R) = (some [47, 116, 114], R)
  simp [getTagFrom, skipToLt, tagLoop_cons, cstr]

theorem getTagFrom_ctable (R : List Nat) :
    getTagFrom (60 :: (bytes "/table>" ++ R)) = (some (bytes "/table"), R) := by
  show getTagFrom (60 :: 47 :: 116 :: 97 :: 98 :: 108 :: 101 :: 62 :: R) =
    (some [47, 116, 97, 98, 108, 101], R)
  simp [getTagFrom, skipToLt, tagLoop_cons, cstr]

theorem getTableCellLoop_mono (f : Nat) : ∀ (mp : memBuf) (d : Int) (s : Nat)
    (r : Option (List Nat) × memBuf), getTableCellLoop f mp d s = some r →
    ∀ f2, f ≤ f2 → getTableCellLoop f2 mp d s = some r := by
  induction f with
  | zero => intro mp d s r h; simp [getTableCellLoop] at h
  | succ f ih =>
    intro mp d s r h f2 hf
    obtain ⟨g, rfl⟩ : ∃ g, f2 = g + 1 := ⟨f2 - 1, by omega⟩
    have hg : f ≤ g := by omega
    rw [getTableCellLoop] at h ⊢
    rcases hgt : getTag mp with ⟨_ | cp, mp1⟩
    · rw [hgt] at h; exact h
    · rw [hgt] at h
      simp only at h ⊢
      split_ifs at h ⊢
      all_goals first | exact h | exact ih _ _ _ _ h g hg

theorem scanBack_found (mem : List Nat) (q : Nat) (hq : mem.getD q 0 = 60) :
    ∀ n, (∀ j, j < n → mem.getD (q + 1 + j) 0 ≠ 60) → scanBack mem (q + n) = q := by
  intro n
  induction n with
  | zero =>
    intro _
    cases q with
    | zero => rfl
    | succ q => rw [Nat.add_zero, scanBack, if_pos hq]
  | succ n ih =>
    intro h
    have h1 : mem.getD (q + n + 1) 0 ≠ 60 := by
      have := h n (Nat.lt_succ_self n)
      rwa [Nat.add_right_comm] at this
    rw [← Nat.add_assoc, scanBack, if_neg h1]
    exact ih (fun j hj => h j (Nat.lt_succ_of_lt hj))

theorem getD_of_drop (mem : List Nat) (q j : Nat) :
    mem.getD (q + j) 0 = (mem.drop q).getD j 0 := by
  simp [List.getD_eq_getElem?_getD, List.getElem?_drop]

theorem cell_text_at (mem : List Nat) (q : Nat) (c close R : List Nat)
    (h : mem.drop q = c ++ 60 :: (close ++ R)) (hlen : close.length = 4)
    (hclose : 60 ∉ close) :
    scanBack mem (q + (c.length + 5) - 1) = q + c.length ∧
      (mem.drop q).take (q + c.length - q) = c := by
  have h2 := drop_advance mem q c _ h
  constructor
  · have e : q + (c.length + 5) - 1 = (q + c.length) + 4 := by omega
    rw [e]
    apply scanBack_found
    · have := getD_of_drop mem (q + c.length) 0
      rw [Nat.add_zero] at this
      rw [this, h2]
      rfl
    · intro j hj
      rw [Nat.add_assoc, getD_of_drop, h2, Nat.add_comm 1 j]
      have : ((60 :: (close ++ R)).getD (j + 1) 0) = (close ++ R).getD j 0 := rfl
      rw [this]
      have hj2 : j < close.length := by omega
      rw [List.getD_eq_getElem?_getD, List.getElem?_append_left hj2,
        List.getElem?_eq_getElem hj2]
      intro h60
      apply hclose
      simp only [Option.getD_some] at h60
      rw [← h60]
      exact List.getElem_mem _
  · rw [h]
    simp

/-- The tag name inside the opening tag of a cell. -/
theorem getTag_open (mem : List Nat) (p : Nat) (th : Bool) (X : List Nat)
    (h : mem.drop p = cellOpen th ++ X) :
    getTag ⟨mem, p⟩ = (some (if th then bytes "th" else bytes "td"), ⟨mem, p + 4⟩) := by
  cases th
  · exact getTag_unread mem p [] (bytes "td>") X (bytes "td") h (by simp) (getTagFrom_td _)
  · exact getTag_unread mem p [] (bytes "th>") X (bytes "th") h (by simp) (getTagFrom_th _)

theorem getTag_close (mem : List Nat) (q : Nat) (th : Bool) (c R : List Nat)
    (h : mem.drop q = c ++ (cellClose th ++ R)) (hc : 60 ∉ c) :
    getTag ⟨mem, q⟩ = (some (if th then bytes "/th" else bytes "/td"), ⟨mem, q + (c.length + 5)⟩) := by
  cases th
  · exact getTag_unread mem q c (bytes "/td>") R (bytes "/td") h hc (getTagFrom_ctd _)
  · exact getTag_unread mem q c (bytes "/th>") R (bytes "/th") h hc (getTagFrom_cth _)

theorem getTableCellLoop_cell (mem : List Nat) (p : Nat) (th : Bool) (c R : List Nat)
    (fuel start : Nat) (h : mem.drop p = cellRaw (th, c) ++ R) (hc : 60 ∉ c) :
    getTableCellLoop (fuel + 2) ⟨mem, p⟩ 1 start =
      some (some (cstr c), ⟨mem, p + (c.length + 9)⟩) := by
  have h1 : mem.drop p = cellOpen th ++ (c ++ (cellClose th ++ R)) := by
    rw [h]; simp [cellRaw]
  have g1 := getTag_open mem p th _ h1
  have h2 : mem.drop (p + 4) = c ++ (cellClose th ++ R) := by
    have := drop_advance mem p (cellOpen th) _ h1
    have e : (cellOpen th).length = 4 := by cases th <;> rfl
    rwa [e] at this
  have g2 := getTag_close mem (p + 4) th c R h2 hc
  have h3 : ∃ close, cellClose th ++ R = 60 :: (close ++ R) ∧ close.length = 4 ∧ 60 ∉ close := by
    cases th
    · exact ⟨bytes "/td>", rfl, rfl, by decide⟩
    · exact ⟨bytes "/th>", rfl, rfl, by decide⟩
  obtain ⟨close, hcl1, hcl2, hcl3⟩ := h3
  rw [hcl1] at h2
  obtain ⟨s1, s2⟩ := cell_text_at mem (p + 4) c close R h2 hcl2 hcl3
  have i1 : isCellTag (if th then bytes "th" else bytes "td") = true := by cases th <;> decide
  have i2 : isCellTag (if th then bytes "/th" else bytes "/td") = false := by cases th <;> decide
  have i3 : ((if th then bytes "/th" else bytes "/td") = bytes "/td" ∨
      (if th then bytes "/th" else bytes "/td") = bytes "/th") := by cases th <;> decide
  rw [getTableCellLoop, g1]
  simp only [i1, and_self, if_true]
  rw [getTableCellLoop, g2]
  simp only [i2, i3, Bool.false_eq_true, and_false, if_false, and_self, if_true]
  rw [s1, s2]
  congr 3
  omega

theorem cellRaw_length (c : Bool × List Nat) : (cellRaw c).length = c.2.length + 9 := by
  rcases c with ⟨th, c⟩
  cases th <;> simp [cellRaw, cellOpen, cellClose, bytes]

theorem getTableCell_cell (mem : List Nat) (p : Nat) (c : Bool × List Nat) (R : List Nat)
    (h : mem.drop p = cellRaw c ++ R) (hc : 60 ∉ c.2) :
    getTableCell ⟨mem, p⟩ = some (some (cstr c.2), ⟨mem, p + (cellRaw c).length⟩) := by
  have hl : 0 < (mem.drop p).length := by
    rw [h, List.length_append, cellRaw_length]; omega
  obtain ⟨k, hk⟩ : ∃ k, (mem.drop p).length + 1 = k + 2 := ⟨(mem.drop p).length - 1, by omega⟩
  unfold getTableCell
  simp only [memBuf.unread]
  rw [hk, cellRaw_length]
  exact getTableCellLoop_cell mem p c.1 c.2 R k p h hc

theorem getTableCell_first (mem : List Nat) (p : Nat) (c : Bool × List Nat) (R : List Nat)
    (h : mem.drop p = bytes "<tr>" ++ (cellRaw c ++ R)) (hc : 60 ∉ c.2) :
    getTableCell ⟨mem, p⟩ = some (some (cstr c.2), ⟨mem, p + 4 + (cellRaw c).length⟩) := by
  have hl : 4 < (mem.drop p).length := by
    rw [h, List.length_append, List.length_append, cellRaw_length]
    simp [bytes]
  obtain ⟨k, hk⟩ : ∃ k, (mem.drop p).length + 1 = k + 2 + 1 :=
    ⟨(mem.drop p).length - 2, by omega⟩
  have g1 := getTag_unread mem p [] (bytes "tr>") _ (bytes "tr") h (by simp) (getTagFrom_tr _)
  have g1b : getTag ⟨mem, p⟩ = (some (bytes "tr"), ⟨mem, p + 4⟩) := g1
  have h2 : mem.drop (p + 4) = cellRaw c ++ R := drop_advance mem p (bytes "<tr>") _ h
  unfold getTableCell
  simp only [memBuf.unread]
  rw [hk, getTableCellLoop, g1b]
  have i1 : isCellTag (bytes "tr") = false := by decide
  have i2 : ¬ (bytes "tr" = bytes "/td" ∨ bytes "tr" = bytes "/th") := by decide
  have i3 : bytes "tr" ≠ bytes "/tr" := by decide
  have i4 : bytes "tr" ≠ bytes "/table" := by decide
  have i5 : isTableTag (bytes "tr") = false := by decide
  simp only [i1, i2, i3, i4, i5, Bool.false_eq_true, and_false, if_false]
  rw [cellRaw_length]
  exact getTableCellLoop_cell mem (p + 4) c.1 c.2 R k p h2 hc

theorem getTableCell_endrow (mem : List Nat) (p : Nat) (R : List Nat)
    (h : mem.drop p = bytes "</tr>" ++ R) :
    getTableCell ⟨mem, p⟩ = some (none, ⟨mem, p + 5⟩) := by
  have g1 := getTag_unread mem p [] (bytes "/tr>") _ (bytes "/tr") h (by simp) (getTagFrom_ctr _)
  have g1b : getTag ⟨mem, p⟩ = (some (bytes "/tr"), ⟨mem, p + 5⟩) := g1
  unfold getTableCell
  rw [getTableCellLoop, g1b]
  have i1 : isCellTag (bytes "/tr") = false := by decide
  have i2 : ¬ (bytes "/tr" = bytes "/td" ∨ bytes "/tr" = bytes "/th") := by decide
  simp only [i1, i2, Bool.false_eq_true, and_false, if_false, and_self, if_true]

theorem getTableCell_endtable (mem : List Nat) (p : Nat) (R : List Nat)
    (h : mem.drop p = bytes "</table>" ++ R) :
    getTableCell ⟨mem, p⟩ = some (none, ⟨mem, p + 8⟩) := by
  have g1 := getTag_unread mem p [] (bytes "/table>") _ (bytes "/table") h (by simp)
    (getTagFrom_ctable _)
  have g1b : getTag ⟨mem, p⟩ = (some (bytes "/table"), ⟨mem, p + 8⟩) := g1
  unfold getTableCell
  rw [getTableCellLoop, g1b]
  have i1 : isCellTag (bytes "/table") = false := by decide
  have i2 : ¬ (bytes "/table" = bytes "/td" ∨ bytes "/table" = bytes "/th") := by decide
  have i3 : bytes "/table" ≠ bytes "/tr" := by decide
  simp only [i1, i2, i3, Bool.false_eq_true, and_false, if_false, if_true, sub_self]

theorem getTableRowLoop_cells (cells : List (Bool × List Nat)) :
    ∀ (mem : List Nat) (p : Nat) (R : List Nat) (row : List (Option (List Nat))) (fuel : Nat),
      mem.drop p = rowRaw cells ++ (bytes "</tr>" ++ R) → (∀ c ∈ cells, 60 ∉ c.2) →
      row ≠ [] → cells.length < fuel →
      getTableRowLoop fuel ⟨mem, p⟩ (some row) =
        some (some (row ++ cells.map (fun c => some (cstr c.2)) ++ [none]),
          ⟨mem, p + (rowRaw cells).length + 5⟩) := by
  induction cells with
  | nil =>
    intro mem p R row fuel h _ hrow hfuel
    obtain ⟨k, rfl⟩ : ∃ k, fuel = k + 1 := ⟨fuel - 1, by omega⟩
    have hlen : row.length ≠ 0 := by simpa using hrow
    simp only [rowRaw, List.nil_append] at h
    simp [getTableRowLoop, getTableCell_endrow mem p R h, hlen, rowRaw]
  | cons c cells ih =>
    intro mem p R row fuel h hc hrow hfuel
    obtain ⟨k, rfl⟩ : ∃ k, fuel = k + 1 := ⟨fuel - 1, by omega⟩
    have h1 : mem.drop p = cellRaw c ++ (rowRaw cells ++ (bytes "</tr>" ++ R)) := by
      rw [h]; simp [rowRaw]
    have h2 := drop_advance mem p (cellRaw c) _ h1
    have hk : cells.length < k := by simpa using hfuel
    have g := getTableCell_cell mem p c _ h1 (hc c (by simp))
    have ihc := ih mem (p + (cellRaw c).length) R (row ++ [some (cstr c.2)]) k h2
      (fun d hd => hc d (by simp [hd])) (by simp) hk
    rw [getTableRowLoop, g]
    simp only [Option.isSome_some, true_or, if_true, Option.getD_some]
    rw [ihc]
    simp [rowRaw, Nat.add_assoc]

theorem rowRaw_length_ge (cells : List (Bool × List Nat)) :
    cells.length ≤ (rowRaw cells).length := by
  induction cells with
  | nil => simp
  | cons c cells ih =>
    simp only [rowRaw, List.length_cons, List.length_append, cellRaw_length]
    omega

theorem numColumns_row (cells : List (List Nat)) :
    numColumns (some (cells.map (fun c => some c) ++ [none])) = cells.length := by
  induction cells with
  | nil => simp [numColumns]
  | cons c cells ih =>
    simp only [numColumns, List.map_cons, List.cons_append, Option.isSome_some,
      List.takeWhile_cons_of_pos, List.length_cons, Nat.cast_add, Nat.cast_one] at ih ⊢
    rw [ih]

/-- C1: with the cursor behind the opening table tag (behind `pre`), on a row `<tr>`, then
`n ≥ 1` cells `<td>c</td>` or `<th>c</th>` whose texts hold no `<` and no NUL, then
`</tr></table>`: `getTableRow` returns exactly the cell texts in order followed by the `NULL`
sentinel and leaves the cursor behind `</tr>`; `numColumns` of that row is `n`; and the next
`getTableRow` call returns the absent row. -/
theorem C1_row_extraction (pre rest mem : List Nat) (cells : List (Bool × List Nat))
    (hne : cells ≠ []) (hc : ∀ c ∈ cells, 60 ∉ c.2 ∧ 0 ∉ c.2)
    (hmem : mem = pre ++ (bytes "<tr>" ++ (rowRaw cells ++
      (bytes "</tr>" ++ (bytes "</table>" ++ rest))))) :
    getTableRow ⟨mem, pre.length⟩ =
        some (some (cells.map (fun c => some c.2) ++ [none]),
          ⟨mem, pre.length + 4 + (rowRaw cells).length + 5⟩) ∧
      numColumns (some (cells.map (fun c => some c.2) ++ [none])) = cells.length ∧
      getTableRow ⟨mem, pre.length + 4 + (rowRaw cells).length + 5⟩ =
        some (none, ⟨mem, pre.length + 4 + (rowRaw cells).length + 5 + 8⟩) := by
  have hcs : ∀ c ∈ cells, cstr c.2 = c.2 := fun c hcm =>
    cstr_eq_self c.2 (fun x hx h0 => (hc c hcm).2 (h0 ▸ hx))
  have h0 : mem.drop pre.length = bytes "<tr>" ++ (rowRaw cells ++
      (bytes "</tr>" ++ (bytes "</table>" ++ rest))) := by
    rw [hmem, List.drop_left]
  have h1 : mem.drop (pre.length + 4) = rowRaw cells ++
      (bytes "</tr>" ++ (bytes "</table>" ++ rest)) := drop_advance mem _ (bytes "<tr>") _ h0
  have h2 := drop_advance mem _ (rowRaw cells) _ h1
  have h3 : mem.drop (pre.length + 4 + (rowRaw cells).length + 5) = bytes "</table>" ++ rest :=
    drop_advance mem _ (bytes "</tr>") _ h2
  refine ⟨?_, ?_, ?_⟩
  · rcases cells with _ | ⟨c, cs⟩
    · exact absurd rfl hne
    · have hlen : (mem.drop pre.length).length = 4 + ((rowRaw (c :: cs)).length + (13 + rest.length)) := by
        rw [h0]
        simp [bytes]
        omega
      have hb : 60 ∉ c.2 := (hc c (by simp)).1
      have h0b : mem.drop pre.length = bytes "<tr>" ++ (cellRaw c ++ (rowRaw cs ++
          (bytes "</tr>" ++ (bytes "</table>" ++ rest)))) := by
        rw [h0]; simp [rowRaw]
      have g := getTableCell_first mem pre.length c _ h0b hb
      have h1b : mem.drop (pre.length + 4 + (cellRaw c).length) = rowRaw cs ++
          (bytes "</tr>" ++ (bytes "</table>" ++ rest)) := by
        have h1c : mem.drop (pre.length + 4) = cellRaw c ++ (rowRaw cs ++
            (bytes "</tr>" ++ (bytes "</table>" ++ rest))) := by
          rw [h1]; simp [rowRaw]
        exact drop_advance mem _ (cellRaw c) _ h1c
      have hk : cs.length < (mem.drop pre.length).length := by
        have := rowRaw_length_ge cs
        rw [hlen]
        simp only [rowRaw, List.length_append]
        omega
      have r := getTableRowLoop_cells cs mem (pre.length + 4 + (cellRaw c).length)
        (bytes "</table>" ++ rest) [some (cstr c.2)] (mem.drop pre.length).length h1b
        (fun d hd => (hc d (by simp [hd])).1) (by simp) hk
      unfold getTableRow
      simp only [memBuf.unread]
      rw [getTableRowLoop, g]
      simp only [Option.isSome_some, true_or, if_true, Option.getD_none, List.nil_append]
      rw [r]
      have e1 : List.map (fun c => some (cstr c.2)) cs = List.map (fun c => some c.2) cs :=
        List.map_congr_left (fun d hd => by rw [hcs d (by simp [hd])])
      rw [e1, hcs c (by simp)]
      simp [rowRaw, Nat.add_assoc]
  · have := numColumns_row (cells.map (fun c => c.2))
    simpa [List.map_map] using this
  · unfold getTableRow
    rw [getTableRowLoop, getTableCell_endtable mem _ rest h3]
    simp

/-- C1 witness: behind the `<table>` of `<table><tr><td>A</td><td>B</td></tr></table>` the
row is `["A", "B"]` with its sentinel, it has 2 columns, and the next call returns the absent
row. -/
theorem C1_row_extraction_witness :
    getTableRow ⟨bytes "<table><tr><td>A</td><td>B</td></tr></table>", 7⟩ =
        some (some [some (bytes "A"), some (bytes "B"), none],
          ⟨bytes "<table><tr><td>A</td><td>B</td></tr></table>", 36⟩) ∧
      numColumns (some [some (bytes "A"), some (bytes "B"), none]) = 2 ∧
      getTableRow ⟨bytes "<table><tr><td>A</td><td>B</td></tr></table>", 36⟩ =
        some (none, ⟨bytes "<table><tr><td>A</td><td>B</td></tr></table>", 44⟩) :=
  C1_row_extraction (bytes "<table>") [] (bytes "<table><tr><td>A</td><td>B</td></tr></table>")
    [(false, bytes "A"), (false, bytes "B")] (by decide) (by decide) (by decide)

/-! ## `addutf8char` -/

theorem addutf8charLoop_zero (k : Nat) : addutf8charLoop k 0 = [] := by
  cases k <;> simp [addutf8charLoop]

theorem addutf8charLoop_succ (k c : Nat) :
    addutf8charLoop (k + 1) c =
      (if c / 16777216 ≠ 0 then [c / 16777216] else [])
        ++ addutf8charLoop k ((c % 16777216) * 256) := by
  by_cases h : c = 0
  · subst h
    simp [addutf8charLoop, addutf8charLoop_zero]
  · simp [addutf8charLoop, h]

theorem addutf8charLoop_four (c : Nat) :
    addutf8charLoop 4 c =
      [c / 16777216, c / 65536 % 256, c / 256 % 256, c % 256].filter (fun b => b != 0) := by
  have e1 : c % 16777216 * 256 / 16777216 = c / 65536 % 256 := by omega
  have e2 : c % 16777216 * 256 % 16777216 * 256 / 16777216 = c / 256 % 256 := by omega
  have e3 : c % 16777216 * 256 % 16777216 * 256 % 16777216 * 256 / 16777216 = c % 256 := by
    omega
  rw [show (4 : Nat) = 3 + 1 from rfl, addutf8charLoop_succ]
  rw [show (3 : Nat) = 2 + 1 from rfl, addutf8charLoop_succ]
  rw [show (2 : Nat) = 1 + 1 from rfl, addutf8charLoop_succ]
  rw [show (1 : Nat) = 0 + 1 from rfl, addutf8charLoop_succ]
  rw [e1, e2, e3]
  have z : ∀ x, addutf8charLoop 0 x = [] := fun x => rfl
  rw [z, List.append_nil]
  simp only [List.filter_cons, List.filter_nil, bne_iff_ne, ne_eq, ite_not, decide_not]
  by_cases h1 : c / 16777216 = 0 <;> by_cases h2 : c / 65536 % 256 = 0 <;>
    by_cases h3 : c / 256 % 256 = 0 <;> by_cases h4 : c % 256 = 0 <;>
    simp [h1, h2, h3, h4]

/-- C17 (the claim as stated fails): for `c = 0x0100` `addutf8char` stores the one byte `01`,
not the two bytes `01 00`. -/
theorem C17_counterexample :
    (addutf8char 0x0100).1 = [1] ∧ (addutf8char 0x0100).1 ≠ [1, 0] := by
  decide

/-- C17 (amended): for every 32-bit `c ≠ 0` `addutf8char` stores the non-zero bytes of `c`
in big-endian order, leaving out every zero byte, and returns their number less one; for
`c = 0` it stores the single placeholder byte `?` and returns 0. -/
theorem C17_addutf8char_nonzero_bytes (c : Nat) (hc : c < 4294967296) :
    (c ≠ 0 →
      (addutf8char c).1 =
          [c / 16777216, c / 65536 % 256, c / 256 % 256, c % 256].filter (fun b => b != 0) ∧
        (addutf8char c).1 ≠ [] ∧
        (addutf8char c).2 = (addutf8char c).1.length - 1) ∧
    (c = 0 → addutf8char c = ([63], 0)) := by
  constructor
  · intro h0
    have hm : c % 4294967296 = c := Nat.mod_eq_of_lt hc
    have hne : [c / 16777216, c / 65536 % 256, c / 256 % 256, c % 256].filter
        (fun b => b != 0) ≠ [] := by
      intro h
      rw [List.filter_eq_nil_iff] at h
      have h1 := h (c / 16777216) (by simp)
      have h2 := h (c / 65536 % 256) (by simp)
      have h3 := h (c / 256 % 256) (by simp)
      have h4 := h (c % 256) (by simp)
      simp only [bne_iff_ne, ne_eq, not_not] at h1 h2 h3 h4
      omega
    have e : addutf8char c = ([c / 16777216, c / 65536 % 256, c / 256 % 256, c % 256].filter
        (fun b => b != 0), ([c / 16777216, c / 65536 % 256, c / 256 % 256, c % 256].filter
        (fun b => b != 0)).length - 1) := by
      unfold addutf8char
      simp only [hm, addutf8charLoop_four c, hne, if_false]
    rw [e]
    exact ⟨rfl, hne, rfl⟩
  · intro h0
    subst h0
    decide

/-- C17 witness: `0xE284A2` is stored as `E2 84 A2` with return value 2. -/
theorem C17_addutf8char_nonzero_bytes_witness :
    (addutf8char 0xE284A2).1 = [0xE2, 0x84, 0xA2] ∧ (addutf8char 0xE284A2).1 ≠ [] ∧
      (addutf8char 0xE284A2).2 = 2 :=
  (C17_addutf8char_nonzero_bytes 0xE284A2 (by decide)).1 (by decide)
/-! ## Further evaluations -/

/-- C13 (code at the failing input): in UTF-8 mode `&#228;` and `&#xE4;` return the single
byte `E4` (twice when the flag `f` is zero), not the UTF-8 bytes `C3 A4` that `&auml;`
returns; `&#8364;` returns the bytes `20 AC` of the number, not `E2 82 AC`. -/
theorem C13_numeric_reference_not_utf8 :
    getNonTag true true ⟨bytes "&#228;", 0⟩ = some (some [0xE4], ⟨bytes "&#228;", 6⟩) ∧
    getNonTag true false ⟨bytes "&#228;", 0⟩ = some (some [0xE4, 0xE4], ⟨bytes "&#228;", 6⟩) ∧
    getNonTag true true ⟨bytes "&#xE4;", 0⟩ = some (some [0xE4], ⟨bytes "&#xE4;", 6⟩) ∧
    getNonTag true true ⟨bytes "&auml;", 0⟩ = some (some [0xC3, 0xA4], ⟨bytes "&auml;", 6⟩) ∧
    getNonTag true true ⟨bytes "&#8364;", 0⟩ = some (some [0x20, 0xAC], ⟨bytes "&#8364;", 7⟩) := by
  decide

/-- C14 (code at the failing input): behind the `<table>` of
`<table><tr></tr><tr><td>A</td></tr></table>` the first `getTableRow` call returns the absent
row with the cursor behind the first `</tr>`, where the table goes on: the next call returns
the row `["A"]`. -/
theorem C14_empty_row_is_absent :
    getTableRow ⟨bytes "<table><tr></tr><tr><td>A</td></tr></table>", 7⟩ =
      some (none, ⟨bytes "<table><tr></tr><tr><td>A</td></tr></table>", 16⟩) ∧
    getTableRow ⟨bytes "<table><tr></tr><tr><td>A</td></tr></table>", 16⟩ =
      some (some [some (bytes "A"), none],
        ⟨bytes "<table><tr></tr><tr><td>A</td></tr></table>", 35⟩) := by
  constructor <;> decide

/-! ## Unknown entities -/

theorem isalnum_plain (c : Nat) (h : isalnum c) : plainByte c := by
  unfold plainByte
  rcases h with (⟨h1, h2⟩ | ⟨h1, h2⟩) | ⟨h1, h2⟩ <;> omega

theorem semicolonCase_unknown (utf8 f : Bool) (name : List Nat) (hne : name ≠ [])
    (hname : ∀ c ∈ name, isalnum c)
    (hknown : name ∉ [bytes "trade", bytes "amp", bytes "gt", bytes "lt", bytes "quot",
      bytes "nbsp"])
    (hfam : utf8 = true → name.tail ∉ [bytes "acute", bytes "grave", bytes "cedil",
      bytes "circ", bytes "tilde", bytes "uml"]) :
    semicolonCase utf8 (38 :: name) 1 f = (38 :: name ++ [59], 0, false) := by
  have hz : ∀ c ∈ name, c ≠ 0 := fun c hc => (isalnum_plain c (hname c hc)).1
  have hz2 : ∀ c ∈ name.tail, c ≠ 0 := fun c hc => hz c (List.mem_of_mem_tail hc)
  have c1 : cstr name = name := cstr_eq_self name hz
  have c2 : cstr name.tail = name.tail := cstr_eq_self _ hz2
  obtain ⟨a, rest, rfl⟩ := List.exists_cons_of_ne_nil hne
  have ha : a ≠ 35 := by
    have := hname a (by simp)
    rcases this with (⟨h1, h2⟩ | ⟨h1, h2⟩) | ⟨h1, h2⟩ <;> omega
  simp only [List.tail_cons] at c2 hfam
  simp only [List.mem_cons, List.mem_singleton, List.not_mem_nil, or_false, not_or] at hknown hfam
  obtain ⟨k1, k2, k3, k4, k5, k6⟩ := hknown
  have hl : entityLookup utf8 (38 :: a :: rest) 1 entity2utf8 = none := by
    cases utf8
    · simp [entityLookup, entity2utf8, c1, k1, k2, k3, k4, k5]
    · obtain ⟨m1, m2, m3, m4, m5, m6⟩ := hfam rfl
      simp [entityLookup, entity2utf8, c1, c2, k1, k2, k3, k4, k5, m1, m2, m3, m4, m5, m6]
  simp [semicolonCase, convertEntity, ha, hl, c1, k6]

/-- C16: an entity whose name is made of letters and digits (at least one), is none of
`trade`, `amp`, `gt`, `lt`, `quot`, `nbsp`, and in UTF-8 mode does not continue after its first
character with an accent family name, is returned unchanged: `getNonTag` on `&name;` returns
`&name;` with the `;`.  A `;` read while no `&` is pending is appended as it is, whatever the
buffer.  `&foo;` returns `&foo;` and `a;b` returns `a;b`. -/
theorem C16_unknown_entity_literal (utf8 : Bool) (name : List Nat) (hne : name ≠ [])
    (hname : ∀ c ∈ name, isalnum c)
    (hknown : name ∉ [bytes "trade", bytes "amp", bytes "gt", bytes "lt", bytes "quot",
      bytes "nbsp"])
    (hfam : utf8 = true → name.tail ∉ [bytes "acute", bytes "grave", bytes "cedil",
      bytes "circ", bytes "tilde", bytes "uml"]) :
    (∀ f0, getNonTag utf8 f0 ⟨38 :: name ++ [59], 0⟩ =
      some (some (38 :: name ++ [59]), ⟨38 :: name ++ [59], name.length + 2⟩)) ∧
    (∀ buf f, textScan utf8 [59] (buf, 0, f) = (buf ++ [59], 0, f)) ∧
    (∀ f0, getNonTag utf8 f0 ⟨bytes "a;b", 0⟩ = some (some (bytes "a;b"), ⟨bytes "a;b", 3⟩)) := by
  refine ⟨fun f0 => ?_, fun buf f => ?_, ?_⟩
  · have hpl : ∀ c ∈ name, plainByte c := fun c hc => isalnum_plain c (hname c hc)
    have h60 : 60 ∉ 38 :: name ++ [59] := by
      intro h
      simp only [List.cons_append, List.mem_cons, List.mem_append, List.mem_singleton,
        List.not_mem_nil, or_false] at h
      rcases h with h | h | h
      · exact absurd h (by decide)
      · exact (plainByte_ne 60 (hpl 60 h)).2.2 rfl
      · exact absurd h (by decide)
    rw [getNonTag_textScan utf8 f0 _ h60 (by simp), textScan_entity utf8 name hpl,
      semicolonCase_unknown utf8 f0 name hne hname hknown hfam]
    rw [textAtEof_eq_self]
    · simp
    · simp
    · intro c hc
      simp only [List.nil_append, List.cons_append, List.mem_cons, List.mem_append,
        List.mem_singleton, List.not_mem_nil, or_false] at hc
      rcases hc with rfl | hc | rfl
      · decide
      · exact ⟨(plainByte_ne c (hpl c hc)).1, (plainByte_ne c (hpl c hc)).2.1⟩
      · decide
  · simp [textScan, nonTagStep, semicolonCase]
  · cases utf8 <;> decide

/-- C16 witness: `&foo;` returns `&foo;` in UTF-8 mode. -/
theorem C16_unknown_entity_literal_witness :
    getNonTag true false ⟨bytes "&foo;", 0⟩ = some (some (bytes "&foo;"), ⟨bytes "&foo;", 5⟩) :=
  (C16_unknown_entity_literal true (bytes "foo") (by decide)
    (by unfold isalnum isalpha; decide) (by decide) (by decide)).1 false

/-! ## Progress and termination of the tokenizers -/

theorem getTagFrom_two (l : List Nat) (h : (getTagFrom l).1 ≠ none) :
    (getTagFrom l).2.length + 2 ≤ l.length := by
  unfold getTagFrom at h ⊢
  rcases hs : skipToLt l with _ | r
  · rw [hs] at h; simp at h
  · have hlen := skipToLt_length l r hs
    rw [hs] at h
    rcases r with _ | ⟨c, r1⟩
    · simp at h
    · simp only [List.length_cons] at hlen
      have hc : ∀ r b, r.length ≤ r1.length → (commentLoop r b).2.length + 2 ≤ l.length :=
        fun r b hr => by have := (commentLoop_rest r b).1; omega
      have ht : ∀ r b, r.length ≤ r1.length → (tagLoop r b false).2.length + 2 ≤ l.length :=
        fun r b hr => by have := (tagLoop_rest _ r b false le_rfl).1; omega
      simp only
      split_ifs
      · simp; omega
      · rcases r1 with _ | ⟨c2, r2⟩
        · simp; omega
        · simp only
          split_ifs
          · simp; simp at hlen; omega
          · rcases r2 with _ | ⟨c3, r3⟩
            · simp; simp at hlen; omega
            · simp only
              split_ifs
              · simp; simp at hlen; omega
              · exact hc r3 _ (by simp; omega)
          · exact ht r2 _ (by simp)
      · exact ht r1 _ le_rfl

theorem advanceTo_readptr (mp : memBuf) (rest : List Nat) (h : mp.readptr ≤ mp.memory.length)
    (hr : rest.length ≤ mp.unread.length) :
    (mp.advanceTo rest).readptr + rest.length = mp.memory.length ∧
      (mp.advanceTo rest).memory = mp.memory := by
  simp only [memBuf.advanceTo, memBuf.unread, List.length_drop] at hr ⊢
  constructor
  · omega
  · trivial

theorem getNonTagLoop_total (utf8 : Bool) (fuel : Nat) :
    ∀ (l buf : List Nat) (amp : Nat) (f : Bool), l.length < fuel →
      ∃ r, getNonTagLoop utf8 fuel l buf amp f = some r ∧ r.2.length ≤ l.length ∧
        (r.1 = none → r.2 = []) ∧ (r.1 ≠ none → buf = [] → r.2.length < l.length) := by
  induction fuel with
  | zero => intro l buf amp f h; omega
  | succ fuel ih =>
    intro l buf amp f hl
    rcases l with _ | ⟨c, rest⟩
    · refine ⟨(textAtEof buf, []), by simp [getNonTagLoop], le_rfl, fun _ => rfl, ?_⟩
      intro h hb
      subst hb
      exact absurd (by decide : textAtEof [] = none) h
    · simp only [List.length_cons] at hl ⊢
      by_cases hc : c = 60
      · subst hc
        by_cases hb : 0 < buf.length
        · refine ⟨(some (cstr (trimSpace buf)), 60 :: rest), by simp [getNonTagLoop, hb],
            by simp, by simp, ?_⟩
          intro _ hbuf
          subst hbuf
          simp at hb
        · have hlt : (getTagFrom (60 :: rest)).2.length < rest.length + 1 := by
            by_cases hn : (getTagFrom (60 :: rest)).1 = none
            · rw [(getTagFrom_rest (60 :: rest)).1 hn]; simp
            · simpa using (getTagFrom_rest (60 :: rest)).2 hn
          obtain ⟨r, h1, h2, h3, h4⟩ := ih (getTagFrom (60 :: rest)).2 buf amp f (by omega)
          refine ⟨r, by simp [getNonTagLoop, hb, h1], by omega, h3, fun _ _ => by omega⟩
      · obtain ⟨r, h1, h2, h3, h4⟩ := ih rest (nonTagStep utf8 c buf amp f).1
          (nonTagStep utf8 c buf amp f).2.1 (nonTagStep utf8 c buf amp f).2.2 (by omega)
        refine ⟨r, by simp [getNonTagLoop, hc, h1], by omega, h3, fun _ _ => by omega⟩

theorem getTag_progress (mp : memBuf) (h : mp.readptr ≤ mp.memory.length) :
    (getTag mp).2.memory = mp.memory ∧ (getTag mp).2.readptr ≤ mp.memory.length ∧
      ((getTag mp).1 ≠ none → mp.readptr + 2 ≤ (getTag mp).2.readptr) ∧
      ((getTag mp).1 = none → (getTag mp).2.readptr = mp.memory.length) := by
  have hle : (getTagFrom mp.unread).2.length ≤ mp.unread.length := by
    by_cases hn : (getTagFrom mp.unread).1 = none
    · rw [(getTagFrom_rest mp.unread).1 hn]; simp
    · exact Nat.le_of_lt ((getTagFrom_rest mp.unread).2 hn)
  obtain ⟨a1, a2⟩ := advanceTo_readptr mp (getTagFrom mp.unread).2 h hle
  have hu : mp.unread.length = mp.memory.length - mp.readptr := by
    simp [memBuf.unread]
  refine ⟨a2, ?_, ?_, ?_⟩
  · show (mp.advanceTo (getTagFrom mp.unread).2).readptr ≤ mp.memory.length
    omega
  · intro hs
    have := getTagFrom_two mp.unread hs
    show mp.readptr + 2 ≤ (mp.advanceTo (getTagFrom mp.unread).2).readptr
    omega
  · intro hn
    have h0 := (getTagFrom_rest mp.unread).1 hn
    show (mp.advanceTo (getTagFrom mp.unread).2).readptr = mp.memory.length
    rw [h0] at a1 ⊢
    simpa using a1

theorem memEof_iff (mp : memBuf) (h : mp.readptr ≤ mp.memory.length) :
    memEof mp = true ↔ mp.readptr = mp.memory.length := by
  simp only [memEof, memBuf.unread, List.isEmpty_iff, List.drop_eq_nil_iff]
  omega

theorem getNonTag_progress (utf8 f0 : Bool) (mp : memBuf) (h : mp.readptr ≤ mp.memory.length) :
    ∃ r, getNonTag utf8 f0 mp = some r ∧ r.2.memory = mp.memory ∧
      r.2.readptr ≤ mp.memory.length ∧ (r.1 ≠ none → mp.readptr + 1 ≤ r.2.readptr) ∧
      (r.1 = none → r.2.readptr = mp.memory.length) := by
  by_cases he : memEof mp = true
  · refine ⟨(none, mp), by simp [getNonTag, he], rfl, h, by simp, fun _ => ?_⟩
    exact (memEof_iff mp h).mp he
  · obtain ⟨r, h1, h2, h3, h4⟩ :=
      getNonTagLoop_total utf8 (mp.unread.length + 1) mp.unread [] 0 f0 (Nat.lt_succ_self _)
    obtain ⟨a1, a2⟩ := advanceTo_readptr mp r.2 h h2
    have hu : mp.unread.length = mp.memory.length - mp.readptr := by
      simp [memBuf.unread]
    refine ⟨(r.1, mp.advanceTo r.2), by simp [getNonTag, he, h1], a2, ?_, ?_, ?_⟩
    · show (mp.advanceTo r.2).readptr ≤ mp.memory.length
      omega
    · intro hs
      have := h4 hs rfl
      show mp.readptr + 1 ≤ (mp.advanceTo r.2).readptr
      omega
    · intro hn
      have h0 := h3 hn
      show (mp.advanceTo r.2).readptr = mp.memory.length
      rw [h0] at a1 ⊢
      simpa using a1

theorem calls_at_end (utf8 f0 : Bool) (mp : memBuf) (h : mp.readptr = mp.memory.length) :
    getTag mp = (none, mp) ∧ getNonTag utf8 f0 mp = some (none, mp) := by
  have he : memEof mp = true := (memEof_iff mp (Nat.le_of_eq h)).mpr h
  have hu : mp.unread = [] := by simpa [memEof] using he
  constructor
  · simp [getTag, hu, getTagFrom, skipToLt, memBuf.advanceTo]
  · simp [getNonTag, he]

theorem runCall_progress (c : Call) (mp : memBuf) (h : mp.readptr ≤ mp.memory.length) :
    ∃ r, runCall c mp = some r ∧ r.2.memory = mp.memory ∧
      r.2.readptr ≤ mp.memory.length ∧ (r.1 ≠ none → mp.readptr + 1 ≤ r.2.readptr) ∧
      (r.1 = none → r.2.readptr = mp.memory.length) := by
  cases c with
  | tag =>
    obtain ⟨h1, h2, h3, h4⟩ := getTag_progress mp h
    exact ⟨getTag mp, rfl, h1, h2, fun hs => by have := h3 hs; omega, h4⟩
  | text utf8 f0 => exact getNonTag_progress utf8 f0 mp h

theorem runCalls_at_end (calls : List Call) (mp : memBuf)
    (h : mp.readptr = mp.memory.length) :
    runCalls calls mp = some (List.replicate calls.length none, mp) := by
  induction calls with
  | nil => rfl
  | cons c cs ih =>
    have hc : runCall c mp = some (none, mp) := by
      cases c with
      | tag => simp [runCall, (calls_at_end true true mp h).1]
      | text utf8 f0 => simp [runCall, (calls_at_end utf8 f0 mp h).2]
    simp [runCalls, hc, ih, List.replicate_succ]

theorem runCalls_spec (calls : List Call) : ∀ (mp : memBuf), mp.readptr ≤ mp.memory.length →
    ∃ res, runCalls calls mp = some res ∧ res.2.memory = mp.memory ∧
      res.2.readptr ≤ mp.memory.length ∧ res.1.length = calls.length ∧
      (res.1.filter (fun x => x.isSome)).length ≤ mp.memory.length - mp.readptr ∧
      (∀ x ∈ res.1.dropWhile (fun x => x.isSome), x = none) ∧
      (mp.memory.length - mp.readptr < calls.length → res.1.getLast? = some none) := by
  induction calls with
  | nil =>
    intro mp h
    exact ⟨([], mp), rfl, rfl, h, rfl, by simp, by simp, by simp⟩
  | cons c cs ih =>
    intro mp h
    obtain ⟨r, h1, h2, h3, h4, h5⟩ := runCall_progress c mp h
    rcases r with ⟨tok, mp1⟩
    simp only at h2 h3 h4 h5
    cases tok with
    | none =>
      have hend : mp1.readptr = mp1.memory.length := by rw [h2]; exact h5 rfl
      have hrest := runCalls_at_end cs mp1 hend
      refine ⟨(none :: List.replicate cs.length none, mp1), by simp [runCalls, h1, hrest],
        h2, h3, by simp, by simp, ?_, ?_⟩
      · intro x hx
        simp only [Option.isSome_none, Bool.false_eq_true, not_false_eq_true,
          List.dropWhile_cons_of_neg, List.mem_cons] at hx
        rcases hx with rfl | hx
        · rfl
        · exact (List.mem_replicate.mp hx).2
      · intro _
        rw [← List.replicate_succ, List.getLast?_replicate]
        simp
    | some t =>
      have hadv : mp.readptr + 1 ≤ mp1.readptr := h4 (by simp)
      obtain ⟨res, g1, g2, g3, g4, g5, g6, g7⟩ := ih mp1 (by rw [h2]; exact h3)
      rcases res with ⟨toks, mp2⟩
      simp only at g2 g3 g4 g5 g6 g7
      rw [h2] at g2 g3 g5 g7
      refine ⟨(some t :: toks, mp2), by simp [runCalls, h1, g1], g2, g3, by simp [g4], ?_, ?_, ?_⟩
      · simp only [Option.isSome_some, List.filter_cons_of_pos, List.length_cons]
        omega
      · simpa using g6
      · intro hlt
        simp only [List.length_cons] at hlt
        have hlt2 : mp.memory.length - mp1.readptr < cs.length := by omega
        have hne : toks ≠ [] := by
          intro h0
          rw [h0] at g4
          simp at g4
          omega
        obtain ⟨a, t2, ht⟩ := List.exists_cons_of_ne_nil hne
        rw [ht, List.getLast?_cons_cons, ← ht]
        exact g7 hlt2

/-- C12: on a byte source of `n` bytes with the cursor anywhere in `0..n`: a `getTag` call
that returns a tag advances the cursor by at least 2 bytes and a `getNonTag` call (which
always returns) that returns a text advances it by at least 1 byte; the cursor never exceeds
`n`; either function returns `NULL` only with the cursor at `n`, and with the cursor at `n`
both return `NULL` and leave it there.  So in any sequence of calls the calls that return a
token come first and are at most `n` minus the cursor many, and when the sequence is longer
than that its last call returns `NULL`. -/
theorem C12_progress_and_termination (mp : memBuf) (h : mp.readptr ≤ mp.memory.length)
    (utf8 f0 : Bool) :
    ((getTag mp).2.readptr ≤ mp.memory.length ∧
      ((getTag mp).1 ≠ none → mp.readptr + 2 ≤ (getTag mp).2.readptr) ∧
      ((getTag mp).1 = none → (getTag mp).2.readptr = mp.memory.length)) ∧
    (∃ r, getNonTag utf8 f0 mp = some r ∧ r.2.readptr ≤ mp.memory.length ∧
      (r.1 ≠ none → mp.readptr + 1 ≤ r.2.readptr) ∧
      (r.1 = none → r.2.readptr = mp.memory.length)) ∧
    (mp.readptr = mp.memory.length →
      getTag mp = (none, mp) ∧ getNonTag utf8 f0 mp = some (none, mp)) ∧
    (∀ calls, ∃ res, runCalls calls mp = some res ∧ res.1.length = calls.length ∧
      (res.1.filter (fun x => x.isSome)).length ≤ mp.memory.length - mp.readptr ∧
      (∀ x ∈ res.1.dropWhile (fun x => x.isSome), x = none) ∧
      (mp.memory.length - mp.readptr < calls.length → res.1.getLast? = some none)) := by
  refine ⟨?_, ?_, calls_at_end utf8 f0 mp, fun calls => ?_⟩
  · obtain ⟨_, h2, h3, h4⟩ := getTag_progress mp h
    exact ⟨h2, h3, h4⟩
  · obtain ⟨r, h1, _, h3, h4, h5⟩ := getNonTag_progress utf8 f0 mp h
    exact ⟨r, h1, h3, h4, h5⟩
  · obtain ⟨res, g1, _, _, g4, g5, g6, g7⟩ := runCalls_spec calls mp h
    exact ⟨res, g1, g4, g5, g6, g7⟩

/-- C12 witness: on the 8 bytes `<b>x</b>` the calls `getTag`, `getNonTag`, `getTag`,
`getTag` return `b`, `x`, `/b` and `NULL`. -/
theorem C12_progress_and_termination_witness :
    runCalls [Call.tag, Call.text true false, Call.tag, Call.tag] ⟨bytes "<b>x</b>", 0⟩ =
        some ([some (bytes "b"), some (bytes "x"), some (bytes "/b"), none],
          ⟨bytes "<b>x</b>", 8⟩) ∧
      ∃ res, runCalls (List.replicate 9 Call.tag) ⟨bytes "<b>x</b>", 0⟩ = some res ∧
        res.1.length = (List.replicate 9 Call.tag).length ∧
        (res.1.filter (fun x => x.isSome)).length ≤ (bytes "<b>x</b>").length - 0 ∧
        (∀ x ∈ res.1.dropWhile (fun x => x.isSome), x = none) ∧
        ((bytes "<b>x</b>").length - 0 < (List.replicate 9 Call.tag).length →
          res.1.getLast? = some none) :=
  ⟨by decide, (C12_progress_and_termination ⟨bytes "<b>x</b>", 0⟩ (by decide) true false).2.2.2
    (List.replicate 9 Call.tag)⟩

/-! ## What `getTag` leaves unread is a suffix of what it was given -/

theorem skipToLt_suffix (l r : List Nat) (h : skipToLt l = some r) : r <:+ l := by
  induction l with
  | nil => simp [skipToLt] at h
  | cons c l ih =>
    simp only [skipToLt] at h
    split_ifs at h
    · simp only [Option.some.injEq] at h
      rw [← h]
      exact List.suffix_cons c l
    · exact (ih h).trans (List.suffix_cons c l)

theorem commentLoop_suffix (l buf : List Nat) : (commentLoop l buf).2 <:+ l := by
  induction l generalizing buf with
  | nil => simp [commentLoop]
  | cons c l ih =>
    rw [commentLoop_cons]
    split_ifs
    · exact List.suffix_cons c l
    · exact (ih buf).trans (List.suffix_cons c l)
    · exact (ih _).trans (List.suffix_cons c l)

theorem tagLoop_suffix (n : Nat) : ∀ (l buf : List Nat) (s : Bool), l.length ≤ n →
    (tagLoop l buf s).2 <:+ l := by
  induction n with
  | zero =>
    intro l buf s hl
    have : l = [] := List.length_eq_zero.mp (Nat.le_zero.mp hl)
    subst this
    simp [tagLoop_nil]
  | succ n ih =>
    intro l buf s hl
    rcases l with _ | ⟨c, rest⟩
    · simp [tagLoop_nil]
    · have hr : rest.length ≤ n := by simpa using hl
      have step : ∀ b t, (tagLoop rest b t).2 <:+ c :: rest := fun b t =>
        (ih rest b t hr).trans (List.suffix_cons c rest)
      rw [tagLoop_cons]
      split_ifs
      · rcases rest with _ | ⟨c2, rest2⟩
        · simp
        · have hr2 : rest2.length ≤ n := by
            simp only [List.length_cons] at hr
            omega
          exact ((ih rest2 _ s hr2).trans (List.suffix_cons c2 rest2)).trans
            (List.suffix_cons c _)
      all_goals first | exact step _ _ | exact List.suffix_cons c rest

theorem getTagFrom_suffix (l : List Nat) : (getTagFrom l).2 <:+ l := by
  unfold getTagFrom
  rcases h : skipToLt l with _ | r
  · simp
  · have hs := skipToLt_suffix l r h
    rcases r with _ | ⟨c, r1⟩
    · simp
    · have h1 : r1 <:+ l := (List.suffix_cons c r1).trans hs
      simp only
      split_ifs
      · exact h1
      · rcases r1 with _ | ⟨c2, r2⟩
        · simp
        · have h2 : r2 <:+ l := (List.suffix_cons c2 r2).trans h1
          simp only
          split_ifs
          · exact h2
          · rcases r2 with _ | ⟨c3, r3⟩
            · simp
            · have h3 : r3 <:+ l := (List.suffix_cons c3 r3).trans h2
              simp only
              split_ifs
              · exact h3
              · exact (commentLoop_suffix r3 _).trans h3
          · exact (tagLoop_suffix _ r2 _ false le_rfl).trans h2
      · exact (tagLoop_suffix _ r1 _ false le_rfl).trans h1

/-! ## The text buffer while no `&` is read -/

theorem nonTagStep_noamp (utf8 : Bool) (c : Nat) (buf : List Nat) (f : Bool) (hc : c ≠ 38) :
    nonTagStep utf8 c buf 0 f =
      (if isTextWs utf8 c = true then addSpace buf else buf ++ [c], 0, f) := by
  unfold nonTagStep isTextWs semicolonCase
  cases utf8 <;> split_ifs <;> simp_all

theorem isTextWs_space (utf8 : Bool) : isTextWs utf8 32 = true := by
  cases utf8 <;> rfl

theorem Clean_nil (utf8 : Bool) : Clean utf8 [] := by
  simp [Clean]

theorem Clean_append (utf8 : Bool) (buf : List Nat) (c : Nat) (h : Clean utf8 buf)
    (hc : isTextWs utf8 c = false) : Clean utf8 (buf ++ [c]) := by
  have hc32 : c ≠ 32 := by
    rintro rfl
    rw [isTextWs_space] at hc
    exact absurd hc (by decide)
  obtain ⟨h1, h2, h3⟩ := h
  refine ⟨?_, ?_, ?_⟩
  · cases buf with
    | nil => simpa using hc32
    | cons a b => simpa using h1
  · rw [List.chain'_append]
    refine ⟨h2, List.chain'_singleton c, ?_⟩
    intro x _ y hy
    simp only [List.head?_cons, Option.mem_def, Option.some.injEq] at hy
    subst hy
    exact fun h => hc32 h.2
  · intro x hx
    rcases List.mem_append.mp hx with hx | hx
    · exact h3 x hx
    · simp only [List.mem_singleton] at hx
      subst hx
      exact Or.inr hc

theorem Clean_addSpace (utf8 : Bool) (buf : List Nat) (h : Clean utf8 buf) :
    Clean utf8 (addSpace buf) := by
  unfold addSpace
  split_ifs with hb
  · obtain ⟨h1, h2, h3⟩ := h
    obtain ⟨hpos, hlast⟩ := hb
    refine ⟨?_, ?_, ?_⟩
    · cases buf with
      | nil => simp at hpos
      | cons a b => simpa using h1
    · rw [List.chain'_append]
      refine ⟨h2, List.chain'_singleton 32, ?_⟩
      intro x hx y _
      intro hxy
      apply hlast
      simp only [Option.mem_def] at hx
      rw [lastByte, hx, hxy.1]
    · intro x hx
      rcases List.mem_append.mp hx with hx | hx
      · exact h3 x hx
      · simp only [List.mem_singleton] at hx
        exact Or.inl hx
  · exact h

theorem Clean_step (utf8 : Bool) (c : Nat) (buf : List Nat) (f : Bool) (hc : c ≠ 38)
    (h : Clean utf8 buf) :
    Clean utf8 (nonTagStep utf8 c buf 0 f).1 ∧ (nonTagStep utf8 c buf 0 f).2.1 = 0 := by
  rw [nonTagStep_noamp utf8 c buf f hc]
  refine ⟨?_, rfl⟩
  by_cases hw : isTextWs utf8 c = true
  · simp only [hw, if_true]
    exact Clean_addSpace utf8 buf h
  · simp only [hw, if_false]
    exact Clean_append utf8 buf c h (by simpa using hw)

theorem step_mem (utf8 : Bool) (c : Nat) (buf : List Nat) (f : Bool) (hc : c ≠ 38) :
    ∀ x ∈ (nonTagStep utf8 c buf 0 f).1, x ∈ buf ∨ x = c ∨ x = 32 := by
  rw [nonTagStep_noamp utf8 c buf f hc]
  intro x hx
  by_cases hw : isTextWs utf8 c = true
  · simp only [hw, if_true, addSpace] at hx
    split_ifs at hx
    · rcases List.mem_append.mp hx with hx | hx
      · exact Or.inl hx
      · exact Or.inr (Or.inr (by simpa using hx))
    · exact Or.inl hx
  · simp only [hw, if_false] at hx
    rcases List.mem_append.mp hx with hx | hx
    · exact Or.inl hx
    · exact Or.inr (Or.inl (by simpa using hx))

theorem Clean_trim (utf8 : Bool) (buf : List Nat) (h : Clean utf8 buf) (hne : buf ≠ []) :
    trimSpace buf ≠ [] ∧ Clean utf8 (trimSpace buf) ∧ (trimSpace buf).getLast? ≠ some 32 ∧
      ∀ x ∈ trimSpace buf, x ∈ buf := by
  obtain ⟨h1, h2, h3⟩ := h
  unfold trimSpace
  split_ifs with hb
  · obtain ⟨_, hlast⟩ := hb
    rcases List.eq_nil_or_concat buf with rfl | ⟨b1, c1, rfl⟩
    · exact absurd rfl hne
    · rw [List.concat_eq_append] at *
      simp [lastByte] at hlast
      subst hlast
      rw [List.dropLast_concat]
      rcases List.eq_nil_or_concat b1 with rfl | ⟨b2, c2, rfl⟩
      · simp at h1
      · rw [List.concat_eq_append] at *
        refine ⟨by simp, ⟨?_, ?_, ?_⟩, ?_, ?_⟩
        · cases b2 with
          | nil => simpa using h1
          | cons a b => simpa using h1
        · exact (List.chain'_append.mp h2).1
        · intro x hx
          exact h3 x (List.mem_append_left _ hx)
        · have := (List.chain'_append.mp h2).2.2 c2 (by simp) 32 (by simp)
          intro hc
          simp at hc
          exact this ⟨hc, rfl⟩
        · intro x hx
          exact List.mem_append_left _ hx
  · refine ⟨hne, ⟨h1, h2, h3⟩, ?_, fun x hx => hx⟩
    intro hl
    apply hb
    exact ⟨List.length_pos.mpr hne, hl⟩

theorem getNonTagLoop_clean (utf8 : Bool) (fuel : Nat) :
    ∀ (l buf : List Nat) (f : Bool), l.length < fuel → 38 ∉ l → Clean utf8 buf →
      ∃ r, getNonTagLoop utf8 fuel l buf 0 f = some r ∧
        ∀ tok, r.1 = some tok → ∃ T, tok = cstr T ∧ T ≠ [] ∧ Clean utf8 T ∧
          T.getLast? ≠ some 32 ∧ ∀ x ∈ T, x ∈ buf ∨ x ∈ l ∨ x = 32 := by
  induction fuel with
  | zero => intro l buf f h; omega
  | succ fuel ih =>
    intro l buf f hl hamp hclean
    have fromTrim : ∀ (rest : List Nat), buf ≠ [] →
        ∃ T, cstr (trimSpace buf) = cstr T ∧ T ≠ [] ∧ Clean utf8 T ∧
          T.getLast? ≠ some 32 ∧ ∀ x ∈ T, x ∈ buf ∨ x ∈ rest ∨ x = 32 := by
      intro rest hne
      obtain ⟨t1, t2, t3, t4⟩ := Clean_trim utf8 buf hclean hne
      exact ⟨trimSpace buf, rfl, t1, t2, t3, fun x hx => Or.inl (t4 x hx)⟩
    rcases l with _ | ⟨c, rest⟩
    · refine ⟨(textAtEof buf, []), by simp [getNonTagLoop], ?_⟩
      intro tok htok
      simp only [textAtEof] at htok
      split_ifs at htok with hpos
      simp only [Option.some.injEq] at htok
      have hne : buf ≠ [] := by
        rintro rfl
        simp [trimSpace] at hpos
      obtain ⟨T, e, r⟩ := fromTrim [] hne
      exact ⟨T, by rw [← htok, e], r⟩
    · simp only [List.length_cons] at hl
      have hc38 : c ≠ 38 := fun h => hamp (by simp [h])
      have hrest : 38 ∉ rest := fun h => hamp (by simp [h])
      by_cases hc : c = 60
      · subst hc
        by_cases hb : 0 < buf.length
        · refine ⟨(some (cstr (trimSpace buf)), 60 :: rest), by simp [getNonTagLoop, hb], ?_⟩
          intro tok htok
          simp only [Option.some.injEq] at htok
          obtain ⟨T, e, r⟩ := fromTrim (60 :: rest) (List.length_pos.mp hb)
          exact ⟨T, by rw [← htok, e], r⟩
        · have hsuf := getTagFrom_suffix (60 :: rest)
          have hlt : (getTagFrom (60 :: rest)).2.length < rest.length + 1 := by
            by_cases hn : (getTagFrom (60 :: rest)).1 = none
            · rw [(getTagFrom_rest (60 :: rest)).1 hn]; simp
            · simpa using (getTagFrom_rest (60 :: rest)).2 hn
          have h38 : 38 ∉ (getTagFrom (60 :: rest)).2 := fun h => hamp (hsuf.subset h)
          obtain ⟨r, h1, h2⟩ := ih (getTagFrom (60 :: rest)).2 buf f (by omega) h38 hclean
          refine ⟨r, by simp [getNonTagLoop, hb, h1], ?_⟩
          intro tok htok
          obtain ⟨T, e, t1, t2, t3, t4⟩ := h2 tok htok
          refine ⟨T, e, t1, t2, t3, fun x hx => ?_⟩
          rcases t4 x hx with h | h | h
          · exact Or.inl h
          · exact Or.inr (Or.inl (hsuf.subset h))
          · exact Or.inr (Or.inr h)
      · obtain ⟨s1, s2⟩ := Clean_step utf8 c buf f hc38 hclean
        have hf : (nonTagStep utf8 c buf 0 f).2.2 = f := by
          rw [nonTagStep_noamp utf8 c buf f hc38]
        obtain ⟨r, h1, h2⟩ := ih rest (nonTagStep utf8 c buf 0 f).1 f (by omega) hrest s1
        refine ⟨r, by simp [getNonTagLoop, hc, s2, hf, h1], ?_⟩
        intro tok htok
        obtain ⟨T, e, t1, t2, t3, t4⟩ := h2 tok htok
        refine ⟨T, e, t1, t2, t3, fun x hx => ?_⟩
        rcases t4 x hx with h | h | h
        · rcases step_mem utf8 c buf f hc38 x h with h | h | h
          · exact Or.inl h
          · exact Or.inr (Or.inl (by simp [h]))
          · exact Or.inr (Or.inr h)
        · exact Or.inr (Or.inl (List.mem_cons_of_mem c h))
        · exact Or.inr (Or.inr h)

theorem getNonTag_clean (utf8 f0 : Bool) (mp : memBuf) (hamp : 38 ∉ mp.unread) :
    ∃ r, getNonTag utf8 f0 mp = some r ∧
      ∀ tok, r.1 = some tok → ∃ T, tok = cstr T ∧ T ≠ [] ∧ Clean utf8 T ∧
        T.getLast? ≠ some 32 ∧ ∀ x ∈ T, x ∈ mp.unread ∨ x = 32 := by
  by_cases he : memEof mp = true
  · exact ⟨(none, mp), by simp [getNonTag, he], by simp⟩
  · obtain ⟨r, h1, h2⟩ := getNonTagLoop_clean utf8 (mp.unread.length + 1) mp.unread [] f0
      (Nat.lt_succ_self _) hamp (Clean_nil utf8)
    refine ⟨(r.1, mp.advanceTo r.2), by simp [getNonTag, he, h1], ?_⟩
    intro tok htok
    obtain ⟨T, e, t1, t2, t3, t4⟩ := h2 tok htok
    refine ⟨T, e, t1, t2, t3, fun x hx => ?_⟩
    rcases t4 x hx with h | h | h
    · simp at h
    · exact Or.inl h
    · exact Or.inr h

/-! ## Words and white-space runs -/

theorem textScan_ws_after_space (utf8 : Bool) (sep : List Nat)
    (hs : ∀ c ∈ sep, isTextWs utf8 c = true) (buf : List Nat) (f : Bool)
    (hb : buf = [] ∨ lastByte buf = some 32) :
    textScan utf8 sep (buf, 0, f) = (buf, 0, f) := by
  induction sep with
  | nil => rfl
  | cons c sep ih =>
    have hw := hs c (by simp)
    have h38 : c ≠ 38 := by
      rintro rfl
      revert hw
      cases utf8 <;> decide
    have e : addSpace buf = buf := by
      unfold addSpace
      rcases hb with rfl | hb
      · simp
      · simp [hb]
    simp only [textScan, nonTagStep_noamp utf8 c buf f h38, hw, if_true, e]
    exact ih (fun d hd => hs d (by simp [hd]))

theorem textScan_ws (utf8 : Bool) (sep : List Nat) (hs : ∀ c ∈ sep, isTextWs utf8 c = true)
    (hne : sep ≠ []) (buf : List Nat) (f : Bool) (hb : buf ≠ [])
    (hl : lastByte buf ≠ some 32) :
    textScan utf8 sep (buf, 0, f) = (buf ++ [32], 0, f) := by
  obtain ⟨c, s, rfl⟩ := List.exists_cons_of_ne_nil hne
  have hw := hs c (by simp)
  have h38 : c ≠ 38 := by
    rintro rfl
    revert hw
    cases utf8 <;> decide
  have e : addSpace buf = buf ++ [32] := by
    unfold addSpace
    simp [hl, List.length_pos.mpr hb]
  simp only [textScan, nonTagStep_noamp utf8 c buf f h38, hw, if_true, e]
  exact textScan_ws_after_space utf8 s (fun d hd => hs d (by simp [hd])) _ f
    (Or.inr (by simp [lastByte]))

theorem textScan_word (utf8 : Bool) (w : List Nat) (hw : ∀ c ∈ w, wordByte utf8 c)
    (buf : List Nat) (f : Bool) :
    textScan utf8 w (buf, 0, f) = (buf ++ w, 0, f) := by
  induction w generalizing buf with
  | nil => simp [textScan]
  | cons c w ih =>
    obtain ⟨h1, _, h3, _⟩ := hw c (by simp)
    simp only [textScan, nonTagStep_noamp utf8 c buf f h3, h1, Bool.false_eq_true, if_false]
    rw [ih (fun d hd => hw d (by simp [hd]))]
    simp

theorem wordByte_ne_space (utf8 : Bool) (c : Nat) (h : wordByte utf8 c) : c ≠ 32 := by
  rintro rfl
  have := h.1
  rw [isTextWs_space] at this
  exact absurd this (by decide)

theorem lastByte_append_word (utf8 : Bool) (buf w : List Nat) (hw : ∀ c ∈ w, wordByte utf8 c)
    (hne : w ≠ []) : lastByte (buf ++ w) ≠ some 32 := by
  intro h
  have hm : (32 : Nat) ∈ w := by
    rw [lastByte, List.getLast?_append_of_ne_nil _ hne] at h
    exact List.mem_of_getLast?_eq_some h
  exact wordByte_ne_space utf8 32 (hw 32 hm) rfl

theorem textScan_words (utf8 : Bool) (ws : List (List Nat × List Nat))
    (hws : ∀ p ∈ ws, p.1 ≠ [] ∧ (∀ c ∈ p.1, isTextWs utf8 c = true) ∧ p.2 ≠ [] ∧
      ∀ c ∈ p.2, wordByte utf8 c)
    (buf : List Nat) (f : Bool) (hb : buf ≠ []) (hl : lastByte buf ≠ some 32) :
    textScan utf8 (wordsRaw ws) (buf, 0, f) = (buf ++ wordsSpaced ws, 0, f) ∧
      lastByte (buf ++ wordsSpaced ws) ≠ some 32 := by
  induction ws generalizing buf with
  | nil => simpa [wordsRaw, wordsSpaced, textScan] using hl
  | cons p ws ih =>
    obtain ⟨sep, w⟩ := p
    obtain ⟨h1, h2, h3, h4⟩ := hws (sep, w) (by simp)
    simp only at h1 h2 h3 h4
    have hl2 : lastByte (buf ++ [32] ++ w) ≠ some 32 := lastByte_append_word utf8 _ w h4 h3
    obtain ⟨i1, i2⟩ := ih (fun q hq => hws q (by simp [hq])) (buf ++ [32] ++ w) (by simp) hl2
    simp only [wordsRaw, wordsSpaced, textScan_append, textScan_ws utf8 sep h2 h1 buf f hb hl,
      textScan_word utf8 w h4]
    rw [i1]
    constructor
    · simp
    · simpa using i2

theorem textAtEof_trail (b : List Nat) (hne : b ≠ []) (h : ∀ c ∈ b, c ≠ 0)
    (hl : lastByte b ≠ some 32) (trail : List Nat) :
    textAtEof (if trail = [] then b else b ++ [32]) = some b := by
  have hpos : 0 < b.length := List.length_pos.mpr hne
  by_cases ht : trail = []
  · simp [ht, textAtEof, trimSpace, hl, hpos, cstr_eq_self b h]
  · simp [ht, textAtEof, trimSpace, lastByte, hpos, cstr_eq_self b h]

theorem wordsSpaced_nonzero (utf8 : Bool) (ws : List (List Nat × List Nat))
    (hws : ∀ p ∈ ws, ∀ c ∈ p.2, wordByte utf8 c) : ∀ c ∈ wordsSpaced ws, c ≠ 0 := by
  induction ws with
  | nil => simp [wordsSpaced]
  | cons p ws ih =>
    obtain ⟨sep, w⟩ := p
    intro c hc
    simp only [wordsSpaced, List.cons_append, List.mem_cons, List.mem_append] at hc
    rcases hc with rfl | hc | hc
    · decide
    · exact (hws (sep, w) (by simp) c hc).2.2.2
    · exact ih (fun q hq => hws q (by simp [hq])) c hc

theorem wordsRaw_no_lt (utf8 : Bool) (ws : List (List Nat × List Nat))
    (hws : ∀ p ∈ ws, (∀ c ∈ p.1, isTextWs utf8 c = true) ∧ ∀ c ∈ p.2, wordByte utf8 c) :
    60 ∉ wordsRaw ws := by
  induction ws with
  | nil => simp [wordsRaw]
  | cons p ws ih =>
    obtain ⟨sep, w⟩ := p
    intro hc
    simp only [wordsRaw, List.mem_append] at hc
    rcases hc with (hc | hc) | hc
    · have := (hws (sep, w) (by simp)).1 60 hc
      revert this
      cases utf8 <;> decide
    · exact ((hws (sep, w) (by simp)).2 60 hc).2.1 rfl
    · exact ih (fun q hq => hws q (by simp [hq])) hc

theorem getNonTagLoop_mono (utf8 : Bool) (fuel : Nat) :
    ∀ (l buf : List Nat) (amp : Nat) (f : Bool) (r : Option (List Nat) × List Nat),
      getNonTagLoop utf8 fuel l buf amp f = some r →
      ∀ fuel2, fuel ≤ fuel2 → getNonTagLoop utf8 fuel2 l buf amp f = some r := by
  induction fuel with
  | zero => intro l buf amp f r h; simp [getNonTagLoop] at h
  | succ fuel ih =>
    intro l buf amp f r h fuel2 hf
    obtain ⟨g, rfl⟩ : ∃ g, fuel2 = g + 1 := ⟨fuel2 - 1, by omega⟩
    have hg : fuel ≤ g := by omega
    rcases l with _ | ⟨c, rest⟩
    · simpa [getNonTagLoop] using h
    · rw [getNonTagLoop] at h ⊢
      split_ifs at h ⊢
      all_goals first | exact h | exact ih _ _ _ _ _ h g hg

theorem getNonTagLoop_fuel (utf8 : Bool) (l buf : List Nat) (amp : Nat) (f : Bool)
    (fuel1 fuel2 : Nat) (h1 : l.length < fuel1) (h2 : l.length < fuel2) :
    getNonTagLoop utf8 fuel1 l buf amp f = getNonTagLoop utf8 fuel2 l buf amp f := by
  obtain ⟨r, hr, _⟩ := getNonTagLoop_total utf8 (l.length + 1) l buf amp f (Nat.lt_succ_self _)
  rw [getNonTagLoop_mono utf8 _ l buf amp f r hr fuel1 h1,
    getNonTagLoop_mono utf8 _ l buf amp f r hr fuel2 h2]

theorem unread_advanceTo (mp : memBuf) (R : List Nat) (h : R <:+ mp.unread) :
    (mp.advanceTo R).unread = R := by
  obtain ⟨a, ha⟩ := h
  have h2 : mp.memory.drop mp.readptr = a ++ R := ha.symm
  have := drop_advance mp.memory mp.readptr a R h2
  simp only [memBuf.advanceTo, memBuf.unread]
  have e : (mp.memory.drop mp.readptr).length - R.length = a.length := by
    rw [h2, List.length_append]; omega
  rw [e, this]

theorem advanceTo_advanceTo (mp : memBuf) (R R2 : List Nat) (h : R <:+ mp.unread)
    (h2 : R2.length ≤ R.length) : (mp.advanceTo R).advanceTo R2 = mp.advanceTo R2 := by
  have e := unread_advanceTo mp R h
  have hl : R.length ≤ mp.unread.length := h.length_le
  unfold memBuf.advanceTo at e ⊢
  simp only [e]
  congr 1
  omega

theorem ws_not_lt (utf8 : Bool) (s : List Nat) (hs : ∀ c ∈ s, isTextWs utf8 c = true) :
    60 ∉ s := by
  intro hm
  have := hs 60 hm
  revert this
  cases utf8 <;> decide

/-- While nothing is buffered, `getNonTag` reads over white space and over a tag: the call at
a cursor with only white-space bytes before a `<` is the call at the cursor behind that
tag. -/
theorem getNonTag_skip_tag (utf8 f0 : Bool) (mp : memBuf) (lead X : List Nat)
    (hu : mp.unread = lead ++ 60 :: X) (hlead : ∀ c ∈ lead, isTextWs utf8 c = true) :
    getNonTag utf8 f0 mp = getNonTag utf8 f0 (getTag mp).2 := by
  have h60 := ws_not_lt utf8 lead hlead
  have hsuf : (getTagFrom mp.unread).2 <:+ mp.unread := getTagFrom_suffix _
  have hR : (getTag mp).2.unread = (getTagFrom (60 :: X)).2 := by
    have := unread_advanceTo mp _ hsuf
    rw [hu, getTagFrom_skip lead X h60] at this
    simpa [getTag, hu, getTagFrom_skip lead X h60] using this
  have hRlen : (getTagFrom (60 :: X)).2.length < X.length + 1 := by
    by_cases hn : (getTagFrom (60 :: X)).1 = none
    · rw [(getTagFrom_rest (60 :: X)).1 hn]; simp
    · simpa using (getTagFrom_rest (60 :: X)).2 hn
  have he : memEof mp = false := by
    simp [memEof, hu]
  have hscan : textScan utf8 lead ([], 0, f0) = ([], 0, f0) :=
    textScan_ws_after_space utf8 lead hlead [] f0 (Or.inl rfl)
  have hloop : getNonTagLoop utf8 (mp.unread.length + 1) mp.unread [] 0 f0 =
      getNonTagLoop utf8 ((getTagFrom (60 :: X)).2.length + 1) (getTagFrom (60 :: X)).2 [] 0
        f0 := by
    have e : mp.unread.length + 1 = (X.length + 2) + lead.length := by
      rw [hu, List.length_append, List.length_cons]; omega
    rw [e, hu, getNonTagLoop_textScan utf8 lead (60 :: X) h60, hscan]
    simp only
    rw [show X.length + 2 = (X.length + 1) + 1 from rfl, getNonTagLoop]
    simp only [if_true, List.length_nil, lt_irrefl, if_false]
    exact getNonTagLoop_fuel utf8 _ _ _ _ _ _ hRlen (Nat.lt_succ_self _)
  rw [getNonTag, he]
  simp only [Bool.false_eq_true, if_false]
  rw [hloop]
  unfold getNonTag
  rw [hR]
  by_cases hemp : (getTagFrom (60 :: X)).2 = []
  · have : memEof (getTag mp).2 = true := by simp [memEof, hR, hemp]
    rw [this, hemp]
    simp only [if_true, List.length_nil, getNonTagLoop, Option.map_some']
    have e2 : textAtEof [] = none := by decide
    rw [e2]
    congr 2
    have := advanceTo_advanceTo mp (getTagFrom mp.unread).2 [] hsuf (Nat.zero_le _)
    rw [← this]
    have hz : (getTag mp).2.unread.length = 0 := by rw [hR, hemp]; rfl
    show (getTag mp).2.advanceTo [] = (getTag mp).2
    unfold memBuf.advanceTo
    rw [hz]
    rfl
  · have : memEof (getTag mp).2 = false := by
      simp only [memEof, hR]
      cases h : (getTagFrom (60 :: X)).2 with
      | nil => exact absurd h hemp
      | cons a b => rfl
    rw [this]
    simp only [Bool.false_eq_true, if_false]
    obtain ⟨r, hr, hlen, _⟩ := getNonTagLoop_total utf8 ((getTagFrom (60 :: X)).2.length + 1)
      (getTagFrom (60 :: X)).2 [] 0 f0 (Nat.lt_succ_self _)
    rw [hr]
    simp only [Option.map_some']
    congr 2
    have hsuf2 := hsuf
    have e3 : (getTagFrom mp.unread).2 = (getTagFrom (60 :: X)).2 := by
      rw [hu, getTagFrom_skip lead X h60]
    show mp.advanceTo r.2 = (mp.advanceTo (getTagFrom mp.unread).2).advanceTo r.2
    rw [advanceTo_advanceTo mp _ r.2 hsuf (by rw [e3]; exact hlen)]

theorem trimSpace_trail (b : List Nat) (hne : b ≠ []) (hl : lastByte b ≠ some 32)
    (trail : List Nat) : trimSpace (if trail = [] then b else b ++ [32]) = b := by
  have hpos : 0 < b.length := List.length_pos.mpr hne
  by_cases ht : trail = []
  · simp [ht, trimSpace, hl]
  · simp [ht, trimSpace, lastByte]

/-- On text made of words and runs of white-space bytes, up to the end of input or to the
next `<`, `getNonTag` returns the words with one space for every run between two words and
leaves the cursor at the end of the text. -/
theorem getNonTag_words (utf8 f0 : Bool) (mp : memBuf) (lead w0 trail tail : List Nat)
    (ws : List (List Nat × List Nat))
    (hu : mp.unread = lead ++ w0 ++ wordsRaw ws ++ trail ++ tail)
    (hlead : ∀ c ∈ lead, isTextWs utf8 c = true) (htrail : ∀ c ∈ trail, isTextWs utf8 c = true)
    (hw0 : w0 ≠ []) (hw0b : ∀ c ∈ w0, wordByte utf8 c)
    (hws : ∀ p ∈ ws, p.1 ≠ [] ∧ (∀ c ∈ p.1, isTextWs utf8 c = true) ∧ p.2 ≠ [] ∧
      ∀ c ∈ p.2, wordByte utf8 c)
    (htail : tail = [] ∨ tail.head? = some 60) :
    getNonTag utf8 f0 mp =
      some (some (w0 ++ wordsSpaced ws),
        ⟨mp.memory, mp.readptr + (lead ++ w0 ++ wordsRaw ws ++ trail).length⟩) := by
  have h60 : 60 ∉ lead ++ w0 ++ wordsRaw ws ++ trail := by
    intro h
    simp only [List.mem_append] at h
    rcases h with ((h | h) | h) | h
    · exact ws_not_lt utf8 lead hlead h
    · exact (hw0b 60 h).2.1 rfl
    · exact wordsRaw_no_lt utf8 ws (fun p hp => ⟨(hws p hp).2.1, (hws p hp).2.2.2⟩) h
    · exact ws_not_lt utf8 trail htrail h
  have hl0 : lastByte ([] ++ w0) ≠ some 32 := lastByte_append_word utf8 [] w0 hw0b hw0
  simp only [List.nil_append] at hl0
  obtain ⟨i1, i2⟩ := textScan_words utf8 ws hws w0 f0 hw0 hl0
  have hz : ∀ c ∈ w0 ++ wordsSpaced ws, c ≠ 0 := by
    intro c hc
    rcases List.mem_append.mp hc with hc | hc
    · exact (hw0b c hc).2.2.2
    · exact wordsSpaced_nonzero utf8 ws (fun p hp => (hws p hp).2.2.2) c hc
  have hne : w0 ++ wordsSpaced ws ≠ [] := by simp [hw0]
  have hscan : textScan utf8 (lead ++ w0 ++ wordsRaw ws ++ trail) ([], 0, f0) =
      (if trail = [] then w0 ++ wordsSpaced ws else w0 ++ wordsSpaced ws ++ [32], 0, f0) := by
    rw [textScan_append, textScan_append, textScan_append,
      textScan_ws_after_space utf8 lead hlead [] f0 (Or.inl rfl), textScan_word utf8 w0 hw0b,
      List.nil_append, i1]
    by_cases ht : trail = []
    · simp [ht, textScan]
    · simp only [ht, if_false]
      exact textScan_ws utf8 trail htrail ht _ f0 hne i2
  have he : memEof mp = false := by
    obtain ⟨a, t, hat⟩ := List.exists_cons_of_ne_nil hw0
    have : mp.unread ≠ [] := by rw [hu, hat]; simp
    cases h : mp.unread with
    | nil => exact absurd h this
    | cons a b => simp [memEof, h]
  have hlen : mp.unread.length + 1 =
      (tail.length + 1) + (lead ++ w0 ++ wordsRaw ws ++ trail).length := by
    rw [hu, List.length_append]; omega
  have hadv : mp.advanceTo tail =
      ⟨mp.memory, mp.readptr + (lead ++ w0 ++ wordsRaw ws ++ trail).length⟩ := by
    unfold memBuf.advanceTo
    congr 2
    rw [hu, List.length_append]; omega
  rw [getNonTag, he]
  simp only [Bool.false_eq_true, if_false]
  rw [hlen]
  rw [hu]
  rw [getNonTagLoop_textScan utf8 _ tail h60, hscan]
  simp only
  rcases htail with rfl | ht
  · simp only [List.length_nil, getNonTagLoop, Option.map_some']
    rw [textAtEof_trail _ hne hz i2 trail, hadv]
  · obtain ⟨c, R, rfl⟩ : ∃ c R, tail = c :: R := by
      cases tail with
      | nil => simp at ht
      | cons c R => exact ⟨c, R, rfl⟩
    have hc : c = 60 := by simpa using ht
    subst hc
    have hpos : 0 < (if trail = [] then w0 ++ wordsSpaced ws
        else w0 ++ wordsSpaced ws ++ [32]).length := by
      split_ifs
      · exact List.length_pos.mpr hne
      · simp
    rw [getNonTagLoop]
    simp only [if_true, hpos, Option.map_some']
    rw [trimSpace_trail _ hne i2 trail, cstr_eq_self _ hz, hadv]

theorem byte_class (utf8 : Bool) (c : Nat) (h38 : c ≠ 38) (h0 : c ≠ 0) :
    isTextWs utf8 c = true ∨ c = 60 ∨ wordByte utf8 c := by
  by_cases h1 : isTextWs utf8 c = true
  · exact Or.inl h1
  · by_cases h2 : c = 60
    · exact Or.inr (Or.inl h2)
    · exact Or.inr (Or.inr ⟨by simpa using h1, h2, h38, h0⟩)

/-- Text that starts with a word byte and holds no `&` and no NUL is made of words and runs of
white-space bytes, up to its end or to the first `<`. -/
theorem words_split (utf8 : Bool) (n : Nat) : ∀ x : List Nat, x.length ≤ n →
    38 ∉ x → 0 ∉ x → (∃ c t, x = c :: t ∧ wordByte utf8 c) →
    ∃ (w0 trail tail : List Nat) (ws : List (List Nat × List Nat)),
      x = w0 ++ wordsRaw ws ++ trail ++ tail ∧ w0 ≠ [] ∧ (∀ c ∈ w0, wordByte utf8 c) ∧
      (∀ p ∈ ws, p.1 ≠ [] ∧ (∀ c ∈ p.1, isTextWs utf8 c = true) ∧ p.2 ≠ [] ∧
        ∀ c ∈ p.2, wordByte utf8 c) ∧
      (∀ c ∈ trail, isTextWs utf8 c = true) ∧ (tail = [] ∨ tail.head? = some 60) := by
  induction n with
  | zero =>
    intro x hx _ _ h
    obtain ⟨c, t, rfl, _⟩ := h
    simp at hx
  | succ n ih =>
    intro x hx h38 h0 hhead
    obtain ⟨c0, t0, hx0, hc0⟩ := hhead
    have hsplit := (List.takeWhile_append_dropWhile (fun c => !(isTextWs utf8 c) && (c != 60)) x).symm
    have hw0 : ∀ c ∈ x.takeWhile (fun c => !(isTextWs utf8 c) && (c != 60)), wordByte utf8 c := by
      intro c hc
      have hp := List.mem_takeWhile_imp hc
      have hm : c ∈ x := (List.takeWhile_sublist _).subset hc
      simp only [Bool.and_eq_true, Bool.not_eq_true', bne_iff_ne, ne_eq] at hp
      exact ⟨hp.1, hp.2, fun h => h38 (h ▸ hm), fun h => h0 (h ▸ hm)⟩
    have hne : x.takeWhile (fun c => !(isTextWs utf8 c) && (c != 60)) ≠ [] := by
      rw [hx0, List.takeWhile_cons]
      have : (!(isTextWs utf8 c0) && (c0 != 60)) = true := by
        simp [hc0.1, hc0.2.1]
      rw [this]
      simp
    generalize hW : x.takeWhile (fun c => !(isTextWs utf8 c) && (c != 60)) = w0 at hsplit hw0 hne
    have hd := List.head?_dropWhile_not (fun c => !(isTextWs utf8 c) && (c != 60)) x
    generalize hR : x.dropWhile (fun c => !(isTextWs utf8 c) && (c != 60)) = r at hsplit hd
    rcases r with _ | ⟨c, r1⟩
    · refine ⟨w0, [], [], [], by simpa [wordsRaw] using hsplit, hne, hw0, by simp, by simp,
        Or.inl rfl⟩
    · simp only [List.head?_cons, Bool.and_eq_false_iff, Bool.not_eq_false', bne_eq_false_iff_eq]
        at hd
      by_cases hc : c = 60
      · subst hc
        exact ⟨w0, [], 60 :: r1, [], by simpa [wordsRaw] using hsplit, hne, hw0, by simp,
          by simp, Or.inr rfl⟩
      · have hcw : isTextWs utf8 c = true := by
          rcases hd with h | h
          · exact h
          · exact absurd h hc
        have hsplit2 := (List.takeWhile_append_dropWhile (fun c => isTextWs utf8 c) (c :: r1)).symm
        have hsep : ∀ d ∈ (c :: r1).takeWhile (fun c => isTextWs utf8 c),
            isTextWs utf8 d = true := fun d hd => List.mem_takeWhile_imp hd
        have hsne : (c :: r1).takeWhile (fun c => isTextWs utf8 c) ≠ [] := by
          rw [List.takeWhile_cons, hcw]
          simp
        generalize (c :: r1).takeWhile (fun c => isTextWs utf8 c) = sep at hsplit2 hsep hsne
        have hd2 := List.head?_dropWhile_not (fun c => isTextWs utf8 c) (c :: r1)
        generalize (c :: r1).dropWhile (fun c => isTextWs utf8 c) = r2 at hsplit2 hd2
        have hx2 : x = w0 ++ (sep ++ r2) := by rw [hsplit, hsplit2]
        rcases r2 with _ | ⟨c2, r3⟩
        · refine ⟨w0, sep, [], [], by simpa [wordsRaw] using hx2, hne, hw0, by simp, hsep,
            Or.inl rfl⟩
        · simp only [List.head?_cons] at hd2
          by_cases hc2 : c2 = 60
          · subst hc2
            exact ⟨w0, sep, 60 :: r3, [], by simpa [wordsRaw] using hx2, hne, hw0, by simp,
              hsep, Or.inr rfl⟩
          · have hm2 : c2 ∈ x := by rw [hx2]; simp
            have hw2 : wordByte utf8 c2 :=
              ⟨hd2, hc2, fun h => h38 (h ▸ hm2), fun h => h0 (h ▸ hm2)⟩
            have hlen2 : (c2 :: r3).length ≤ n := by
              have := congrArg List.length hx2
              have hp : 0 < w0.length := List.length_pos.mpr hne
              simp only [List.length_append, List.length_cons] at this hx ⊢
              omega
            have hsub : ∀ d ∈ c2 :: r3, d ∈ x := by
              intro d hd
              rw [hx2]
              exact List.mem_append_right _ (List.mem_append_right _ hd)
            obtain ⟨w1, trail, tail, ws, e1, e2, e3, e4, e5, e6⟩ :=
              ih (c2 :: r3) hlen2 (fun h => h38 (hsub _ h)) (fun h => h0 (hsub _ h))
                ⟨c2, r3, rfl, hw2⟩
            refine ⟨w0, trail, tail, (sep, w1) :: ws, ?_, hne, hw0, ?_, e5, e6⟩
            · rw [hx2, e1]
              simp [wordsRaw, List.append_assoc]
            · intro p hp
              rcases List.mem_cons.mp hp with rfl | hp
              · exact ⟨hsne, hsep, e2, e3⟩
              · exact e4 p hp

theorem getTag_unread_eq (mp : memBuf) : (getTag mp).2.unread = (getTagFrom mp.unread).2 :=
  unread_advanceTo mp _ (getTagFrom_suffix _)

theorem getNonTag_all_ws (utf8 f0 : Bool) (mp : memBuf)
    (h : ∀ c ∈ mp.unread, isTextWs utf8 c = true) :
    ∃ mp1, getNonTag utf8 f0 mp = some (none, mp1) := by
  by_cases he : memEof mp = true
  · exact ⟨mp, by simp [getNonTag, he]⟩
  · have hl := getNonTagLoop_textScan utf8 mp.unread [] (ws_not_lt utf8 _ h) 1 [] 0 f0
    rw [List.append_nil, textScan_ws_after_space utf8 _ h [] f0 (Or.inl rfl), Nat.add_comm] at hl
    refine ⟨mp.advanceTo [], ?_⟩
    rw [getNonTag]
    simp only [he, if_false]
    rw [hl]
    simp only [getNonTagLoop, Option.map_some']
    have e2 : textAtEof [] = none := by decide
    rw [e2]
    simp

/-- Every text `getNonTag` returns on input without `&` and NUL arises from words: after `k`
tags that are read over, each with only white space in front, the unread input is a run of
white space, words separated by runs of white space, a run of white space, and then the end
of input or a `<`; the text is the words joined by single spaces. -/
theorem getNonTag_shape (utf8 f0 : Bool) (n : Nat) : ∀ mp : memBuf, mp.unread.length ≤ n →
    38 ∉ mp.unread → 0 ∉ mp.unread →
    ∀ r tok, getNonTag utf8 f0 mp = some r → r.1 = some tok →
    ∃ (k : Nat) (lead w0 trail tail : List Nat) (ws : List (List Nat × List Nat)),
      (∀ j, j < k → ∃ s X, (tagCursor j mp).unread = s ++ 60 :: X ∧
        ∀ c ∈ s, isTextWs utf8 c = true) ∧
      (tagCursor k mp).unread = lead ++ w0 ++ wordsRaw ws ++ trail ++ tail ∧
      (∀ c ∈ lead, isTextWs utf8 c = true) ∧ (∀ c ∈ trail, isTextWs utf8 c = true) ∧
      w0 ≠ [] ∧ (∀ c ∈ w0, wordByte utf8 c) ∧
      (∀ p ∈ ws, p.1 ≠ [] ∧ (∀ c ∈ p.1, isTextWs utf8 c = true) ∧ p.2 ≠ [] ∧
        ∀ c ∈ p.2, wordByte utf8 c) ∧
      (tail = [] ∨ tail.head? = some 60) ∧ tok = w0 ++ wordsSpaced ws ∧
      r.2 = ⟨mp.memory,
        (tagCursor k mp).readptr + (lead ++ w0 ++ wordsRaw ws ++ trail).length⟩ := by
  induction n with
  | zero =>
    intro mp hlen _ _ r tok hr htok
    exfalso
    have hnil : mp.unread = [] := List.length_eq_zero.mp (Nat.le_zero.mp hlen)
    obtain ⟨mp1, h1⟩ := getNonTag_all_ws utf8 f0 mp (by rw [hnil]; simp)
    rw [h1] at hr
    cases hr
    simp at htok
  | succ n ih =>
    intro mp hlen h38 h0 r tok hr htok
    have hsplit := (List.takeWhile_append_dropWhile (fun c => isTextWs utf8 c) mp.unread).symm
    have hlead : ∀ d ∈ mp.unread.takeWhile (fun c => isTextWs utf8 c),
        isTextWs utf8 d = true := fun d hd => List.mem_takeWhile_imp hd
    generalize mp.unread.takeWhile (fun c => isTextWs utf8 c) = lead at hsplit hlead
    have hd := List.head?_dropWhile_not (fun c => isTextWs utf8 c) mp.unread
    generalize mp.unread.dropWhile (fun c => isTextWs utf8 c) = rem at hsplit hd
    rcases rem with _ | ⟨c, rem1⟩
    · exfalso
      rw [List.append_nil] at hsplit
      obtain ⟨mp1, h1⟩ := getNonTag_all_ws utf8 f0 mp (by rw [hsplit]; exact hlead)
      rw [h1] at hr
      cases hr
      simp at htok
    · simp only [List.head?_cons] at hd
      by_cases hc : c = 60
      · subst hc
        have hskip := getNonTag_skip_tag utf8 f0 mp lead rem1 hsplit hlead
        have hu1 := getTag_unread_eq mp
        have hsuf : (getTag mp).2.unread <:+ mp.unread := by
          rw [hu1]; exact getTagFrom_suffix _
        have hlt : (getTag mp).2.unread.length < mp.unread.length := by
          rw [hu1]
          by_cases hn : (getTagFrom mp.unread).1 = none
          · rw [(getTagFrom_rest mp.unread).1 hn, hsplit]; simp
          · exact (getTagFrom_rest mp.unread).2 hn
        rw [hskip] at hr
        obtain ⟨k, lead1, w0, trail, tail, ws, e1, e2, e3, e4, e5, e6, e7, e8, e9, e10⟩ :=
          ih (getTag mp).2 (by omega) (fun h => h38 (hsuf.subset h))
            (fun h => h0 (hsuf.subset h)) r tok hr htok
        refine ⟨k + 1, lead1, w0, trail, tail, ws, ?_, e2, e3, e4, e5, e6, e7, e8, e9, ?_⟩
        · intro j hj
          cases j with
          | zero => exact ⟨lead, rem1, hsplit, hlead⟩
          | succ j => exact e1 j (by omega)
        · rw [e10, getTag_memory]
          rfl
      · have hm : c ∈ mp.unread := by rw [hsplit]; simp
        have hw : wordByte utf8 c := ⟨hd, hc, fun h => h38 (h ▸ hm), fun h => h0 (h ▸ hm)⟩
        have hsub : ∀ d ∈ c :: rem1, d ∈ mp.unread := by
          intro d hd
          rw [hsplit]
          exact List.mem_append_right _ hd
        obtain ⟨w0, trail, tail, ws, e1, e2, e3, e4, e5, e6⟩ :=
          words_split utf8 (c :: rem1).length (c :: rem1) le_rfl (fun h => h38 (hsub _ h))
            (fun h => h0 (hsub _ h)) ⟨c, rem1, rfl, hw⟩
        have hu : mp.unread = lead ++ w0 ++ wordsRaw ws ++ trail ++ tail := by
          rw [hsplit, e1]
          simp [List.append_assoc]
        have hres := getNonTag_words utf8 f0 mp lead w0 trail tail ws hu hlead e5 e2 e3 e4 e6
        rw [hres] at hr
        cases hr
        simp only [Option.some.injEq] at htok
        exact ⟨0, lead, w0, trail, tail, ws, fun j hj => absurd hj (Nat.not_lt_zero j), hu,
          hlead, e5, e2, e3, e4, e6, htok.symm, rfl⟩


/-- C11 (the claim as stated fails): on the text `a`, space, NUL, `b`, which holds no `&`,
`getNonTag` returns the C string `a ` that ends with a space; on the text NUL, `b` it returns
the empty string. -/
theorem C11_counterexample :
    (getNonTag true false ⟨[97, 32, 0, 98], 0⟩).map (fun r => r.1) = some (some [97, 32]) ∧
    (getNonTag true false ⟨[0, 98], 0⟩).map (fun r => r.1) = some (some []) := by
  constructor <;> decide

/-- C11 (amended): in both output modes, on unread input that holds no `&` and no NUL byte
`getNonTag` returns, and a text it returns is non-empty, neither begins nor ends with a space,
holds no two spaces in a row and none of tab, newline, carriage return, vertical tab.  At a
cursor where the unread input is white space, words separated by runs of white-space bytes,
white space, and then the end of input or a `<`, the text returned is the words with exactly
one space for every run between two words, and the cursor is left at the end of input or at
that `<`.  Every text returned on input without `&` and NUL arises so: after `k` tags that are
read over while nothing is buffered, each with only white space in front, the unread input
has that form, and the text is its words joined by single spaces. -/
theorem C11_text_is_normalised (utf8 f0 : Bool) :
    (∀ mp : memBuf, 38 ∉ mp.unread → 0 ∉ mp.unread →
      ∃ r, getNonTag utf8 f0 mp = some r ∧
        ∀ tok, r.1 = some tok → tok ≠ [] ∧ tok.head? ≠ some 32 ∧ tok.getLast? ≠ some 32 ∧
          ¬ ([32, 32] <:+: tok) ∧ 9 ∉ tok ∧ 10 ∉ tok ∧ 13 ∉ tok ∧ 11 ∉ tok) ∧
    (∀ (mp : memBuf) (lead w0 trail tail : List Nat) (ws : List (List Nat × List Nat)),
      mp.unread = lead ++ w0 ++ wordsRaw ws ++ trail ++ tail →
      (∀ c ∈ lead, isTextWs utf8 c = true) → (∀ c ∈ trail, isTextWs utf8 c = true) →
      w0 ≠ [] → (∀ c ∈ w0, wordByte utf8 c) →
      (∀ p ∈ ws, p.1 ≠ [] ∧ (∀ c ∈ p.1, isTextWs utf8 c = true) ∧ p.2 ≠ [] ∧
        ∀ c ∈ p.2, wordByte utf8 c) →
      (tail = [] ∨ tail.head? = some 60) →
      getNonTag utf8 f0 mp =
        some (some (w0 ++ wordsSpaced ws),
          ⟨mp.memory, mp.readptr + (lead ++ w0 ++ wordsRaw ws ++ trail).length⟩)) ∧
    (∀ mp : memBuf, 38 ∉ mp.unread → 0 ∉ mp.unread →
      ∀ r tok, getNonTag utf8 f0 mp = some r → r.1 = some tok →
      ∃ (k : Nat) (lead w0 trail tail : List Nat) (ws : List (List Nat × List Nat)),
        (∀ j, j < k → ∃ s X, (tagCursor j mp).unread = s ++ 60 :: X ∧
          ∀ c ∈ s, isTextWs utf8 c = true) ∧
        (tagCursor k mp).unread = lead ++ w0 ++ wordsRaw ws ++ trail ++ tail ∧
        (∀ c ∈ lead, isTextWs utf8 c = true) ∧ (∀ c ∈ trail, isTextWs utf8 c = true) ∧
        w0 ≠ [] ∧ (∀ c ∈ w0, wordByte utf8 c) ∧
        (∀ p ∈ ws, p.1 ≠ [] ∧ (∀ c ∈ p.1, isTextWs utf8 c = true) ∧ p.2 ≠ [] ∧
          ∀ c ∈ p.2, wordByte utf8 c) ∧
        (tail = [] ∨ tail.head? = some 60) ∧ tok = w0 ++ wordsSpaced ws ∧
        r.2 = ⟨mp.memory,
          (tagCursor k mp).readptr + (lead ++ w0 ++ wordsRaw ws ++ trail).length⟩) := by
  refine ⟨?_, ?_, ?_⟩
  · intro mp hamp hnul
    obtain ⟨r, h1, h2⟩ := getNonTag_clean utf8 f0 mp hamp
    refine ⟨r, h1, fun tok htok => ?_⟩
    obtain ⟨T, e, t1, ⟨c1, c2, c3⟩, t3, t4⟩ := h2 tok htok
    have hz : ∀ x ∈ T, x ≠ 0 := by
      intro x hx h0
      rcases t4 x hx with h | h
      · exact hnul (h0 ▸ h)
      · omega
    rw [cstr_eq_self T hz] at e
    subst e
    have hnot : ∀ x, x ≠ 32 → isTextWs utf8 x = true → x ∉ tok := by
      intro x hx hw hm
      rcases c3 x hm with h | h
      · exact hx h
      · rw [hw] at h
        exact absurd h (by decide)
    refine ⟨t1, c1, t3, ?_, hnot 9 (by decide) (by cases utf8 <;> rfl),
      hnot 10 (by decide) (by cases utf8 <;> rfl), hnot 13 (by decide) (by cases utf8 <;> rfl),
      hnot 11 (by decide) (by cases utf8 <;> rfl)⟩
    intro hin
    have := c2.infix hin
    simp at this
  · intro mp lead w0 trail tail ws hu hlead htrail hw0 hw0b hws htail
    exact getNonTag_words utf8 f0 mp lead w0 trail tail ws hu hlead htrail hw0 hw0b hws htail
  · intro mp h38 h0 r tok hr htok
    exact getNonTag_shape utf8 f0 mp.unread.length mp le_rfl h38 h0 r tok hr htok

/-- C11 witness: at the text space, `a`, tab, newline, `b`, space before the tag `<i>` the
text returned is `a b` and the cursor is left at the `<`. -/
theorem C11_text_is_normalised_witness :
    getNonTag true false ⟨[32, 97, 9, 10, 98, 32, 60, 105, 62], 0⟩ =
      some (some [97, 32, 98], ⟨[32, 97, 9, 10, 98, 32, 60, 105, 62], 6⟩) :=
  (C11_text_is_normalised true false).2.1 ⟨[32, 97, 9, 10, 98, 32, 60, 105, 62], 0⟩
    [32] [97] [32] [60, 105, 62] [([9, 10], [98])] rfl
    (by decide) (by decide) (by decide) (by unfold wordByte; decide)
    (by unfold wordByte; decide) (by decide)


/-! ## The bytes `82`, `A0`, `C2` act as spaces -/

theorem spaceOut_cases (utf8 : Bool) (c : Nat) :
    (spaceOut utf8 c = 32 ∧ (c = 0x82 ∨ c = 0xA0 ∨ c = 0xC2 ∨ c = 0xC3)) ∨ spaceOut utf8 c = c := by
  unfold spaceOut
  split_ifs with h
  · left
    refine ⟨rfl, ?_⟩
    rcases h with h | h | h | h
    · exact Or.inl h
    · exact Or.inr (Or.inl h)
    · exact Or.inr (Or.inr (Or.inl h))
    · exact Or.inr (Or.inr (Or.inr h.1))
  · right; rfl

theorem nonTagStep_spaceOut (utf8 : Bool) (c : Nat) (buf : List Nat) (amp : Nat) (f : Bool) :
    nonTagStep utf8 (spaceOut utf8 c) buf amp f = nonTagStep utf8 c buf amp f := by
  unfold spaceOut
  split_ifs with h
  · rcases h with rfl | rfl | rfl | ⟨rfl, rfl⟩ <;> simp [nonTagStep]
  · rfl

theorem skipToLt_map (utf8 : Bool) (l : List Nat) :
    skipToLt (l.map (spaceOut utf8)) = (skipToLt l).map (List.map (spaceOut utf8)) := by
  induction l with
  | nil => rfl
  | cons c l ih =>
    rcases spaceOut_cases utf8 c with ⟨h1, h2⟩ | h1
    · have hc : c ≠ 60 := by rcases h2 with h | h | h | h <;> omega
      simp [skipToLt, h1, hc, ih]
    · simp only [List.map_cons, skipToLt, h1, ih]
      split_ifs <;> simp

theorem tagLoop_map (utf8 : Bool) (n : Nat) : ∀ (l buf buf2 : List Nat) (s : Bool),
    l.length ≤ n →
    (tagLoop (l.map (spaceOut utf8)) buf2 s).2 = (tagLoop l buf s).2.map (spaceOut utf8) := by
  induction n with
  | zero =>
    intro l buf buf2 s hl
    have : l = [] := List.length_eq_zero.mp (Nat.le_zero.mp hl)
    subst this
    simp [tagLoop_nil]
  | succ n ih =>
    intro l buf buf2 s hl
    rcases l with _ | ⟨c, rest⟩
    · simp [tagLoop_nil]
    · have hr : rest.length ≤ n := by simpa using hl
      rw [List.map_cons, tagLoop_cons, tagLoop_cons]
      rcases spaceOut_cases utf8 c with ⟨h1, h2⟩ | h1
      · have c1 : c ≠ 92 := by rcases h2 with h | h | h | h <;> omega
        have c2 : c ≠ 62 := by rcases h2 with h | h | h | h <;> omega
        have c3 : ¬ (c = 32 ∨ c = 10 ∨ c = 13 ∨ c = 9 ∨ c = 11) := by
          rcases h2 with h | h | h | h <;> omega
        have c4 : c ≠ 34 := by rcases h2 with h | h | h | h <;> omega
        simp only [h1, c1, c2, c3, c4, if_false]
        norm_num
        split_ifs <;> exact ih rest _ _ s hr
      · rw [h1]
        split_ifs
        · rcases rest with _ | ⟨c2, rest2⟩
          · simp
          · have hr2 : rest2.length ≤ n := by
              simp only [List.length_cons] at hr
              omega
            simp only [List.map_cons]
            exact ih rest2 _ _ s hr2
        all_goals first | exact ih rest _ _ _ hr | rfl

theorem spaceOut_eq_dash (utf8 : Bool) (c : Nat) : spaceOut utf8 c = 45 ↔ c = 45 := by
  rcases spaceOut_cases utf8 c with ⟨h1, h2⟩ | h1
  · rw [h1]
    constructor
    · intro h; omega
    · intro h; rcases h2 with h2 | h2 | h2 | h2 <;> omega
  · rw [h1]

theorem comment_next_dashes (buf : List Nat) (c : Nat) :
    dashes (if isspace c = true ∧ lastByte buf = some 32 then buf else buf ++ [c]) =
      if c = 45 then min 2 (dashes buf + 1) else 0 := by
  by_cases hc : c = 45
  · subst hc
    have : isspace 45 = false := by decide
    simp [this, dashes_append_dash]
  · simp only [hc, if_false]
    split_ifs with h
    · exact dashes_of_last_space buf h.2
    · exact dashes_append_other buf c hc

theorem commentLoop_step (c : Nat) (rest buf : List Nat) :
    commentLoop (c :: rest) buf =
      if c = 62 ∧ dashes buf = 2 then (some (cstr buf), rest)
      else commentLoop rest
        (if isspace c = true ∧ lastByte buf = some 32 then buf else buf ++ [c]) := by
  rw [commentLoop_cons]
  by_cases h1 : c = 62 ∧ dashes buf = 2
  · rw [if_pos h1, if_pos ⟨h1.1, (dashes_eq_two_iff buf).mpr h1.2⟩]
  · have h2 : ¬ (c = 62 ∧ lastByte buf = some 45 ∧ prevByte buf = some 45) :=
      fun h => h1 ⟨h.1, (dashes_eq_two_iff buf).mp h.2⟩
    rw [if_neg h1, if_neg h2]
    split_ifs <;> rfl

theorem commentLoop_map (utf8 : Bool) (l : List Nat) : ∀ (buf buf2 : List Nat),
    dashes buf = dashes buf2 →
    (commentLoop (l.map (spaceOut utf8)) buf2).2 =
      (commentLoop l buf).2.map (spaceOut utf8) := by
  induction l with
  | nil => intro buf buf2 _; simp [commentLoop]
  | cons c l ih =>
    intro buf buf2 hd
    rw [List.map_cons, commentLoop_step, commentLoop_step, ← hd]
    rcases spaceOut_cases utf8 c with ⟨e1, e2⟩ | e1
    · have c62 : c ≠ 62 := by rcases e2 with h | h | h | h <;> omega
      have c45 : c ≠ 45 := by rcases e2 with h | h | h | h <;> omega
      rw [e1]
      simp only [c62, false_and, if_false, show ¬ ((32 : Nat) = 62) by decide]
      apply ih
      rw [comment_next_dashes, comment_next_dashes]
      simp [c45]
    · rw [e1]
      by_cases h1 : c = 62 ∧ dashes buf = 2
      · rw [if_pos h1, if_pos h1]
      · rw [if_neg h1, if_neg h1]
        apply ih
        rw [comment_next_dashes, comment_next_dashes, hd]

theorem getTagFrom_map (utf8 : Bool) (l : List Nat) :
    (getTagFrom (l.map (spaceOut utf8))).2 = (getTagFrom l).2.map (spaceOut utf8) := by
  unfold getTagFrom
  rw [skipToLt_map]
  rcases skipToLt l with _ | r
  · simp
  · rcases r with _ | ⟨c, r1⟩
    · simp
    · simp only [Option.map_some', List.map_cons]
      rcases spaceOut_cases utf8 c with ⟨e1, e2⟩ | e1
      · have c62 : c ≠ 62 := by rcases e2 with h | h | h | h <;> omega
        have c33 : c ≠ 33 := by rcases e2 with h | h | h | h <;> omega
        rw [e1]
        simp only [c62, c33, if_false, show ¬ ((32 : Nat) = 62) by decide,
          show ¬ ((32 : Nat) = 33) by decide]
        exact tagLoop_map utf8 _ r1 _ _ false le_rfl
      · rw [e1]
        split_ifs with h1 h2
        · rfl
        · rcases r1 with _ | ⟨c2, r2⟩
          · rfl
          · simp only [List.map_cons]
            rcases spaceOut_cases utf8 c2 with ⟨d1, d2⟩ | d1
            · have c62 : c2 ≠ 62 := by rcases d2 with h | h | h | h <;> omega
              have c45 : c2 ≠ 45 := by rcases d2 with h | h | h | h <;> omega
              rw [d1]
              simp only [c62, c45, if_false, show ¬ ((32 : Nat) = 62) by decide,
                show ¬ ((32 : Nat) = 45) by decide]
              exact tagLoop_map utf8 _ r2 _ _ false le_rfl
            · rw [d1]
              split_ifs with h3 h4
              · rfl
              · rcases r2 with _ | ⟨c3, r3⟩
                · rfl
                · simp only [List.map_cons]
                  rcases spaceOut_cases utf8 c3 with ⟨k1, k2⟩ | k1
                  · have c62 : c3 ≠ 62 := by rcases k2 with h | h | h | h <;> omega
                    have c45 : c3 ≠ 45 := by rcases k2 with h | h | h | h <;> omega
                    rw [k1]
                    simp only [c62, if_false, show ¬ ((32 : Nat) = 62) by decide]
                    apply commentLoop_map
                    have e : ∀ x : Nat, [c, c2, x] = [c, c2] ++ [x] := fun x => rfl
                    rw [e, e, dashes_append_other _ _ c45,
                      dashes_append_other _ _ (show (32 : Nat) ≠ 45 by decide)]
                  · rw [k1]
                    split_ifs
                    · rfl
                    · exact commentLoop_map utf8 r3 _ _ rfl
              · exact tagLoop_map utf8 _ r2 _ _ false le_rfl
        · exact tagLoop_map utf8 _ r1 _ _ false le_rfl

theorem getNonTagLoop_map (utf8 : Bool) (fuel : Nat) :
    ∀ (l buf : List Nat) (amp : Nat) (f : Bool),
    getNonTagLoop utf8 fuel (l.map (spaceOut utf8)) buf amp f =
      (getNonTagLoop utf8 fuel l buf amp f).map
        (fun r => (r.1, r.2.map (spaceOut utf8))) := by
  induction fuel with
  | zero => intro l buf amp f; rfl
  | succ fuel ih =>
    intro l buf amp f
    rcases l with _ | ⟨c, rest⟩
    · rfl
    · by_cases hc : c = 60
      · subst hc
        have h60 : spaceOut utf8 60 = 60 := by simp [spaceOut]
        by_cases hb : 0 < buf.length
        · simp [getNonTagLoop, h60, hb]
        · have e := getTagFrom_map utf8 (60 :: rest)
          rw [List.map_cons, h60] at e
          have hb2 : buf.length = 0 := by omega
          simp only [List.map_cons, h60, getNonTagLoop, if_true, hb2, lt_irrefl, if_false]
          rw [e, ih]
      · have hg : spaceOut utf8 c ≠ 60 := by
          rcases spaceOut_cases utf8 c with ⟨h1, _⟩ | h1
          · rw [h1]; decide
          · rw [h1]; exact hc
        simp only [List.map_cons, getNonTagLoop, hc, hg, if_false, nonTagStep_spaceOut]
        rw [ih]

theorem getNonTag_map (utf8 f0 : Bool) (mem : List Nat) (p : Nat) :
    (getNonTag utf8 f0 ⟨mem.map (spaceOut utf8), p⟩).map (fun r => (r.1, r.2.readptr)) =
      (getNonTag utf8 f0 ⟨mem, p⟩).map (fun r => (r.1, r.2.readptr)) := by
  have hu : (⟨mem.map (spaceOut utf8), p⟩ : memBuf).unread =
      ((⟨mem, p⟩ : memBuf).unread).map (spaceOut utf8) := by
    simp [memBuf.unread, List.map_drop]
  unfold getNonTag
  have he : memEof ⟨mem.map (spaceOut utf8), p⟩ = memEof ⟨mem, p⟩ := by
    unfold memEof
    rw [hu]
    cases (⟨mem, p⟩ : memBuf).unread <;> rfl
  rw [he]
  split_ifs
  · rfl
  · rw [hu, List.length_map, getNonTagLoop_map]
    rcases getNonTagLoop utf8 ((⟨mem, p⟩ : memBuf).unread.length + 1)
      (⟨mem, p⟩ : memBuf).unread [] 0 f0 with _ | r
    · rfl
    · simp [memBuf.advanceTo, hu]

theorem mem_cstr (x : Nat) (T : List Nat) (h : x ∈ cstr T) : x ∈ T := by
  unfold cstr at h
  exact (List.takeWhile_sublist _).subset h

theorem Clean_no_ws (utf8 : Bool) (T : List Nat) (h : Clean utf8 T) (x : Nat) (hx : x ∈ T) :
    x ≠ 0x82 ∧ x ≠ 0xA0 ∧ x ≠ 0xC2 ∧ (utf8 = false → x ≠ 0xC3) := by
  rcases h.2.2 x hx with h1 | h1
  · subst h1
    refine ⟨by decide, by decide, by decide, fun _ => by decide⟩
  · refine ⟨?_, ?_, ?_, ?_⟩
    · rintro rfl; simp [isTextWs] at h1
    · rintro rfl; simp [isTextWs] at h1
    · rintro rfl; simp [isTextWs] at h1
    · rintro hu rfl; subst hu; simp [isTextWs] at h1

/-- Claim C20: on input without `&`, in both modes, `getNonTag` returns, and the text it
returns holds none of the bytes `82`, `A0`, `C2` (nor `C3` unless the output is UTF-8); on
every input, replacing each such byte by a space byte changes neither the returned text nor the
cursor.  In UTF-8 mode the input `C3 A0` returns the one byte `C3`, and `a C2 A3 b` returns
`a 20 A3 b`. -/
theorem C20_high_bytes_are_spaces (utf8 f0 : Bool) :
    (∀ mp : memBuf, 38 ∉ mp.unread →
      ∃ r, getNonTag utf8 f0 mp = some r ∧
        ∀ tok, r.1 = some tok →
          0x82 ∉ tok ∧ 0xA0 ∉ tok ∧ 0xC2 ∉ tok ∧ (utf8 = false → 0xC3 ∉ tok)) ∧
    (∀ (mem : List Nat) (p : Nat),
      (getNonTag utf8 f0 ⟨mem.map (spaceOut utf8), p⟩).map (fun r => (r.1, r.2.readptr)) =
        (getNonTag utf8 f0 ⟨mem, p⟩).map (fun r => (r.1, r.2.readptr))) ∧
    getNonTag true f0 ⟨[0xC3, 0xA0], 0⟩ = some (some [0xC3], ⟨[0xC3, 0xA0], 2⟩) ∧
    getNonTag true f0 ⟨[97, 0xC2, 0xA3, 98], 0⟩ =
      some (some [97, 0x20, 0xA3, 98], ⟨[97, 0xC2, 0xA3, 98], 4⟩) := by
  refine ⟨?_, getNonTag_map utf8 f0, ?_, ?_⟩
  · intro mp hamp
    obtain ⟨r, hr, h⟩ := getNonTag_clean utf8 f0 mp hamp
    refine ⟨r, hr, ?_⟩
    intro tok htok
    obtain ⟨T, rfl, _, hC, _, _⟩ := h tok htok
    refine ⟨?_, ?_, ?_, ?_⟩
    · exact fun hx => (Clean_no_ws utf8 T hC _ (mem_cstr _ T hx)).1 rfl
    · exact fun hx => (Clean_no_ws utf8 T hC _ (mem_cstr _ T hx)).2.1 rfl
    · exact fun hx => (Clean_no_ws utf8 T hC _ (mem_cstr _ T hx)).2.2.1 rfl
    · exact fun hu hx => (Clean_no_ws utf8 T hC _ (mem_cstr _ T hx)).2.2.2 hu rfl
  · cases f0 <;> decide
  · cases f0 <;> decide

theorem C20_high_bytes_are_spaces_witness :
    38 ∉ (⟨[97, 0xC2, 0xA3, 98], 0⟩ : memBuf).unread ∧
      ∃ r, getNonTag true false ⟨[97, 0xC2, 0xA3, 98], 0⟩ = some r ∧
        ∀ tok, r.1 = some tok →
          0x82 ∉ tok ∧ 0xA0 ∉ tok ∧ 0xC2 ∉ tok ∧ (true = false → 0xC3 ∉ tok) :=
  ⟨by decide, (C20_high_bytes_are_spaces true false).1 ⟨[97, 0xC2, 0xA3, 98], 0⟩ (by decide)⟩

/-! ## `getTableCell` on a cell with inner markup -/

theorem tagCursor_memory (n : Nat) : ∀ mp : memBuf, (tagCursor n mp).memory = mp.memory := by
  induction n with
  | zero => intro mp; rfl
  | succ n ih => intro mp; rw [tagCursor, ih, getTag_memory]

theorem tagToks_full (n : Nat) (mp : memBuf) (h : (tagToks (n + 1) mp).length = n + 1) :
    ∃ cp mp1, getTag mp = (some cp, mp1) ∧ tagToks (n + 1) mp = cp :: tagToks n mp1 ∧
      (tagToks n mp1).length = n ∧ tagCursor (n + 1) mp = tagCursor n mp1 := by
  rcases hg : getTag mp with ⟨_ | cp, mp1⟩
  · rw [tagToks_none _ mp mp1 hg] at h
    simp at h
  · have e := tagToks_succ_some n mp mp1 cp hg
    rw [e, List.length_cons] at h
    refine ⟨cp, mp1, rfl, e, by omega, ?_⟩
    rw [tagCursor, hg]

theorem tagCursor_unread (n : Nat) : ∀ mp : memBuf, (tagToks n mp).length = n →
    (tagCursor n mp).unread.length + n ≤ mp.unread.length := by
  induction n with
  | zero => intro mp _; exact le_rfl
  | succ n ih =>
    intro mp h
    obtain ⟨cp, mp1, hg, _, hl, hc⟩ := tagToks_full n mp h
    have := getTag_some mp mp1 cp hg
    have := ih mp1 hl
    rw [hc]
    omega

theorem depthFrom_cons (d : Int) (cp : List Nat) (t : List (List Nat)) :
    depthFrom d (cp :: t) = depthFrom (depthFrom d [cp]) t := by
  simp only [depthFrom, List.countP_cons, List.countP_nil]
  push_cast
  ring

theorem isCellTag_not_table (cp : List Nat) (h : isCellTag cp = true) :
    isTableTag cp = false ∧ cp ≠ bytes "/table" := by
  constructor
  · simp only [isCellTag, strncmpEq, Bool.and_eq_true, Bool.or_eq_true, beq_iff_eq] at h
    cases ht : isTableTag cp
    · rfl
    · exfalso
      simp only [isTableTag, strncmpEq, Bool.and_eq_true, beq_iff_eq] at ht
      have h5 := congrArg (List.take 2) ht.1
      rw [List.take_take, List.take_take] at h5
      have e : min 2 5 = 2 := rfl
      rw [e] at h5
      rcases h.1 with h2 | h2
      · rw [h2] at h5; revert h5; decide
      · rw [h2] at h5; revert h5; decide
  · rintro rfl
    revert h
    decide

theorem getTableCellLoop_passed (cells : Bool) (n : Nat) :
    ∀ (mp : memBuf) (d : Int) (start fuel : Nat),
    1 ≤ d → (tagToks n mp).length = n → passedOver cells d (tagToks n mp) = true →
    1 ≤ depthFrom d (tagToks n mp) ∧
      ∃ start2, (cells = false → start2 = start) ∧
        getTableCellLoop (fuel + n) mp d start =
          getTableCellLoop fuel (tagCursor n mp) (depthFrom d (tagToks n mp)) start2 := by
  induction n with
  | zero =>
    intro mp d start fuel hd _ _
    rw [tagToks_zero, depthFrom_nil]
    exact ⟨hd, start, fun _ => rfl, rfl⟩
  | succ n ih =>
    intro mp d start fuel hd hl hp
    obtain ⟨cp, mp1, hg, ht, hl1, hc⟩ := tagToks_full n mp hl
    rw [ht] at hp ⊢
    rw [hc, depthFrom_cons]
    rw [passedOver, Bool.and_eq_true, Bool.not_eq_true'] at hp
    obtain ⟨hp1, hp2⟩ := hp
    rw [← Nat.add_assoc, getTableCellLoop, hg]
    simp only
    by_cases h1 : d = 1
    · subst h1
      simp only [beq_self_eq_true, Bool.true_and, Bool.or_eq_false_iff, Bool.and_eq_false_iff,
        Bool.not_eq_false', beq_eq_false_iff_ne, ne_eq] at hp1
      obtain ⟨⟨⟨⟨a1, a2⟩, a3⟩, a4⟩, a5⟩ := hp1
      by_cases hcell : isCellTag cp = true
      · have hcells : cells = true := by
          rcases a1 with h | h
          · exact h
          · rw [hcell] at h; exact absurd h (by decide)
        obtain ⟨b1, _⟩ := isCellTag_not_table cp hcell
        have ho : ¬ isTableTag cp = true := by rw [b1]; decide
        rw [depthFrom_cons_other 1 cp [] a5 ho, depthFrom_nil] at hp2 ⊢
        obtain ⟨i1, s2, _, i3⟩ := ih mp1 1 mp1.readptr fuel hd hl1 hp2
        refine ⟨i1, s2, fun h => absurd (hcells.symm.trans h) (by decide), ?_⟩
        simp only [hcell, and_self, if_true]
        exact i3
      · by_cases ho : isTableTag cp = true
        · rw [depthFrom_cons_open 1 cp [] a5 ho, depthFrom_nil] at hp2 ⊢
          obtain ⟨i1, s2, i2, i3⟩ := ih mp1 (1 + 1) start fuel (by omega) hl1 hp2
          refine ⟨i1, s2, i2, ?_⟩
          simp only [hcell, a2, a3, a4, a5, ho, Bool.false_eq_true, and_false, or_self, if_false,
            if_true]
          exact i3
        · rw [depthFrom_cons_other 1 cp [] a5 ho, depthFrom_nil] at hp2 ⊢
          obtain ⟨i1, s2, i2, i3⟩ := ih mp1 1 start fuel hd hl1 hp2
          refine ⟨i1, s2, i2, ?_⟩
          simp only [hcell, a2, a3, a4, a5, ho, Bool.false_eq_true, and_false, or_self, if_false]
          exact i3
    · by_cases hc2 : cp = bytes "/table"
      · subst hc2
        rw [depthFrom_cons_close, depthFrom_nil] at hp2 ⊢
        have hd2 : d - 1 ≠ 0 := by omega
        obtain ⟨i1, s2, i2, i3⟩ := ih mp1 (d - 1) start fuel (by omega) hl1 hp2
        refine ⟨i1, s2, i2, ?_⟩
        simp only [h1, false_and, if_false, if_true, hd2]
        exact i3
      · by_cases ho : isTableTag cp = true
        · rw [depthFrom_cons_open d cp [] hc2 ho, depthFrom_nil] at hp2 ⊢
          obtain ⟨i1, s2, i2, i3⟩ := ih mp1 (d + 1) start fuel (by omega) hl1 hp2
          refine ⟨i1, s2, i2, ?_⟩
          simp only [h1, false_and, if_false, hc2, ho, if_true]
          exact i3
        · rw [depthFrom_cons_other d cp [] hc2 ho, depthFrom_nil] at hp2 ⊢
          obtain ⟨i1, s2, i2, i3⟩ := ih mp1 d start fuel hd hl1 hp2
          refine ⟨i1, s2, i2, ?_⟩
          simp only [h1, false_and, if_false, hc2, ho]
          exact i3

theorem getTableCellLoop_close (mem : List Nat) (q start : Nat) (th : Bool) (junk R : List Nat)
    (h : mem.drop q = junk ++ (cellClose th ++ R)) (hj : 60 ∉ junk) :
    getTableCellLoop 1 ⟨mem, q⟩ 1 start =
      some (some (cstr ((mem.drop start).take (q + junk.length - start))),
        ⟨mem, q + junk.length + 5⟩) := by
  have g2 := getTag_close mem q th junk R h hj
  have h3 : ∃ close, cellClose th ++ R = 60 :: (close ++ R) ∧ close.length = 4 ∧ 60 ∉ close := by
    cases th
    · exact ⟨bytes "/td>", rfl, rfl, by decide⟩
    · exact ⟨bytes "/th>", rfl, rfl, by decide⟩
  obtain ⟨close, hcl1, hcl2, hcl3⟩ := h3
  rw [hcl1] at h
  obtain ⟨s1, _⟩ := cell_text_at mem q junk close R h hcl2 hcl3
  have i2 : isCellTag (if th then bytes "/th" else bytes "/td") = false := by cases th <;> decide
  have i3 : ((if th then bytes "/th" else bytes "/td") = bytes "/td" ∨
      (if th then bytes "/th" else bytes "/td") = bytes "/th") := by cases th <;> decide
  rw [getTableCellLoop, g2]
  simp only [i2, i3, Bool.false_eq_true, and_false, if_false, and_self, if_true]
  rw [s1, Nat.add_assoc]

/-- Claim C15 (the claim as stated fails): at `<td>a`, NUL, `b</td>` the raw bytes between the
opening tag and the closing tag are `a`, NUL, `b`, but the cell returned is the C string `a`;
at `<td>a<td>b</td>`, where a second cell-opening tag is read at depth 1 before the closing
tag, the cell returned is `b`, not the bytes `a<td>b` behind the first opening tag; and at
`<td>a</td`, NUL, `<>`, whose closing tag is the token `/td`, the cell returned is `a</td`,
not the byte `a` before the `<` of the closing tag. -/
theorem C15_counterexample :
    (getTableCell ⟨bytes "<td>a" ++ [0] ++ bytes "b</td>", 0⟩ =
        some (some (bytes "a"), ⟨bytes "<td>a" ++ [0] ++ bytes "b</td>", 12⟩) ∧
      ((bytes "<td>a" ++ [0] ++ bytes "b</td>").drop 4).take 3 = [97, 0, 98] ∧
      bytes "a" ≠ [97, 0, 98]) ∧
    (getTableCell ⟨bytes "<td>a<td>b</td>", 0⟩ =
        some (some (bytes "b"), ⟨bytes "<td>a<td>b</td>", 15⟩) ∧
      ((bytes "<td>a<td>b</td>").drop 4).take 6 = bytes "a<td>b" ∧
      bytes "b" ≠ bytes "a<td>b") ∧
    (getTag ⟨bytes "<td>a</td" ++ [0] ++ bytes "<>", 4⟩ =
        (some (bytes "/td"), ⟨bytes "<td>a</td" ++ [0] ++ bytes "<>", 12⟩) ∧
      getTableCell ⟨bytes "<td>a</td" ++ [0] ++ bytes "<>", 0⟩ =
        some (some (bytes "a</td"), ⟨bytes "<td>a</td" ++ [0] ++ bytes "<>", 12⟩) ∧
      bytes "a</td" ≠ bytes "a") := by
  refine ⟨⟨by decide, by decide, by decide⟩, ⟨by decide, by decide, by decide⟩,
    ⟨by decide, by decide, by decide⟩⟩

/-- Claim C15 (amended): let `getTableCell`, called at `p`, first read `n` tags at which it
goes on reading (at depth 1 none of `/td`, `/th`, `/tr`, `/table`; cell-opening tags may be
among them) and be back at depth 1; then read a `td` or `th` tag, after which the cursor is
`s`; then `m` more tags at which it goes on reading, none of them a cell-opening tag at
depth 1, whatever they are at greater depth, and be back at depth 1 with the cursor at `q`;
then, after bytes without `<`, the closing tag written `</td>` or `</th>`.  If the input
bytes from `s` up to the `<` of that closing tag hold no NUL byte, the call returns exactly
those bytes and leaves the cursor behind the closing tag. -/
theorem C15_cell_capture (mem : List Nat) (p n m s q : Nat) (o : List Nat) (th : Bool)
    (junk R : List Nat)
    (hl1 : (tagToks n ⟨mem, p⟩).length = n)
    (hp1 : passedOver true 1 (tagToks n ⟨mem, p⟩) = true)
    (hd1 : depthFrom 1 (tagToks n ⟨mem, p⟩) = 1)
    (hopen : getTag (tagCursor n ⟨mem, p⟩) = (some o, ⟨mem, s⟩))
    (hoc : isCellTag o = true)
    (hl2 : (tagToks m ⟨mem, s⟩).length = m)
    (hp2 : passedOver false 1 (tagToks m ⟨mem, s⟩) = true)
    (hd2 : depthFrom 1 (tagToks m ⟨mem, s⟩) = 1)
    (hq : (tagCursor m ⟨mem, s⟩).readptr = q)
    (hclose : mem.drop q = junk ++ (cellClose th ++ R))
    (hj : 60 ∉ junk)
    (h0 : 0 ∉ (mem.drop s).take (q + junk.length - s)) :
    getTableCell ⟨mem, p⟩ =
      some (some ((mem.drop s).take (q + junk.length - s)), ⟨mem, q + junk.length + 5⟩) := by
  have hK : tagCursor m ⟨mem, s⟩ = ⟨mem, q⟩ := by
    have := tagCursor_memory m ⟨mem, s⟩
    rcases hk : tagCursor m ⟨mem, s⟩ with ⟨a, b⟩
    rw [hk] at this hq
    simp only at this hq
    rw [this, hq]
  obtain ⟨_, s1, _, r1⟩ := getTableCellLoop_passed true n ⟨mem, p⟩ 1 p (m + 2) le_rfl hl1 hp1
  rw [hd1] at r1
  have r2 : getTableCellLoop (m + 2) (tagCursor n ⟨mem, p⟩) 1 s1 =
      getTableCellLoop (1 + m) ⟨mem, s⟩ 1 s := by
    rw [getTableCellLoop, hopen]
    simp only [hoc, and_self, if_true]
    rw [Nat.add_comm 1 m]
  obtain ⟨_, s2, hs2, r3⟩ := getTableCellLoop_passed false m ⟨mem, s⟩ 1 s 1 le_rfl hl2 hp2
  rw [hs2 rfl, hd2, hK, getTableCellLoop_close mem q s th junk R hclose hj] at r3
  rw [r2, r3, cstr_eq_self _ (fun c hc h => h0 (h ▸ hc))] at r1
  have u1 := tagCursor_unread n ⟨mem, p⟩ hl1
  have u2 := getTag_some _ _ _ hopen
  have u3 := tagCursor_unread m ⟨mem, s⟩ hl2
  rw [hK] at u3
  have u4 : 5 ≤ (⟨mem, q⟩ : memBuf).unread.length := by
    simp only [memBuf.unread, hclose, List.length_append]
    have : (cellClose th).length = 5 := by cases th <;> rfl
    omega
  unfold getTableCell
  exact getTableCellLoop_mono _ _ _ _ _ r1 _ (by omega)

/-- Claim C15 witness: after `getTableStart` on
`<table><tr><td>x<table><tr><td>y</td></tr></table> z</td></tr></table>` the call of
`getTableCell` returns `x<table><tr><td>y</td></tr></table> z`. -/
theorem C15_cell_capture_witness :
    getTableStart
        ⟨bytes "<table><tr><td>x<table><tr><td>y</td></tr></table> z</td></tr></table>", 0⟩ =
      some (some (bytes "table"),
        ⟨bytes "<table><tr><td>x<table><tr><td>y</td></tr></table> z</td></tr></table>", 7⟩) ∧
    getTableCell
        ⟨bytes "<table><tr><td>x<table><tr><td>y</td></tr></table> z</td></tr></table>", 7⟩ =
      some (some (bytes "x<table><tr><td>y</td></tr></table> z"),
        ⟨bytes "<table><tr><td>x<table><tr><td>y</td></tr></table> z</td></tr></table>", 57⟩) :=
  ⟨by decide,
    C15_cell_capture
      (bytes "<table><tr><td>x<table><tr><td>y</td></tr></table> z</td></tr></table>")
      7 1 6 15 50 (bytes "td") false (bytes " z") (bytes "</tr></table>")
      (by decide) (by decide) (by decide) (by decide) (by decide) (by decide) (by decide)
      (by decide) (by decide) (by decide) (by decide) (by decide)⟩

/-! ## The accent tables -/

/-- C18 (the claim as stated fails): in UTF-8 mode `getNonTag` on `&xuml;` and on `&1uml;`
does not return the literal text. -/
theorem C18_counterexample :
    ¬ ((getNonTag true false ⟨bytes "&xuml;", 0⟩).map (fun r => r.1) = some (some (bytes "&xuml;"))) ∧
    ¬ ((getNonTag true false ⟨bytes "&1uml;", 0⟩).map (fun r => r.1) = some (some (bytes "&1uml;"))) := by
  constructor <;> decide

set_option maxRecDepth 1000000 in
theorem placeholder_acute_0 :
    ∀ b ∈ List.range' 0 64, placeholderAt (bytes "acute") acute2utf8 b = true := by
  decide!

set_option maxRecDepth 1000000 in
theorem placeholder_acute_1 :
    ∀ b ∈ List.range' 64 64, placeholderAt (bytes "acute") acute2utf8 b = true := by
  decide!

set_option maxRecDepth 1000000 in
theorem placeholder_acute_2 :
    ∀ b ∈ List.range' 128 64, placeholderAt (bytes "acute") acute2utf8 b = true := by
  decide!

set_option maxRecDepth 1000000 in
theorem placeholder_acute_3 :
    ∀ b ∈ List.range' 192 64, placeholderAt (bytes "acute") acute2utf8 b = true := by
  decide!

set_option maxRecDepth 1000000 in
theorem placeholder_grave_0 :
    ∀ b ∈ List.range' 0 64, placeholderAt (bytes "grave") grave2utf8 b = true := by
  decide!

set_option maxRecDepth 1000000 in
theorem placeholder_grave_1 :
    ∀ b ∈ List.range' 64 64, placeholderAt (bytes "grave") grave2utf8 b = true := by
  decide!

set_option maxRecDepth 1000000 in
theorem placeholder_grave_2 :
    ∀ b ∈ List.range' 128 64, placeholderAt (bytes "grave") grave2utf8 b = true := by
  decide!

set_option maxRecDepth 1000000 in
theorem placeholder_grave_3 :
    ∀ b ∈ List.range' 192 64, placeholderAt (bytes "grave") grave2utf8 b = true := by
  decide!

set_option maxRecDepth 1000000 in
theorem placeholder_cedil_0 :
    ∀ b ∈ List.range' 0 64, placeholderAt (bytes "cedil") cedil2utf8 b = true := by
  decide!

set_option maxRecDepth 1000000 in
theorem placeholder_cedil_1 :
    ∀ b ∈ List.range' 64 64, placeholderAt (bytes "cedil") cedil2utf8 b = true := by
  decide!

set_option maxRecDepth 1000000 in
theorem placeholder_cedil_2 :
    ∀ b ∈ List.range' 128 64, placeholderAt (bytes "cedil") cedil2utf8 b = true := by
  decide!

set_option maxRecDepth 1000000 in
theorem placeholder_cedil_3 :
    ∀ b ∈ List.range' 192 64, placeholderAt (bytes "cedil") cedil2utf8 b = true := by
  decide!

set_option maxRecDepth 1000000 in
theorem placeholder_circ_0 :
    ∀ b ∈ List.range' 0 64, placeholderAt (bytes "circ") circ2utf8 b = true := by
  decide!

set_option maxRecDepth 1000000 in
theorem placeholder_circ_1 :
    ∀ b ∈ List.range' 64 64, placeholderAt (bytes "circ") circ2utf8 b = true := by
  decide!

set_option maxRecDepth 1000000 in
theorem placeholder_circ_2 :
    ∀ b ∈ List.range' 128 64, placeholderAt (bytes "circ") circ2utf8 b = true := by
  decide!

set_option maxRecDepth 1000000 in
theorem placeholder_circ_3 :
    ∀ b ∈ List.range' 192 64, placeholderAt (bytes "circ") circ2utf8 b = true := by
  decide!

set_option maxRecDepth 1000000 in
theorem placeholder_tilde_0 :
    ∀ b ∈ List.range' 0 64, placeholderAt (bytes "tilde") tilde2utf8 b = true := by
  decide!

set_option maxRecDepth 1000000 in
theorem placeholder_tilde_1 :
    ∀ b ∈ List.range' 64 64, placeholderAt (bytes "tilde") tilde2utf8 b = true := by
  decide!

set_option maxRecDepth 1000000 in
theorem placeholder_tilde_2 :
    ∀ b ∈ List.range' 128 64, placeholderAt (bytes "tilde") tilde2utf8 b = true := by
  decide!

set_option maxRecDepth 1000000 in
theorem placeholder_tilde_3 :
    ∀ b ∈ List.range' 192 64, placeholderAt (bytes "tilde") tilde2utf8 b = true := by
  decide!

set_option maxRecDepth 1000000 in
theorem placeholder_uml_0 :
    ∀ b ∈ List.range' 0 64, placeholderAt (bytes "uml") uml2utf8 b = true := by
  decide!

set_option maxRecDepth 1000000 in
theorem placeholder_uml_1 :
    ∀ b ∈ List.range' 64 64, placeholderAt (bytes "uml") uml2utf8 b = true := by
  decide!

set_option maxRecDepth 1000000 in
theorem placeholder_uml_2 :
    ∀ b ∈ List.range' 128 64, placeholderAt (bytes "uml") uml2utf8 b = true := by
  decide!

set_option maxRecDepth 1000000 in
theorem placeholder_uml_3 :
    ∀ b ∈ List.range' 192 64, placeholderAt (bytes "uml") uml2utf8 b = true := by
  decide!

theorem placeholder_chunks (name tab : List Nat)
    (h0 : ∀ b ∈ List.range' 0 64, placeholderAt name tab b = true)
    (h1 : ∀ b ∈ List.range' 64 64, placeholderAt name tab b = true)
    (h2 : ∀ b ∈ List.range' 128 64, placeholderAt name tab b = true)
    (h3 : ∀ b ∈ List.range' 192 64, placeholderAt name tab b = true)
    (b : Nat) (hb : b < 256) : placeholderAt name tab b = true := by
  by_cases c1 : b < 64
  · exact h0 b (List.mem_range'_1.mpr ⟨by omega, by omega⟩)
  · by_cases c2 : b < 128
    · exact h1 b (List.mem_range'_1.mpr ⟨by omega, by omega⟩)
    · by_cases c3 : b < 192
      · exact h2 b (List.mem_range'_1.mpr ⟨by omega, by omega⟩)
      · exact h3 b (List.mem_range'_1.mpr ⟨by omega, by omega⟩)

theorem placeholder_all (e : namedentity_t) (he : e ∈ entity2utf8)
    (ht : e.t = namedentitytype_t.ne_table) (b : Nat) (hb : b < 256) :
    placeholderAt e.entity e.tab b = true := by
  simp only [entity2utf8, List.mem_cons, List.mem_singleton, List.not_mem_nil, or_false] at he
  rcases he with rfl | rfl | rfl | rfl | rfl | rfl | rfl | rfl | rfl | rfl | rfl
  · exact placeholder_chunks _ _ placeholder_acute_0 placeholder_acute_1 placeholder_acute_2
      placeholder_acute_3 b hb
  · exact placeholder_chunks _ _ placeholder_grave_0 placeholder_grave_1 placeholder_grave_2
      placeholder_grave_3 b hb
  · exact placeholder_chunks _ _ placeholder_cedil_0 placeholder_cedil_1 placeholder_cedil_2
      placeholder_cedil_3 b hb
  · exact placeholder_chunks _ _ placeholder_circ_0 placeholder_circ_1 placeholder_circ_2
      placeholder_circ_3 b hb
  · exact placeholder_chunks _ _ placeholder_tilde_0 placeholder_tilde_1 placeholder_tilde_2
      placeholder_tilde_3 b hb
  · exact placeholder_chunks _ _ placeholder_uml_0 placeholder_uml_1 placeholder_uml_2
      placeholder_uml_3 b hb
  all_goals exact absurd ht (by decide)

/-- C18 (amended): in UTF-8 mode, for every accent family of `entity2utf8` and every base
byte `b` other than `#`, `&`, `;` and `<` for which the table of the family has no mapping
(`b` outside `0x40..0x7F`, or the slot `b - 0x40` is zero), `getNonTag` on `&`, `b`, the family
name, `;` returns the single placeholder byte `?` that `conv2utf8` stores. -/
theorem C18_failed_lookup_gives_placeholder (e : namedentity_t) (he : e ∈ entity2utf8)
    (ht : e.t = namedentitytype_t.ne_table) (b : Nat) (hb : b < 256)
    (hsp : b ≠ 35 ∧ b ≠ 38 ∧ b ≠ 59 ∧ b ≠ 60)
    (hno : b < 0x40 ∨ 0x7F < b ∨ e.tab.getD (b - 0x40) 0 = 0) (f0 : Bool) :
    getNonTag true f0 ⟨38 :: b :: e.entity ++ [59], 0⟩ =
      some (some [63], ⟨38 :: b :: e.entity ++ [59], e.entity.length + 3⟩) :=
  of_decide_eq_true (placeholder_all e he ht b hb) hsp hno f0 (by cases f0 <;> simp)

/-- C18 witness: `&xuml;` returns `?`. -/
theorem C18_failed_lookup_gives_placeholder_witness :
    getNonTag true false ⟨bytes "&xuml;", 0⟩ = some (some (bytes "?"), ⟨bytes "&xuml;", 6⟩) :=
  C18_failed_lookup_gives_placeholder ⟨bytes "uml", namedentitytype_t.ne_table, uml2utf8, 0⟩
    (by decide) rfl 120 (by decide) (by decide) (by decide) false

/-- C19 (the claim as stated fails): the `grave` slot of `I` is empty and `0xC38C` sits in
the slot of `J`, whose name `Jgrave` is no HTML 4 entity; the `uml` slot of `S` holds
`0xC39F`, and `Suml` is no HTML 4 entity either. -/
theorem C19_counterexample :
    grave2utf8.getD (73 - 0x40) 0 = 0 ∧ grave2utf8.getD (74 - 0x40) 0 = 0xC38C ∧
    (∀ p ∈ html4Latin1, p.1 ≠ bytes "Jgrave") ∧
    uml2utf8.getD (83 - 0x40) 0 = 0xC39F ∧ (∀ p ∈ html4Latin1, p.1 ≠ bytes "Suml") := by
  decide

/-- C19 (amended): in the six accent tables every non-zero slot `i`, other than the `grave`
slots of `J` and `j`, either holds the two-byte UTF-8 encoding of the Latin-1 character that
HTML 4 names by the letter with code `0x40 + i` followed by the family name, or is one of the
`uml` slots of `S` and `s`, which hold `0xC39F`, the encoding of the character `DF` that
HTML 4 names `szlig`. -/
theorem C19_accent_tables (e : namedentity_t) (he : e ∈ entity2utf8)
    (ht : e.t = namedentitytype_t.ne_table) (i : Nat) (hi : i < 64)
    (hv : e.tab.getD i 0 ≠ 0)
    (hJ : ¬ (e.entity = bytes "grave" ∧ (i = 74 - 0x40 ∨ i = 106 - 0x40))) :
    (∃ p ∈ html4Latin1, p.1 = (0x40 + i) :: e.entity ∧ e.tab.getD i 0 = utf8Pair p.2) ∨
    (e.entity = bytes "uml" ∧ (i = 83 - 0x40 ∨ i = 115 - 0x40) ∧
      e.tab.getD i 0 = utf8Pair 0xDF) := by
  simp only [entity2utf8, List.mem_cons, List.mem_singleton, List.not_mem_nil, or_false] at he
  rcases he with rfl | rfl | rfl | rfl | rfl | rfl | rfl | rfl | rfl | rfl | rfl
  all_goals first
    | (exfalso; revert ht; decide)
    | (interval_cases i <;> first
        | (exfalso; revert hv; decide)
        | (exfalso; revert hJ; decide)
        | decide)

/-- C19 witness: the `uml` slot of `a` holds `0xC3A4`, the encoding of the character `E4`
that HTML 4 names `auml`. -/
theorem C19_accent_tables_witness :
    (∃ p ∈ html4Latin1, p.1 = bytes "auml" ∧ uml2utf8.getD 33 0 = utf8Pair p.2) ∨
    (bytes "uml" = bytes "uml" ∧ (33 = 83 - 0x40 ∨ 33 = 115 - 0x40) ∧
      uml2utf8.getD 33 0 = utf8Pair 0xDF) :=
  C19_accent_tables ⟨bytes "uml", namedentitytype_t.ne_table, uml2utf8, 0⟩ (by decide) rfl
    33 (by decide) (by decide) (by decide)

end Html
